import Mathlib

/-!
Verification development for the SawayakaTSR repository (src/tsr.py,
src/measurement.py): a shallow embedding of the two TSP approximation
pipelines (double-tree and Christofides) and of the measurement harness,
together with theorems settling the specification claims.

Conventions of the embedding:
* Vertices are natural numbers; edge weights are rationals.
* A cost matrix is a list of rows of `Option` weights (the diagonal is
  `none`, mirroring Python's `None`).
* `networkx.Graph` is embedded as an explicit structure holding the node
  insertion order and the edge insertion order; adjacency and the
  `G.edges` iteration order are derived from those lists exactly as the
  library derives them from its insertion-ordered dictionaries.
* Python exceptions (the "not Eulerian" error, `IndexError`,
  `KeyError`) are embedded as `Option`: `none` is a raised exception.
* Wall-clock timing of the harness is not modelled.
-/

set_option maxHeartbeats 1600000

abbrev Weight := ℚ

/-- A cost matrix: rows of optional weights, `none` on the diagonal. -/
abbrev Mat := List (List (Option Weight))

/-- `costMatrix[i][j]` as a total lookup (out-of-range reads give `none`). -/
def entry (M : Mat) (i j : ℕ) : Option Weight := (M.getD i []).getD j none

/-- The weight read from the matrix, defaulting to `0` when absent.
On claim-relevant inputs the entry is always present. -/
def wt (M : Mat) (i j : ℕ) : Weight := (entry M i j).getD 0

/-- Embedding of `networkx.Graph`: node insertion order plus edge insertion
order (simple graph: at most one stored edge per unordered vertex pair). -/
structure Graph where
  nodes : List ℕ
  edges : List (ℕ × ℕ × Weight)
deriving Repr, DecidableEq

def Graph.empty : Graph := ⟨[], []⟩

/-- `add_node`: appended to the node order unless already present. -/
def Graph.addNode (G : Graph) (v : ℕ) : Graph :=
  if v ∈ G.nodes then G else ⟨G.nodes ++ [v], G.edges⟩

/-- Whether a stored edge joins the unordered pair `{u, v}`. -/
def sameEdge (u v : ℕ) (e : ℕ × ℕ × Weight) : Bool :=
  (e.1 == u && e.2.1 == v) || (e.1 == v && e.2.1 == u)

/-- `G.add_edge(u, v, weight=w)`: inserts missing endpoints into the node
order, then stores the edge; if the pair is already present its weight is
replaced in place (networkx updates the edge-data dictionary). -/
def Graph.addEdge (G : Graph) (u v : ℕ) (w : Weight) : Graph :=
  let G1 := (G.addNode u).addNode v
  if G1.edges.any (sameEdge u v) then
    ⟨G1.nodes, G1.edges.map (fun e => if sameEdge u v e then (e.1, e.2.1, w) else e)⟩
  else ⟨G1.nodes, G1.edges ++ [(u, v, w)]⟩

/-- `G.adj[v]` in iteration order: one entry per incident stored edge, in
edge insertion order (networkx appends a neighbour when its edge is added). -/
def Graph.nbrs (G : Graph) (v : ℕ) : List ℕ :=
  G.edges.filterMap (fun e =>
    if e.1 = v then some e.2.1 else if e.2.1 = v then some e.1 else none)

/-- `G.degree[v]`. -/
def Graph.degree (G : Graph) (v : ℕ) : ℕ := (G.nbrs v).length

/-- `G[u][v]["weight"]` as an optional lookup. -/
def Graph.edgeWeight (G : Graph) (u v : ℕ) : Option Weight :=
  (G.edges.find? (fun e => sameEdge u v e)).map (fun e => e.2.2)

/-- `G[u][v]["weight"]`, defaulting to `0` when the edge is absent (a
`KeyError` in Python; never reached on claim-relevant inputs). -/
def Graph.wt (G : Graph) (u v : ℕ) : Weight := (G.edgeWeight u v).getD 0

/-- Helper for `Graph.edgeView`: nodes still to process, nodes already
processed (`seen`). -/
def edgeViewAux (G : Graph) : List ℕ → List ℕ → List (ℕ × ℕ × Weight)
  | [], _ => []
  | n :: rest, seen =>
      ((G.nbrs n).filterMap (fun m =>
          if m ∈ seen then none else some (n, m, G.wt n m)))
        ++ edgeViewAux G rest (n :: seen)

/-- `G.edges.data()` iteration: nodes in node order, each node's
neighbours in adjacency order, skipping neighbours already processed, so
every stored edge is reported exactly once. -/
def Graph.edgeView (G : Graph) : List (ℕ × ℕ × Weight) := edgeViewAux G G.nodes []

/-- `_create_weighted_graph` (src/tsr.py:87-111): one edge per pair
`i < j` weighted `costMatrix[i][j]`. -/
def create_weighted_graph (M : Mat) : Graph :=
  (List.range M.length).foldl
    (fun G i =>
      (List.range' (i + 1) ((M.getD i []).length - (i + 1))).foldl
        (fun G2 j => G2.addEdge i j (wt M i j)) G)
    Graph.empty

/-- Embedding of `networkx.MultiGraph`: every `add_edge` appends one more
parallel edge. -/
structure MGraph where
  nodes : List ℕ
  edges : List (ℕ × ℕ × Weight)
deriving Repr, DecidableEq

def MGraph.empty : MGraph := ⟨[], []⟩

def MGraph.addNode (G : MGraph) (v : ℕ) : MGraph :=
  if v ∈ G.nodes then G else ⟨G.nodes ++ [v], G.edges⟩

def MGraph.addEdge (G : MGraph) (u v : ℕ) (w : Weight) : MGraph :=
  let G1 := (G.addNode u).addNode v
  ⟨G1.nodes, G1.edges ++ [(u, v, w)]⟩

/-- Multigraph degree: each parallel edge contributes to both endpoints. -/
def MGraph.degree (G : MGraph) (v : ℕ) : ℕ :=
  (G.edges.map (fun e => (if e.1 = v then 1 else 0) + (if e.2.1 = v then 1 else 0))).sum

/-- `_duplicate_weighted_graph` (src/tsr.py:114-135): iterates every node
and each of its tree neighbours, so each tree edge is added twice (once
per direction) as two parallel copies of identical weight. -/
def duplicate_weighted_graph (T : Graph) : MGraph :=
  T.nodes.foldl
    (fun D v => (T.nbrs v).foldl (fun D2 w => D2.addEdge v w (T.wt v w)) D)
    MGraph.empty

/-- Other endpoints of the edges incident to `v`, with multiplicity. -/
def MGraph.incident (G : MGraph) (v : ℕ) : List ℕ :=
  G.edges.filterMap (fun e =>
    if e.1 = v then some e.2.1 else if e.2.1 = v then some e.1 else none)

/-- One round of reachability growth: adjoin every node joined by an edge
to the current reached set. -/
def reachStep (G : MGraph) (R : List ℕ) : List ℕ :=
  R ++ G.nodes.filter (fun v => !(R.contains v) && (G.incident v).any (fun u => R.contains u))

def reachIter (G : MGraph) : ℕ → List ℕ → List ℕ
  | 0, R => R
  | n + 1, R => reachIter G n (reachStep G R)

/-- Nodes reachable from the first node (saturating in `≤ |nodes|` rounds). -/
def MGraph.reachableFromHead (G : MGraph) : List ℕ :=
  reachIter G G.nodes.length [G.nodes.headD 0]

/-- `nx.is_connected`: every node reachable from the first node.  The
empty graph is treated as not connected (networkx raises
`NetworkXPointlessConcept` there; both outcomes abort the caller). -/
def MGraph.isConnected (G : MGraph) : Bool :=
  !(G.nodes.isEmpty) && G.nodes.all (fun v => (G.reachableFromHead).contains v)

/-- `nx.is_eulerian`: connected and every degree even. -/
def MGraph.isEulerianCheck (G : MGraph) : Bool :=
  G.isConnected && G.nodes.all (fun v => G.degree v % 2 == 0)

/-- Remove the first remaining edge incident to `v` (networkx's
`arbitrary_element` of the incident-edge iteration), returning the other
endpoint and the remaining edges. -/
def removeFirstIncident (v : ℕ) :
    List (ℕ × ℕ × Weight) → Option (ℕ × List (ℕ × ℕ × Weight))
  | [] => none
  | e :: rest =>
      if e.1 = v then some (e.2.1, rest)
      else if e.2.1 = v then some (e.1, rest)
      else (removeFirstIncident v rest).map (fun p => (p.1, e :: p.2))

/-- The stack loop of `nx.eulerian_circuit` (Hierholzer): while the stack
is nonempty, either extend from the top along a remaining incident edge,
or pop the top onto the output when it has no remaining edge.  The
returned list is the pop order, which is the vertex sequence of the
circuit.  `fuel` dominates the iteration count (each step removes an edge
or pops). -/
def eulerLoop : ℕ → List (ℕ × ℕ × Weight) → List ℕ → List ℕ → List ℕ
  | 0, _, _, P => P
  | fuel + 1, E, stack, P =>
      match stack with
      | [] => P
      | t :: rest =>
          match removeFirstIncident t E with
          | none => eulerLoop fuel E rest (P ++ [t])
          | some q => eulerLoop fuel q.2 (q.1 :: t :: rest) P

/-- The circuit's vertex sequence from `start`. -/
def eulerVertexSeq (G : MGraph) (start : ℕ) : List ℕ :=
  eulerLoop (2 * G.edges.length + 2) G.edges [start] []

/-- `_create_eulerian_path` (src/tsr.py:138-163): `nx.eulerian_circuit`
raises if the graph is not Eulerian (or `start` is no node: `KeyError`);
the source then reads the last element of the edge list, an `IndexError`
when the circuit is empty.  A raised exception is `none`. -/
def create_eulerian_path (G : MGraph) (start : ℕ) : Option (List ℕ) :=
  if G.isEulerianCheck && G.nodes.contains start then
    let P := eulerVertexSeq G start
    if P.length < 2 then none else some P
  else none

/-- The scan of `_create_hamiltonian_path`: keep each vertex only on its
first appearance (the accumulated output doubles as the seen set, whose
membership coincides with the Python `existedVertice` set). -/
def firstOccs : List ℕ → List ℕ → List ℕ
  | [], acc => acc
  | v :: rest, acc =>
      if v ∈ acc then firstOccs rest acc else firstOccs rest (acc ++ [v])

/-- `_create_hamiltonian_path` (src/tsr.py:166-195): first occurrences,
then the walk's first vertex appended to close the cycle (`P` is nonempty
at every call site; Python would raise on `eulerianPath[0]` otherwise). -/
def create_hamiltonian_path (P : List ℕ) : List ℕ :=
  firstOccs P [] ++ [P.headD 0]

/-- State of networkx's Prim loop: the heap (weight, push counter, source,
destination), the visited list, the tree edges found, the push counter. -/
structure PrimState where
  frontier : List (Weight × ℕ × ℕ × ℕ)
  visited : List ℕ
  mst : List (ℕ × ℕ × Weight)
  ctr : ℕ
deriving Repr

/-- Minimum of two heap entries in the heap order (weight, then counter;
counters are distinct, so this is decisive). -/
def heapMin (x y : Weight × ℕ × ℕ × ℕ) : Weight × ℕ × ℕ × ℕ :=
  if y.1 < x.1 ∨ (y.1 = x.1 ∧ y.2.1 < x.2.1) then y else x

/-- `heappop`: remove and return the least entry of the heap. -/
def popMin (f : List (Weight × ℕ × ℕ × ℕ)) :
    Option ((Weight × ℕ × ℕ × ℕ) × List (Weight × ℕ × ℕ × ℕ)) :=
  match f with
  | [] => none
  | x :: rest =>
      let m := rest.foldl heapMin x
      some (m, f.erase m)

/-- Push `(weight(v,w), counter, v, w)` for every neighbour `w` of `v` not
yet visited, in adjacency order, incrementing the counter per push. -/
def pushNbrs (G : Graph) (v : ℕ) (visited : List ℕ)
    (f : List (Weight × ℕ × ℕ × ℕ)) (ctr : ℕ) :
    List (Weight × ℕ × ℕ × ℕ) × ℕ :=
  (G.nbrs v).foldl
    (fun p w2 => if w2 ∈ visited then p else (p.1 ++ [(G.wt v w2, p.2, v, w2)], p.2 + 1))
    (f, ctr)

/-- The pop loop of networkx's `prim_mst_edges`: pop the least frontier
entry; skip it if its destination is already visited (a stale entry),
otherwise accept the edge and push the destination's unvisited
neighbours. -/
def primLoop (G : Graph) : ℕ → PrimState → PrimState
  | 0, s => s
  | fuel + 1, s =>
      match popMin s.frontier with
      | none => s
      | some (e, rest) =>
          let v := e.2.2.2
          if v ∈ s.visited then primLoop G fuel ⟨rest, s.visited, s.mst, s.ctr⟩
          else
            let p := pushNbrs G v (s.visited ++ [v]) rest s.ctr
            primLoop G fuel ⟨p.1, s.visited ++ [v], s.mst ++ [(e.2.2.1, v, e.1)], p.2⟩

/-- `nx.minimum_spanning_tree(graph, algorithm="prim")`: run Prim from the
first node (CPython's set-pop on the consecutive small integers stored
here; a single component pass, the input being connected), then build the
tree graph carrying all of `G`'s nodes in order plus the discovered edges
(`T.add_nodes_from(G.nodes)` then `T.add_edges_from(edges)`). -/
def minimum_spanning_tree (G : Graph) : Graph :=
  match G.nodes with
  | [] => ⟨G.nodes, []⟩
  | u :: _ =>
      let init := pushNbrs G u [u] [] 0
      let s := primLoop G (G.nodes.length * G.nodes.length + G.nodes.length + 1)
        ⟨init.1, [u], [], init.2⟩
      ⟨G.nodes, s.mst⟩

/-- `G.remove_node(v)`: drop the node and all incident edges. -/
def Graph.removeNode (G : Graph) (v : ℕ) : Graph :=
  ⟨G.nodes.filter (fun x => x != v),
   G.edges.filter (fun e => !(e.1 == v) && !(e.2.1 == v))⟩

/-- `_remove_even_degree_vertices` (src/tsr.py:198-223): start from a
fresh copy of `graph` (`nx.Graph(graph)`, value-identical to it), then
delete every spanning-tree vertex of even tree degree. -/
def remove_even_degree_vertices (G T : Graph) : Graph :=
  T.nodes.foldl (fun R v => if T.degree v % 2 = 0 then R.removeNode v else R) G

/-- Whether two stored edges share no endpoint. -/
def disjointEdge (e f : ℕ × ℕ × Weight) : Bool :=
  !(e.1 == f.1) && !(e.1 == f.2.1) && !(e.2.1 == f.1) && !(e.2.1 == f.2.1)

/-- All matchings (pairwise endpoint-disjoint edge subsets) of an edge list. -/
def matchingsOf : List (ℕ × ℕ × Weight) → List (List (ℕ × ℕ × Weight))
  | [] => [[]]
  | e :: rest =>
      let without := matchingsOf rest
      without ++ (without.filter (fun m => m.all (disjointEdge e))).map (fun m => e :: m)

def matchWeight (m : List (ℕ × ℕ × Weight)) : Weight := (m.map (fun e => e.2.2)).sum

/-- Pick the better of two matchings: larger cardinality, then larger
total weight. -/
def betterMatching (x y : List (ℕ × ℕ × Weight)) : List (ℕ × ℕ × Weight) :=
  if x.length < y.length ∨ (x.length = y.length ∧ matchWeight x < matchWeight y) then y else x

/-- Models the library call `nx.max_weight_matching(G, maxcardinality=True)`
by its documented contract: among the matchings of maximum cardinality,
one of maximum total weight (the library's blossom algorithm computes
such a matching; which optimum is returned when several tie is
unspecified there, and a fixed one is chosen here). -/
def max_weight_matching (G : Graph) : List (ℕ × ℕ) :=
  ((matchingsOf G.edgeView).foldl betterMatching []).map (fun e => (e.1, e.2.1))

/-- `_match_minimal_weight` (src/tsr.py:226-253): copy the graph with all
weights negated, run maximum-weight maximum-cardinality matching on it,
then rebuild a graph of the matched pairs carrying the original weights. -/
def match_minimal_weight (G : Graph) : Graph :=
  let tmpGraph := G.edgeView.foldl (fun H e => H.addEdge e.1 e.2.1 (-(e.2.2))) Graph.empty
  let matching := max_weight_matching tmpGraph
  matching.foldl (fun H p => H.addEdge p.1 p.2 (G.wt p.1 p.2)) Graph.empty

/-- `_merge_two_graphs` (src/tsr.py:256-280): `nx.MultiGraph(graph1)`
copies the first graph's nodes and edges, then every edge of the second
graph is appended as an additional parallel edge. -/
def merge_two_graphs (G1 G2 : Graph) : MGraph :=
  G2.edgeView.foldl (fun H e => H.addEdge e.1 e.2.1 e.2.2)
    (MGraph.mk G1.nodes G1.edgeView)

/-- `double_tree_algorithm` (src/tsr.py:7-41). -/
def double_tree_algorithm (M : Mat) (start : ℕ) : Option (List ℕ) :=
  let graph := create_weighted_graph M
  let spanningTree := minimum_spanning_tree graph
  let duplicatedSpanningTree := duplicate_weighted_graph spanningTree
  (create_eulerian_path duplicatedSpanningTree start).map create_hamiltonian_path

/-- `christofides_algorithm` (src/tsr.py:44-84). -/
def christofides_algorithm (M : Mat) (start : ℕ) : Option (List ℕ) :=
  let graph := create_weighted_graph M
  let spanningTree := minimum_spanning_tree graph
  let removedGraph := remove_even_degree_vertices graph spanningTree
  let matchingGraph := match_minimal_weight removedGraph
  let mergedGraph := merge_two_graphs spanningTree matchingGraph
  (create_eulerian_path mergedGraph start).map create_hamiltonian_path

/-- `_calc_total_cost` (src/measurement.py:118-142): sum of the weights of
consecutive route pairs. -/
def calc_total_cost (route : List ℕ) (M : Mat) : Weight :=
  (List.range (route.length - 1)).foldl
    (fun t i => t + wt M (route.getD i 0) (route.getD (i + 1) 0)) 0

/-- `_shuffle_cost_matrix` (src/measurement.py:79-115).  `perm` is the
outcome of `sample(indices, len(indices))`, drawn from the module-global
random state; the shuffled matrix is rebuilt entry by entry and the
shuffled start is `shuffledIndices.index(start)` (out-of-range/missing
indices, impossible on claim-relevant inputs, fall back to defaults). -/
def shuffle_cost_matrix (M : Mat) (start : ℕ) (perm : List ℕ) : Mat × ℕ :=
  let indices := List.range M.length
  let S := indices.map (fun i => indices.map (fun j => entry M (perm.getD i 0) (perm.getD j 0)))
  (S, perm.indexOf start)

/-- The trial loop of `run_two_algorithms`, consuming one drawn
permutation per trial; a trial whose algorithm run raises aborts the
whole harness (`none`).  Returned: double-tree routes, double-tree costs,
Christofides routes, Christofides costs, index-aligned by trial
(wall-clock timings are not modelled). -/
def run_trials (M : Mat) (start : ℕ) :
    List (List ℕ) → Option (List (List ℕ) × List Weight × List (List ℕ) × List Weight)
  | [] => some ([], [], [], [])
  | p :: rest =>
      let sh := shuffle_cost_matrix M start p
      match double_tree_algorithm sh.1 sh.2, christofides_algorithm sh.1 sh.2 with
      | some r1, some r2 =>
          (run_trials M start rest).map (fun q =>
            (r1 :: q.1, calc_total_cost r1 sh.1 :: q.2.1,
             r2 :: q.2.2.1, calc_total_cost r2 sh.1 :: q.2.2.2))
      | _, _ => none

/-- `run_two_algorithms` (src/measurement.py:10-77): `times` trials, each
drawing the next permutation from the global random stream `perms`. -/
def run_two_algorithms (M : Mat) (start times : ℕ) (perms : List (List ℕ)) :
    Option (List (List ℕ) × List Weight × List (List ℕ) × List Weight) :=
  run_trials M start (perms.take times)

/-! ## Well-formedness of cost matrices -/

/-- The input contract of the core: an `N × N` matrix, `none` exactly on
the diagonal, symmetric weights. -/
def SquareSym (M : Mat) (N : ℕ) : Prop :=
  M.length = N ∧ (∀ r ∈ M, r.length = N) ∧
  (∀ i, i < N → ∀ j, j < N → i ≠ j → (entry M i j).isSome = true) ∧
  (∀ i, i < N → entry M i i = none) ∧
  (∀ i, i < N → ∀ j, j < N → wt M i j = wt M j i)

instance (M : Mat) (N : ℕ) : Decidable (SquareSym M N) := by
  unfold SquareSym; infer_instance

/-- The 3-vertex example instance of the specification:
`w(0,1) = 1`, `w(1,2) = 1`, `w(0,2) = 3`. -/
def M3 : Mat := [[none, some 1, some 3], [some 1, none, some 1], [some 3, some 1, none]]

/-- The 7-vertex fixture matrix of `src/tsr.py` / `src/measurement.py`. -/
def M7 : Mat :=
  [[none, some 8, some 14, some 17, some 10, some 6, some 15],
   [some 8, none, some 6, some 15, some 18, some 3, some 12],
   [some 14, some 6, none, some 9, some 13, some 8, some 7],
   [some 17, some 15, some 9, none, some 7, some 12, some 3],
   [some 10, some 18, some 13, some 7, none, some 15, some 6],
   [some 6, some 3, some 8, some 12, some 15, none, some 9],
   [some 15, some 12, some 7, some 3, some 6, some 9, none]]

/-! ## Claim C8: the shuffler -/

theorem getD_map_range (n : ℕ) (f : ℕ → List (Option Weight)) (i : ℕ) (hi : i < n) :
    ((List.range n).map f).getD i [] = f i := by
  rw [List.getD_eq_getElem _ _ (by simpa using hi)]
  simp

theorem getD_map_range2 (n : ℕ) (f : ℕ → Option Weight) (j : ℕ) (hj : j < n) :
    ((List.range n).map f).getD j none = f j := by
  rw [List.getD_eq_getElem _ _ (by simpa using hj)]
  simp

/-- C8.  The relabeled matrix built by `_shuffle_cost_matrix` satisfies
`relabeled[i][j] = original[perm[i]][perm[j]]` for all indices, and the
returned start index is the position of the original start inside `perm`. -/
theorem claim_C8 (M : Mat) (N start : ℕ) (perm : List ℕ)
    (hlen : M.length = N) (hperm : perm.Perm (List.range N)) (hs : start < N) :
    (∀ i, i < N → ∀ j, j < N →
      entry (shuffle_cost_matrix M start perm).1 i j
        = entry M (perm.getD i 0) (perm.getD j 0)) ∧
    (shuffle_cost_matrix M start perm).2 < N ∧
    perm.getD (shuffle_cost_matrix M start perm).2 0 = start := by
  have hmem : start ∈ perm := hperm.mem_iff.mpr (by simpa using hs)
  have hplen : perm.length = N := by simpa using hperm.length_eq
  have hidx : perm.indexOf start < perm.length := List.indexOf_lt_length.mpr hmem
  refine ⟨?_, ?_, ?_⟩
  · intro i hi j hj
    unfold shuffle_cost_matrix entry
    simp only [hlen]
    rw [getD_map_range N _ i hi, getD_map_range2 N _ j hj]
  · simpa [shuffle_cost_matrix, hplen] using hidx
  · show perm.getD (shuffle_cost_matrix M start perm).2 0 = start
    have h2 : (shuffle_cost_matrix M start perm).2 = perm.indexOf start := rfl
    rw [h2, List.getD_eq_getElem _ _ hidx]
    exact List.getElem_indexOf hidx

/-- Witness for C8 at a concrete instance. -/
theorem claim_C8_witness :
    ((M3.length = 3 ∧ ([2, 0, 1] : List ℕ).Perm (List.range 3) ∧ 1 < 3) ∧
      (∀ i, i < 3 → ∀ j, j < 3 →
        entry (shuffle_cost_matrix M3 1 [2, 0, 1]).1 i j
          = entry M3 ([2, 0, 1].getD i 0) ([2, 0, 1].getD j 0)) ∧
      (shuffle_cost_matrix M3 1 [2, 0, 1]).2 < 3 ∧
      [2, 0, 1].getD (shuffle_cost_matrix M3 1 [2, 0, 1]).2 0 = 1) := by
  refine ⟨⟨by decide, by decide, by decide⟩, ?_⟩
  exact claim_C8 M3 3 1 [2, 0, 1] (by decide) (by decide) (by decide)

/-! ## Claim C9: the harness's randomness source

`src/measurement.py` imports the module-global `sample` (line 4) and draws
each trial's permutation from the global random state inside
`_shuffle_cost_matrix` (lines 102-104); `run_two_algorithms(costMatrix,
start, times)` exposes no seed or random-source parameter.  In the
embedding that global stream is the explicit extra input `perms`. -/

/-- C9 (amended).  The harness output is determined by its declared
arguments together with the first `times` draws of the global random
stream: reproducing the global stream reproduces the trials. -/
theorem claim_C9 (M : Mat) (start times : ℕ) (p q : List (List ℕ))
    (h : p.take times = q.take times) :
    run_two_algorithms M start times p = run_two_algorithms M start times q := by
  unfold run_two_algorithms
  rw [h]

/-- Witness for C9 at a concrete instance. -/
theorem claim_C9_witness :
    (([[0, 1, 2], [9]] : List (List ℕ)).take 1 = ([[0, 1, 2], [7]] : List (List ℕ)).take 1) ∧
    run_two_algorithms M3 0 1 [[0, 1, 2], [9]] = run_two_algorithms M3 0 1 [[0, 1, 2], [7]] :=
  ⟨by decide, claim_C9 M3 0 1 [[0, 1, 2], [9]] [[0, 1, 2], [7]] (by decide)⟩

/-- C9 counterexample to the claim as stated: with every declared harness
argument fixed (matrix, start, trial count), two runs differ when the
uncontrolled global random state differs — there is no explicit,
externally seedable random source among the harness's inputs. -/
theorem claim_C9_counterexample :
    run_two_algorithms M3 0 1 [[0, 1, 2]] ≠ run_two_algorithms M3 0 1 [[2, 1, 0]] := by
  decide

/-! ## Claim C10: the callers' objects survive every call

The only operation in the pipeline that mutates a pre-existing object is
`removedGraph.remove_node(v)` in `_remove_even_degree_vertices`
(src/tsr.py:214-221), and it is applied to the fresh copy allocated by
`nx.Graph(graph)` (line 214).  To state this aliasing fact the call is
re-embedded over an explicit object heap: references are heap indices,
`nx.Graph(graph)` allocates a fresh cell copying the referenced value,
and `remove_node` mutates the referenced cell in place. -/

abbrev Heap := List Graph

def heapGet (h : Heap) (r : ℕ) : Graph := h.getD r Graph.empty

/-- `nx.Graph(graph)`: allocate a new object holding a copy of `graph`. -/
def allocCopy (h : Heap) (r : ℕ) : Heap × ℕ := (h ++ [heapGet h r], h.length)

/-- `G.remove_node(v)` as a heap mutation of the object `G` refers to. -/
def removeNodeAt (h : Heap) (r v : ℕ) : Heap := h.set r ((heapGet h r).removeNode v)

/-- `_remove_even_degree_vertices` over the heap: copy the graph at `rG`,
then delete every even-tree-degree vertex from the copy, reading the
spanning tree at `rT` through the evolving heap at each step. -/
def remove_even_degree_vertices_heap (h : Heap) (rG rT : ℕ) : Heap × ℕ :=
  let a := allocCopy h rG
  (((heapGet h rT).nodes).foldl
      (fun h2 v => if (heapGet h2 rT).degree v % 2 = 0 then removeNodeAt h2 a.2 v else h2)
      a.1,
   a.2)

theorem heapGet_removeNodeAt_ne (h : Heap) (r r2 v : ℕ) (hne : r2 ≠ r) :
    heapGet (removeNodeAt h r v) r2 = heapGet h r2 := by
  unfold heapGet removeNodeAt
  rcases Nat.lt_or_ge r2 h.length with hlt | hge
  · rw [List.getD_eq_getElem _ _ (by simpa using hlt),
        List.getD_eq_getElem _ _ (by simpa using hlt)]
    exact List.getElem_set_ne (by simpa using (Ne.symm hne)) _
  · rw [List.getD_eq_default _ _ (by simpa using hge),
        List.getD_eq_default _ _ (by simpa using hge)]

theorem heapGet_removeNodeAt_self (h : Heap) (r v : ℕ) (hr : r < h.length) :
    heapGet (removeNodeAt h r v) r = (heapGet h r).removeNode v := by
  unfold heapGet removeNodeAt
  rw [List.getD_eq_getElem _ _ (by simpa using hr)]
  simp [heapGet, List.getD]

theorem removeNodeAt_length (h : Heap) (r v : ℕ) :
    (removeNodeAt h r v).length = h.length := by
  simp [removeNodeAt]

/-- The inner fold of the heap model: every cell but the copy's is left
alone, and the copy evolves exactly as the pure embedding's accumulator. -/
theorem red_heap_fold (L : List ℕ) (T : Graph) :
    ∀ (h : Heap) (rT : ℕ) (c : ℕ), c < h.length → rT ≠ c → heapGet h rT = T →
    (∀ r2, r2 ≠ c → heapGet
        (L.foldl (fun h2 v => if (heapGet h2 rT).degree v % 2 = 0 then removeNodeAt h2 c v else h2) h)
        r2 = heapGet h r2) ∧
    heapGet
        (L.foldl (fun h2 v => if (heapGet h2 rT).degree v % 2 = 0 then removeNodeAt h2 c v else h2) h)
        c
      = L.foldl (fun R v => if T.degree v % 2 = 0 then R.removeNode v else R) (heapGet h c) ∧
    (L.foldl (fun h2 v => if (heapGet h2 rT).degree v % 2 = 0 then removeNodeAt h2 c v else h2) h).length
      = h.length := by
  induction L with
  | nil => intro h rT c hc hne hT; exact ⟨fun r2 _ => rfl, rfl, rfl⟩
  | cons v L ih =>
      intro h rT c hc hne hT
      by_cases hdeg : (heapGet h rT).degree v % 2 = 0
      · have hstep : (removeNodeAt h c v).length = h.length := removeNodeAt_length h c v
        have hT2 : heapGet (removeNodeAt h c v) rT = T := by
          rw [heapGet_removeNodeAt_ne h c rT v hne]; exact hT
        have hdegT : T.degree v % 2 = 0 := by rw [← hT]; exact hdeg
        have := ih (removeNodeAt h c v) rT c (by rw [hstep]; exact hc) hne hT2
        refine ⟨?_, ?_, ?_⟩
        · intro r2 hr2
          simp only [List.foldl_cons]
          rw [if_pos hdeg, this.1 r2 hr2, heapGet_removeNodeAt_ne h c r2 v hr2]
        · simp only [List.foldl_cons]
          rw [if_pos hdeg, if_pos hdegT, this.2.1, heapGet_removeNodeAt_self h c v hc]
        · simp only [List.foldl_cons]
          rw [if_pos hdeg, this.2.2, hstep]
      · have hdegT : ¬ T.degree v % 2 = 0 := by rw [← hT]; exact hdeg
        have := ih h rT c hc hne hT
        refine ⟨?_, ?_, ?_⟩
        · intro r2 hr2
          simp only [List.foldl_cons]
          rw [if_neg hdeg]
          exact this.1 r2 hr2
        · simp only [List.foldl_cons]
          rw [if_neg hdeg, if_neg hdegT]
          exact this.2.1
        · simp only [List.foldl_cons]
          rw [if_neg hdeg]
          exact this.2.2

theorem heapGet_append_lt (h : Heap) (x : Graph) (r : ℕ) (hr : r < h.length) :
    heapGet (h ++ [x]) r = heapGet h r := by
  unfold heapGet
  have hr2 : r < (h ++ [x]).length := by
    simp only [List.length_append, List.length_cons, List.length_nil]
    omega
  rw [List.getD_eq_getElem _ _ hr2, List.getD_eq_getElem _ _ (by simpa using hr)]
  exact List.getElem_append_left hr

theorem heapGet_append_last (h : Heap) (x : Graph) :
    heapGet (h ++ [x]) h.length = x := by
  unfold heapGet
  rw [List.getD_eq_getElem _ _ (by simp)]
  simp

/-- C10.  `_remove_even_degree_vertices` never mutates the caller's
objects: over the explicit object heap, the graph and the spanning tree
passed in are bit-for-bit unchanged after the call (the `remove_node`
mutations all land on the reference freshly allocated by
`nx.Graph(graph)`), and the object returned is exactly the value computed
by the pure embedding.  All remaining pipeline steps only construct fresh
objects, as reflected by their pure embeddings. -/
theorem claim_C10 (h : Heap) (rG rT : ℕ) (hG : rG < h.length) (hT : rT < h.length) :
    heapGet (remove_even_degree_vertices_heap h rG rT).1 rG = heapGet h rG ∧
    heapGet (remove_even_degree_vertices_heap h rG rT).1 rT = heapGet h rT ∧
    heapGet (remove_even_degree_vertices_heap h rG rT).1 (remove_even_degree_vertices_heap h rG rT).2
      = remove_even_degree_vertices (heapGet h rG) (heapGet h rT) := by
  have hlen : (h ++ [heapGet h rG]).length = h.length + 1 := by simp
  have hcore := red_heap_fold (heapGet h rT).nodes (heapGet h rT)
    (h ++ [heapGet h rG]) rT h.length
    (by rw [hlen]; exact Nat.lt_succ_self _)
    (Nat.ne_of_lt hT)
    (heapGet_append_lt h _ rT hT)
  have hsnd : (remove_even_degree_vertices_heap h rG rT).2 = h.length := rfl
  refine ⟨?_, ?_, ?_⟩
  · have := hcore.1 rG (Nat.ne_of_lt hG)
    calc heapGet (remove_even_degree_vertices_heap h rG rT).1 rG
        = heapGet (h ++ [heapGet h rG]) rG := this
      _ = heapGet h rG := heapGet_append_lt h _ rG hG
  · have := hcore.1 rT (Nat.ne_of_lt hT)
    calc heapGet (remove_even_degree_vertices_heap h rG rT).1 rT
        = heapGet (h ++ [heapGet h rG]) rT := this
      _ = heapGet h rT := heapGet_append_lt h _ rT hT
  · rw [hsnd]
    have := hcore.2.1
    rw [heapGet_append_last h (heapGet h rG)] at this
    exact this

/-- Witness for C10 at a concrete two-object heap. -/
theorem claim_C10_witness :
    (0 < ([Graph.mk [0, 1] [(0, 1, 5)], Graph.mk [0, 1] [(0, 1, 5)]] : Heap).length ∧
      1 < ([Graph.mk [0, 1] [(0, 1, 5)], Graph.mk [0, 1] [(0, 1, 5)]] : Heap).length) ∧
    heapGet (remove_even_degree_vertices_heap
        [Graph.mk [0, 1] [(0, 1, 5)], Graph.mk [0, 1] [(0, 1, 5)]] 0 1).1 0
      = heapGet [Graph.mk [0, 1] [(0, 1, 5)], Graph.mk [0, 1] [(0, 1, 5)]] 0 := by
  refine ⟨⟨by decide, by decide⟩, ?_⟩
  exact (claim_C10 [Graph.mk [0, 1] [(0, 1, 5)], Graph.mk [0, 1] [(0, 1, 5)]] 0 1
    (by decide) (by decide)).1

/-! ## Unordered-pair multisets: the toolkit for the Eulerian-circuit proof -/

/-- Normalize an ordered pair to its unordered representative. -/
def nrm (p : ℕ × ℕ) : ℕ × ℕ := (min p.1 p.2, max p.1 p.2)

/-- The multiset of unordered endpoint pairs of an edge list. -/
def edgeMS (E : List (ℕ × ℕ × Weight)) : Multiset (ℕ × ℕ) :=
  (E.map (fun e => nrm (e.1, e.2.1)) : List (ℕ × ℕ))

/-- The multiset of unordered consecutive pairs of a vertex sequence. -/
def walkMS (L : List ℕ) : Multiset (ℕ × ℕ) :=
  ((L.zip L.tail).map nrm : List (ℕ × ℕ))

/-- Contribution of one unordered pair to the degree of `v`. -/
def pairDeg (p : ℕ × ℕ) (v : ℕ) : ℕ :=
  (if p.1 = v then 1 else 0) + (if p.2 = v then 1 else 0)

/-- Degree of `v` in a multiset of pairs. -/
def msDeg (S : Multiset (ℕ × ℕ)) (v : ℕ) : ℕ := (S.map (fun p => pairDeg p v)).sum

/-- Indicator used in the parity bookkeeping. -/
def indV (o : Option ℕ) (v : ℕ) : ℕ := if o = some v then 1 else 0

theorem nrm_comm (a b : ℕ) : nrm (a, b) = nrm (b, a) := by
  simp [nrm, Nat.min_comm, Nat.max_comm]

theorem pairDeg_nrm (p : ℕ × ℕ) (v : ℕ) : pairDeg (nrm p) v = pairDeg p v := by
  rcases p with ⟨a, b⟩
  rcases Nat.le_total a b with h | h
  · simp only [nrm, pairDeg, Nat.min_eq_left h, Nat.max_eq_right h]
  · simp only [nrm, pairDeg, Nat.min_eq_right h, Nat.max_eq_left h]
    exact Nat.add_comm _ _

theorem pairDeg_pair (a b v : ℕ) :
    pairDeg (a, b) v = indV (some a) v + indV (some b) v := by
  simp [pairDeg, indV]

theorem msDeg_zero (v : ℕ) : msDeg 0 v = 0 := rfl

theorem msDeg_add (S T : Multiset (ℕ × ℕ)) (v : ℕ) :
    msDeg (S + T) v = msDeg S v + msDeg T v := by
  simp [msDeg]

theorem msDeg_cons (p : ℕ × ℕ) (S : Multiset (ℕ × ℕ)) (v : ℕ) :
    msDeg (p ::ₘ S) v = pairDeg p v + msDeg S v := by
  simp [msDeg]

theorem msDeg_singleton (p : ℕ × ℕ) (v : ℕ) : msDeg {p} v = pairDeg p v := by
  simp [msDeg]

theorem msDeg_pos_of_mem (S : Multiset (ℕ × ℕ)) (q : ℕ × ℕ) (v : ℕ)
    (hq : q ∈ S) (hv : q.1 = v ∨ q.2 = v) : 1 ≤ msDeg S v := by
  obtain ⟨S2, rfl⟩ := Multiset.exists_cons_of_mem hq
  rw [msDeg_cons]
  have h1 : 1 ≤ pairDeg q v := by
    unfold pairDeg
    rcases hv with h | h
    · rw [if_pos h]; omega
    · rw [if_pos h]; omega
  omega

theorem walkMS_nil : walkMS [] = 0 := rfl

theorem walkMS_single (a : ℕ) : walkMS [a] = 0 := rfl

theorem walkMS_cons_cons (a b : ℕ) (L : List ℕ) :
    walkMS (a :: b :: L) = nrm (a, b) ::ₘ walkMS (b :: L) := by
  simp [walkMS]

theorem walkMS_append_single (P : List ℕ) (p t : ℕ) (hp : P.getLast? = some p) :
    walkMS (P ++ [t]) = walkMS P + {nrm (p, t)} := by
  induction P with
  | nil => simp at hp
  | cons a P ih =>
      cases P with
      | nil =>
          simp only [List.getLast?_singleton, Option.some.injEq] at hp
          subst hp
          simp [walkMS, nrm]
      | cons b Q =>
          have hp2 : (b :: Q).getLast? = some p := by
            rw [← hp]; symm; exact List.getLast?_cons_cons
          have hq := ih hp2
          simp only [List.cons_append] at hq ⊢
          rw [walkMS_cons_cons, walkMS_cons_cons, hq]
          simp [Multiset.cons_add]

theorem walkMS_mem_left (L : List ℕ) (q : ℕ × ℕ) (hq : q ∈ walkMS L) :
    q.1 ∈ L ∧ q.2 ∈ L := by
  unfold walkMS at hq
  rw [Multiset.mem_coe, List.mem_map] at hq
  obtain ⟨pr, hpr, rfl⟩ := hq
  have h1 := List.of_mem_zip hpr
  have htl : pr.2 ∈ L := List.mem_of_mem_tail h1.2
  constructor
  · show min pr.1 pr.2 ∈ L
    rcases Nat.le_total pr.1 pr.2 with h | h
    · rw [Nat.min_eq_left h]; exact h1.1
    · rw [Nat.min_eq_right h]; exact htl
  · show max pr.1 pr.2 ∈ L
    rcases Nat.le_total pr.1 pr.2 with h | h
    · rw [Nat.max_eq_right h]; exact htl
    · rw [Nat.max_eq_left h]; exact h1.1

/-- Parity of the walk degree: interior visits contribute evenly, so only
the two ends matter. -/
theorem walkMS_deg_parity (L : List ℕ) (v : ℕ) :
    (msDeg (walkMS L) v + indV L.head? v + indV L.getLast? v) % 2 = 0 := by
  induction L with
  | nil => simp [walkMS_nil, msDeg_zero, indV]
  | cons a L ih =>
      cases L with
      | nil =>
          show (msDeg (walkMS [a]) v + indV (some a) v + indV (some a) v) % 2 = 0
          rw [walkMS_single, msDeg_zero]
          unfold indV
          split
          · rfl
          · rfl
      | cons b Q =>
          rw [walkMS_cons_cons, msDeg_cons]
          have hlast : (a :: b :: Q).getLast? = (b :: Q).getLast? := List.getLast?_cons_cons
          rw [hlast]
          have hh : (a :: b :: Q).head? = some a := rfl
          have hh2 : (b :: Q).head? = some b := rfl
          rw [hh]
          rw [hh2] at ih
          have hpd : pairDeg (nrm (a, b)) v = indV (some a) v + indV (some b) v := by
            rw [pairDeg_nrm, pairDeg_pair]
          rw [hpd]
          omega

theorem indV_le_one (o : Option ℕ) (v : ℕ) : indV o v ≤ 1 := by
  unfold indV; split
  · exact Nat.le_refl 1
  · exact Nat.zero_le 1

theorem indV_self (v : ℕ) : indV (some v) v = 1 := by simp [indV]

theorem indV_eq_one (a v : ℕ) (h : indV (some a) v = 1) : a = v := by
  by_cases hav : a = v
  · exact hav
  · exfalso; simp [indV, hav] at h

theorem eulerLoop_nil (fuel : ℕ) (E : List (ℕ × ℕ × Weight)) (P : List ℕ) :
    eulerLoop fuel E [] P = P := by
  cases fuel <;> rfl

theorem removeFirstIncident_none_spec (v : ℕ) :
    ∀ (E : List (ℕ × ℕ × Weight)), removeFirstIncident v E = none →
      ∀ e ∈ E, e.1 ≠ v ∧ e.2.1 ≠ v := by
  intro E
  induction E with
  | nil => intro _ e he; simp at he
  | cons f E ih =>
      intro h e he
      unfold removeFirstIncident at h
      by_cases h1 : f.1 = v
      · rw [if_pos h1] at h; exact absurd h (by simp)
      · rw [if_neg h1] at h
        by_cases h2 : f.2.1 = v
        · rw [if_pos h2] at h; exact absurd h (by simp)
        · rw [if_neg h2] at h
          rcases List.mem_cons.mp he with rfl | he2
          · exact ⟨h1, h2⟩
          · cases hrec : removeFirstIncident v E with
            | some q => rw [hrec] at h; exact absurd h (by simp)
            | none => exact ih hrec e he2

theorem removeFirstIncident_some_spec (v : ℕ) :
    ∀ (E : List (ℕ × ℕ × Weight)) (w : ℕ) (E2 : List (ℕ × ℕ × Weight)),
      removeFirstIncident v E = some (w, E2) →
      edgeMS E = nrm (v, w) ::ₘ edgeMS E2 ∧ E2.length + 1 = E.length := by
  intro E
  induction E with
  | nil => intro w E2 h; exact absurd h (by simp [removeFirstIncident])
  | cons f E ih =>
      intro w E2 h
      unfold removeFirstIncident at h
      by_cases h1 : f.1 = v
      · rw [if_pos h1] at h
        have hw : f.2.1 = w ∧ E = E2 := by
          constructor
          · exact congrArg Prod.fst (Option.some.inj h)
          · exact congrArg Prod.snd (Option.some.inj h)
        rcases hw with ⟨hw1, hw2⟩
        subst hw1; subst hw2
        constructor
        · show Multiset.cons (nrm (f.1, f.2.1)) (edgeMS E) = nrm (v, f.2.1) ::ₘ edgeMS E
          rw [h1]
        · rfl
      · rw [if_neg h1] at h
        by_cases h2 : f.2.1 = v
        · rw [if_pos h2] at h
          have hw : f.1 = w ∧ E = E2 := by
            constructor
            · exact congrArg Prod.fst (Option.some.inj h)
            · exact congrArg Prod.snd (Option.some.inj h)
          rcases hw with ⟨hw1, hw2⟩
          subst hw1; subst hw2
          constructor
          · show Multiset.cons (nrm (f.1, f.2.1)) (edgeMS E) = nrm (v, f.1) ::ₘ edgeMS E
            rw [h2, nrm_comm]
          · rfl
        · rw [if_neg h2] at h
          cases hrec : removeFirstIncident v E with
          | none => rw [hrec] at h; exact absurd h (by simp)
          | some q =>
              rw [hrec] at h
              have hq1 : q.1 = w := congrArg Prod.fst (Option.some.inj h)
              have hq2 : f :: q.2 = E2 := congrArg Prod.snd (Option.some.inj h)
              have hrec2 := ih q.1 q.2 (by rw [hrec])
              rw [← hq2, ← hq1]
              constructor
              · show Multiset.cons (nrm (f.1, f.2.1)) (edgeMS E)
                  = nrm (v, q.1) ::ₘ edgeMS (f :: q.2)
                rw [hrec2.1]
                show nrm (f.1, f.2.1) ::ₘ nrm (v, q.1) ::ₘ edgeMS q.2
                  = nrm (v, q.1) ::ₘ nrm (f.1, f.2.1) ::ₘ edgeMS q.2
                exact Multiset.cons_swap _ _ _
              · have hlen := hrec2.2
                show q.2.length + 1 + 1 = E.length + 1
                omega

theorem msDeg_edgeMS_zero (v : ℕ) (E : List (ℕ × ℕ × Weight))
    (h : ∀ e ∈ E, e.1 ≠ v ∧ e.2.1 ≠ v) : msDeg (edgeMS E) v = 0 := by
  induction E with
  | nil => rfl
  | cons f E ih =>
      have hf := h f (List.mem_cons_self f E)
      have hE : ∀ e ∈ E, e.1 ≠ v ∧ e.2.1 ≠ v := fun e he => h e (List.mem_cons_of_mem f he)
      show msDeg (nrm (f.1, f.2.1) ::ₘ edgeMS E) v = 0
      rw [msDeg_cons, pairDeg_nrm, ih hE]
      simp [pairDeg, hf.1, hf.2]

theorem eulerLoop_push_eq (fuel : ℕ) (E : List (ℕ × ℕ × Weight)) (t : ℕ) (rest P : List ℕ)
    (q : ℕ × List (ℕ × ℕ × Weight)) (h : removeFirstIncident t E = some q) :
    eulerLoop (fuel + 1) E (t :: rest) P = eulerLoop fuel q.2 (q.1 :: t :: rest) P := by
  show (match removeFirstIncident t E with
        | none => eulerLoop fuel E rest (P ++ [t])
        | some q => eulerLoop fuel q.2 (q.1 :: t :: rest) P) = _
  rw [h]

theorem eulerLoop_pop_eq (fuel : ℕ) (E : List (ℕ × ℕ × Weight)) (t : ℕ) (rest P : List ℕ)
    (h : removeFirstIncident t E = none) :
    eulerLoop (fuel + 1) E (t :: rest) P = eulerLoop fuel E rest (P ++ [t]) := by
  show (match removeFirstIncident t E with
        | none => eulerLoop fuel E rest (P ++ [t])
        | some q => eulerLoop fuel q.2 (q.1 :: t :: rest) P) = _
  rw [h]

theorem cons_exchange (a : ℕ × ℕ) (X Y : Multiset (ℕ × ℕ)) :
    (a ::ₘ X) + Y = X + (a ::ₘ Y) := by
  rw [Multiset.cons_add, Multiset.add_cons]

theorem head?_append_of_ne_nil (P X : List ℕ) (s : ℕ) (h : P.head? = some s) :
    (P ++ X).head? = some s := by
  cases P with
  | nil => simp at h
  | cons a P2 => simpa using h

/-- Full correctness of the Hierholzer stack loop, by induction on the
fuel.  Invariants: the untraversed edges, the stack edges, the pop-path
edges and one pending edge (joining the last pop to the spot where the
walk resumes) always partition the original edge multiset; every popped
vertex has no untraversed incident edge; the stack bottom is the source.
The pending edge's far endpoint is recovered at every pop through the
degree-parity argument (all original degrees even). -/
theorem eulerLoop_spec (E0 : Multiset (ℕ × ℕ)) (s : ℕ)
    (hEven : ∀ v, msDeg E0 v % 2 = 0) :
    ∀ (fuel : ℕ) (E : List (ℕ × ℕ × Weight)) (stack P : List ℕ),
      2 * E.length + stack.length ≤ fuel →
      stack ≠ [] →
      stack.getLast? = some s →
      (∀ v ∈ P, msDeg (edgeMS E) v = 0) →
      ((P = [] ∧ E0 = edgeMS E + walkMS stack) ∨
        (P.head? = some s ∧ ∃ p a, P.getLast? = some p ∧
          E0 = edgeMS E + walkMS stack + walkMS P + {nrm (p, a)})) →
      ∃ (Ef : List (ℕ × ℕ × Weight)) (Q : List ℕ),
        eulerLoop fuel E stack P = P ++ Q ∧ Q ≠ [] ∧
        (P ++ Q).head? = some s ∧ (P ++ Q).getLast? = some s ∧
        E0 = edgeMS Ef + walkMS (P ++ Q) ∧
        (∀ v ∈ P ++ Q, msDeg (edgeMS Ef) v = 0) := by
  intro fuel
  induction fuel with
  | zero =>
      intro E stack P hfuel hne _ _ _
      exfalso
      cases stack with
      | nil => exact hne rfl
      | cons t rest => simp at hfuel
  | succ fuel ih =>
      intro E stack P hfuel hne hlast hPdeg hMS
      cases stack with
      | nil => exact absurd rfl hne
      | cons t rest =>
        cases hri : removeFirstIncident t E with
        | some q =>
            -- traverse one more edge from the top
            obtain ⟨hEeq, hElen⟩ := removeFirstIncident_some_spec t E q.1 q.2 (by
              rw [hri])
            rw [eulerLoop_push_eq fuel E t rest P q hri]
            have hfuel2 : 2 * q.2.length + (q.1 :: t :: rest).length ≤ fuel := by
              simp only [List.length_cons] at hfuel ⊢
              omega
            have hlast2 : (q.1 :: t :: rest).getLast? = some s := by
              rw [List.getLast?_cons_cons]; exact hlast
            have hPdeg2 : ∀ v ∈ P, msDeg (edgeMS q.2) v = 0 := by
              intro v hv
              have h1 := hPdeg v hv
              rw [hEeq, msDeg_cons] at h1
              omega
            have hstackeq : walkMS (q.1 :: t :: rest) = nrm (t, q.1) ::ₘ walkMS (t :: rest) := by
              rw [walkMS_cons_cons, nrm_comm]
            have hMS2 : ((P = [] ∧ E0 = edgeMS q.2 + walkMS (q.1 :: t :: rest)) ∨
                (P.head? = some s ∧ ∃ p a, P.getLast? = some p ∧
                  E0 = edgeMS q.2 + walkMS (q.1 :: t :: rest) + walkMS P + {nrm (p, a)})) := by
              rcases hMS with ⟨hP, heq⟩ | ⟨hh, p, a, hl, heq⟩
              · left
                refine ⟨hP, ?_⟩
                rw [heq, hEeq, hstackeq, cons_exchange]
              · right
                refine ⟨hh, p, a, hl, ?_⟩
                rw [heq, hEeq, hstackeq, cons_exchange]
            exact ih q.2 (q.1 :: t :: rest) P hfuel2 (by simp) hlast2 hPdeg2 hMS2
        | none =>
            -- the top is exhausted: pop it
            have hdegt : msDeg (edgeMS E) t = 0 :=
              msDeg_edgeMS_zero t E (removeFirstIncident_none_spec t E hri)
            rw [eulerLoop_pop_eq fuel E t rest P hri]
            cases rest with
            | nil =>
                -- the stack empties: the run is over
                have hts : t = s := by simpa using hlast
                rw [eulerLoop_nil]
                refine ⟨E, [t], rfl, by simp, ?_, ?_, ?_, ?_⟩
                · rcases hMS with ⟨hP, _⟩ | ⟨hh, _, _, _, _⟩
                  · subst hP; simpa using congrArg (some ·) hts
                  · exact head?_append_of_ne_nil P [t] s hh
                · rw [List.getLast?_concat]; exact congrArg (some ·) hts
                · rcases hMS with ⟨hP, heq⟩ | ⟨hh, p, a, hl, heq⟩
                  · subst hP; simpa using heq
                  · -- pending endpoint must be the popped top (parity)
                    have hEv := hEven t
                    have hdeq := congrArg (fun S => msDeg S t) heq
                    simp only [msDeg_add, msDeg_singleton] at hdeq
                    have hwP := walkMS_deg_parity P t
                    rw [hh, hl] at hwP
                    have hpd : pairDeg (nrm (p, a)) t = indV (some p) t + indV (some a) t := by
                      rw [pairDeg_nrm, pairDeg_pair]
                    rw [hpd] at hdeq
                    have hb1 := indV_le_one (some p) t
                    have hb2 := indV_le_one (some a) t
                    have hst : indV (some s) t = 1 := by
                      rw [← hts]; exact indV_self t
                    have hwS : msDeg (walkMS [t]) t = 0 := by rw [walkMS_single]; rfl
                    have hat : indV (some a) t = 1 := by
                      rw [hwS] at hdeq
                      rw [hdegt] at hdeq
                      omega
                    have hae : a = t := indV_eq_one a t hat
                    rw [walkMS_append_single P p t hl, heq, hae, walkMS_single]
                    simp [add_comm, add_left_comm, add_assoc]
                · intro v hv
                  rcases List.mem_append.mp hv with hv1 | hv2
                  · exact hPdeg v hv1
                  · have : v = t := by simpa using hv2
                    subst this; exact hdegt
            | cons u r2 =>
                -- pop onto the path and continue from the vertex below
                have hlast2 : (u :: r2).getLast? = some s := by
                  rw [← List.getLast?_cons_cons (a := t)]; exact hlast
                have hfuel2 : 2 * E.length + (u :: r2).length ≤ fuel := by
                  simp only [List.length_cons] at hfuel ⊢
                  omega
                have hstackMS : walkMS (t :: u :: r2) = nrm (t, u) ::ₘ walkMS (u :: r2) :=
                  walkMS_cons_cons t u r2
                have hPdeg2 : ∀ v ∈ P ++ [t], msDeg (edgeMS E) v = 0 := by
                  intro v hv
                  rcases List.mem_append.mp hv with hv1 | hv2
                  · exact hPdeg v hv1
                  · have : v = t := by simpa using hv2
                    subst this; exact hdegt
                have hMS2 : (((P ++ [t]) = [] ∧ E0 = edgeMS E + walkMS (u :: r2)) ∨
                    ((P ++ [t]).head? = some s ∧ ∃ p a, (P ++ [t]).getLast? = some p ∧
                      E0 = edgeMS E + walkMS (u :: r2) + walkMS (P ++ [t]) + {nrm (p, a)})) := by
                  right
                  rcases hMS with ⟨hP, heq⟩ | ⟨hh, p, a, hl, heq⟩
                  · -- first pop of the run: parity forces t = s
                    subst hP
                    have hEv := hEven t
                    have hdeq := congrArg (fun S => msDeg S t) heq
                    simp only [msDeg_add] at hdeq
                    have hwS := walkMS_deg_parity (t :: u :: r2) t
                    have hhd : (t :: u :: r2).head? = some t := rfl
                    rw [hhd, hlast, indV_self] at hwS
                    have hb1 := indV_le_one (some s) t
                    have hst : indV (some s) t = 1 := by
                      rw [hdegt] at hdeq
                      omega
                    have hts : s = t := indV_eq_one s t hst
                    refine ⟨by simpa using congrArg (some ·) hts.symm, t, u, by simp, ?_⟩
                    rw [heq, hstackMS]
                    have hwt : walkMS ([] ++ [t]) = 0 := walkMS_single t
                    rw [hwt]
                    simp only [← Multiset.singleton_add]
                    simp [add_comm, add_left_comm, add_assoc]
                  · -- later pop: parity forces the pending endpoint to be t
                    have hEv := hEven t
                    have hdeq := congrArg (fun S => msDeg S t) heq
                    simp only [msDeg_add, msDeg_singleton] at hdeq
                    have hwP := walkMS_deg_parity P t
                    rw [hh, hl] at hwP
                    have hwS := walkMS_deg_parity (t :: u :: r2) t
                    have hhd : (t :: u :: r2).head? = some t := rfl
                    rw [hhd, hlast, indV_self] at hwS
                    have hpd : pairDeg (nrm (p, a)) t = indV (some p) t + indV (some a) t := by
                      rw [pairDeg_nrm, pairDeg_pair]
                    rw [hpd] at hdeq
                    have hb1 := indV_le_one (some p) t
                    have hb2 := indV_le_one (some a) t
                    have hb3 := indV_le_one (some s) t
                    have hat : indV (some a) t = 1 := by
                      rw [hdegt] at hdeq
                      omega
                    have hae : a = t := indV_eq_one a t hat
                    refine ⟨head?_append_of_ne_nil P [t] s hh, t, u, by rw [List.getLast?_concat], ?_⟩
                    rw [walkMS_append_single P p t hl, heq, hae, hstackMS]
                    simp only [← Multiset.singleton_add]
                    simp [add_comm, add_left_comm, add_assoc]
                obtain ⟨Ef, Q2, hrun, hQ2, hhead, hlastQ, hEq, hdegQ⟩ :=
                  ih E (u :: r2) (P ++ [t]) hfuel2 (by simp) hlast2 hPdeg2 hMS2
                have hlist : P ++ [t] ++ Q2 = P ++ t :: Q2 := by
                  rw [List.append_assoc]
                  rfl
                refine ⟨Ef, t :: Q2, ?_, by simp, ?_, ?_, ?_, ?_⟩
                · rw [hrun]; exact hlist
                · rw [← hlist]; exact hhead
                · rw [← hlist]; exact hlastQ
                · rw [← hlist]; exact hEq
                · intro v hv
                  apply hdegQ
                  rw [hlist]
                  exact hv

/-! ## Abstract reachability and the connectivity check -/

/-- Two vertices joined by an edge of the pair multiset. -/
def adjRel (E0 : Multiset (ℕ × ℕ)) (x y : ℕ) : Prop := (x, y) ∈ E0 ∨ (y, x) ∈ E0

/-- Reachability along edges of the pair multiset. -/
def ReachMS (E0 : Multiset (ℕ × ℕ)) (s v : ℕ) : Prop :=
  Relation.ReflTransGen (adjRel E0) s v

/-- `v` is an endpoint of some edge. -/
def touchesMS (E0 : Multiset (ℕ × ℕ)) (v : ℕ) : Prop :=
  ∃ q ∈ E0, q.1 = v ∨ q.2 = v

theorem adjRel_symm (E0 : Multiset (ℕ × ℕ)) (x y : ℕ) (h : adjRel E0 x y) :
    adjRel E0 y x := h.symm

theorem ReachMS_symm (E0 : Multiset (ℕ × ℕ)) (s v : ℕ) (h : ReachMS E0 s v) :
    ReachMS E0 v s := by
  induction h with
  | refl => exact Relation.ReflTransGen.refl
  | tail _ hadj ih =>
      exact Relation.ReflTransGen.trans
        (Relation.ReflTransGen.single (adjRel_symm E0 _ _ hadj)) ih

/-- Everything reachable from the head of the final pop sequence lies on
that sequence: each of its vertices has no untraversed incident edge, so
its neighbours can only be its walk neighbours. -/
theorem reach_mem_run (E0 : Multiset (ℕ × ℕ)) (Ef : List (ℕ × ℕ × Weight))
    (R : List ℕ) (s : ℕ)
    (hdec : E0 = edgeMS Ef + walkMS R)
    (hdeg : ∀ v ∈ R, msDeg (edgeMS Ef) v = 0)
    (hhead : R.head? = some s) :
    ∀ v, ReachMS E0 s v → v ∈ R := by
  intro v hv
  induction hv with
  | refl => exact List.mem_of_mem_head? hhead
  | tail hprev hadj ih =>
      rename_i u w
      have hq : ∃ q, q ∈ E0 ∧ ((q.1 = u ∧ q.2 = w) ∨ (q.1 = w ∧ q.2 = u)) := by
        rcases hadj with h1 | h1
        · exact ⟨(u, w), h1, Or.inl ⟨rfl, rfl⟩⟩
        · exact ⟨(w, u), h1, Or.inr ⟨rfl, rfl⟩⟩
      obtain ⟨q, hqmem, hqe⟩ := hq
      rw [hdec] at hqmem
      rcases Multiset.mem_add.mp hqmem with hin | hin
      · exfalso
        have hu : q.1 = u ∨ q.2 = u := by
          rcases hqe with ⟨h1, h2⟩ | ⟨h1, h2⟩
          · exact Or.inl h1
          · exact Or.inr h2
        have := msDeg_pos_of_mem (edgeMS Ef) q u hin hu
        have hz := hdeg u ih
        omega
      · have hmem := walkMS_mem_left R q hin
        rcases hqe with ⟨h1, h2⟩ | ⟨h1, h2⟩
        · rw [← h2]; exact hmem.2
        · rw [← h1]; exact hmem.1

/-- At the end of the run every edge has been traversed: an untraversed
edge would touch a vertex connected to the source, but every vertex
reachable from the source lies on the pop sequence and has no
untraversed incident edge. -/
theorem euler_run_consumes_all (E0 : Multiset (ℕ × ℕ)) (Ef : List (ℕ × ℕ × Weight))
    (R : List ℕ) (s : ℕ)
    (hdec : E0 = edgeMS Ef + walkMS R)
    (hdeg : ∀ v ∈ R, msDeg (edgeMS Ef) v = 0)
    (hhead : R.head? = some s)
    (hconn : ∀ v, touchesMS E0 v → ReachMS E0 s v) :
    Ef = [] := by
  rw [List.eq_nil_iff_forall_not_mem]
  intro e he
  have hq : nrm (e.1, e.2.1) ∈ edgeMS Ef := by
    unfold edgeMS
    rw [Multiset.mem_coe, List.mem_map]
    exact ⟨e, he, rfl⟩
  have hqE0 : nrm (e.1, e.2.1) ∈ E0 := by
    rw [hdec]
    exact Multiset.mem_add.mpr (Or.inl hq)
  have htouch : touchesMS E0 (nrm (e.1, e.2.1)).1 :=
    ⟨nrm (e.1, e.2.1), hqE0, Or.inl rfl⟩
  have hreach := hconn _ htouch
  have hmem := reach_mem_run E0 Ef R s hdec hdeg hhead _ hreach
  have hpos := msDeg_pos_of_mem (edgeMS Ef) _ (nrm (e.1, e.2.1)).1 hq (Or.inl rfl)
  have hz := hdeg _ hmem
  omega

theorem zip_tail_length (R : List ℕ) (hR : R ≠ []) :
    (R.zip R.tail).length = R.length - 1 := by
  cases R with
  | nil => exact absurd rfl hR
  | cons a L =>
      show ((a :: L).zip L).length = L.length
      rw [List.length_zip]
      simp only [List.length_cons]
      omega

/-- The vertex sequence produced by the stack loop from a fresh start:
it covers the edge multiset exactly, is closed at `start`, and has
`E + 1` vertices. -/
theorem eulerVertexSeq_spec (G : MGraph) (start : ℕ)
    (hEven : ∀ v, msDeg (edgeMS G.edges) v % 2 = 0)
    (hconn : ∀ v, touchesMS (edgeMS G.edges) v → ReachMS (edgeMS G.edges) start v) :
    walkMS (eulerVertexSeq G start) = edgeMS G.edges ∧
    (eulerVertexSeq G start).head? = some start ∧
    (eulerVertexSeq G start).getLast? = some start ∧
    (eulerVertexSeq G start).length = G.edges.length + 1 := by
  obtain ⟨Ef, Q, hrun, hQ, hhead, hlast, hEq, hdeg⟩ :=
    eulerLoop_spec (edgeMS G.edges) start hEven (2 * G.edges.length + 2) G.edges [start] []
      (by simp only [List.length_cons, List.length_nil]; omega) (by simp) (by simp)
      (by intro v hv; simp at hv)
      (Or.inl ⟨rfl, by rw [walkMS_single, add_zero]⟩)
  have hR : eulerVertexSeq G start = Q := by
    unfold eulerVertexSeq
    rw [hrun]
    rfl
  have hQnil : ([] : List ℕ) ++ Q = Q := rfl
  rw [hQnil] at hhead hlast hEq hdeg
  have hEf : Ef = [] :=
    euler_run_consumes_all (edgeMS G.edges) Ef Q start hEq hdeg hhead hconn
  subst hEf
  have hedgeEf : edgeMS [] = 0 := rfl
  rw [hedgeEf, zero_add] at hEq
  refine ⟨?_, ?_, ?_, ?_⟩
  · rw [hR, ← hEq]
  · rw [hR]; exact hhead
  · rw [hR]; exact hlast
  · rw [hR]
    have hcard := congrArg Multiset.card hEq
    have h1 : Multiset.card (edgeMS G.edges) = G.edges.length := by
      simp [edgeMS]
    have h2 : Multiset.card (walkMS Q) = (Q.zip Q.tail).length := by
      simp [walkMS]
    rw [h1, h2, zip_tail_length Q hQ] at hcard
    have hQlen : 1 ≤ Q.length := by
      cases Q with
      | nil => exact absurd rfl hQ
      | cons a L => simp
    omega

/-! ## The executable connectivity check computes abstract reachability -/

/-- Well-formed multigraph: distinct nodes, edges between nodes. -/
def MGraph.WF (G : MGraph) : Prop :=
  G.nodes.Nodup ∧ ∀ e ∈ G.edges, e.1 ∈ G.nodes ∧ e.2.1 ∈ G.nodes

/-- The multigraph is connected (pairwise reachability; nonempty). -/
def MGraph.ConnectedAbs (G : MGraph) : Prop :=
  G.nodes ≠ [] ∧ ∀ u ∈ G.nodes, ∀ v ∈ G.nodes, ReachMS (edgeMS G.edges) u v

/-- Every vertex has even degree. -/
def MGraph.EvenAbs (G : MGraph) : Prop := ∀ v ∈ G.nodes, G.degree v % 2 = 0

theorem nrm_cases (a b c d : ℕ) (h : nrm (a, b) = (c, d)) :
    (a = c ∧ b = d) ∨ (a = d ∧ b = c) := by
  unfold nrm at h
  rcases Nat.le_total a b with hle | hle
  · left
    rw [Nat.min_eq_left hle, Nat.max_eq_right hle] at h
    exact ⟨congrArg Prod.fst h, congrArg Prod.snd h⟩
  · right
    rw [Nat.min_eq_right hle, Nat.max_eq_left hle] at h
    exact ⟨congrArg Prod.snd h, congrArg Prod.fst h⟩

theorem incident_iff_adjRel (G : MGraph) (x y : ℕ) :
    y ∈ G.incident x ↔ adjRel (edgeMS G.edges) x y := by
  unfold MGraph.incident adjRel edgeMS
  rw [List.mem_filterMap]
  constructor
  · rintro ⟨e, he, hfe⟩
    by_cases h1 : e.1 = x
    · rw [if_pos h1] at hfe
      have h2 : e.2.1 = y := Option.some.inj hfe
      have hmem : nrm (x, y) ∈ (G.edges.map (fun e => nrm (e.1, e.2.1)) : List (ℕ × ℕ)) := by
        rw [List.mem_map]
        exact ⟨e, he, by rw [h1, h2]⟩
      rcases Nat.le_total x y with hle | hle
      · left
        have : nrm (x, y) = (x, y) := by
          unfold nrm; rw [Nat.min_eq_left hle, Nat.max_eq_right hle]
        rw [← this]
        exact Multiset.mem_coe.mpr hmem
      · right
        have : nrm (x, y) = (y, x) := by
          unfold nrm; rw [Nat.min_eq_right hle, Nat.max_eq_left hle]
        rw [← this]
        exact Multiset.mem_coe.mpr hmem
    · rw [if_neg h1] at hfe
      by_cases h2 : e.2.1 = x
      · rw [if_pos h2] at hfe
        have h3 : e.1 = y := Option.some.inj hfe
        have hmem : nrm (y, x) ∈ (G.edges.map (fun e => nrm (e.1, e.2.1)) : List (ℕ × ℕ)) := by
          rw [List.mem_map]
          exact ⟨e, he, by rw [h3, h2]⟩
        rcases Nat.le_total y x with hle | hle
        · right
          have : nrm (y, x) = (y, x) := by
            unfold nrm; rw [Nat.min_eq_left hle, Nat.max_eq_right hle]
          rw [← this]
          exact Multiset.mem_coe.mpr hmem
        · left
          have : nrm (y, x) = (x, y) := by
            unfold nrm; rw [Nat.min_eq_right hle, Nat.max_eq_left hle]
          rw [← this]
          exact Multiset.mem_coe.mpr hmem
      · rw [if_neg h2] at hfe
        exact absurd hfe (by simp)
  · intro hadj
    have hpair : ∃ e ∈ G.edges, (e.1 = x ∧ e.2.1 = y) ∨ (e.1 = y ∧ e.2.1 = x) := by
      rcases hadj with h | h
      · have hm := Multiset.mem_coe.mp h
        rw [List.mem_map] at hm
        obtain ⟨e, he, hnrm⟩ := hm
        rcases nrm_cases e.1 e.2.1 x y hnrm with ⟨h1, h2⟩ | ⟨h1, h2⟩
        · exact ⟨e, he, Or.inl ⟨h1, h2⟩⟩
        · exact ⟨e, he, Or.inr ⟨h1, h2⟩⟩
      · have hm := Multiset.mem_coe.mp h
        rw [List.mem_map] at hm
        obtain ⟨e, he, hnrm⟩ := hm
        rcases nrm_cases e.1 e.2.1 y x hnrm with ⟨h1, h2⟩ | ⟨h1, h2⟩
        · exact ⟨e, he, Or.inr ⟨h1, h2⟩⟩
        · exact ⟨e, he, Or.inl ⟨h1, h2⟩⟩
    obtain ⟨e, he, hcase⟩ := hpair
    refine ⟨e, he, ?_⟩
    rcases hcase with ⟨h1, h2⟩ | ⟨h1, h2⟩
    · rw [if_pos h1, h2]
    · by_cases hx : e.1 = x
      · rw [if_pos hx]
        rw [hx] at h1
        rw [h2, ← h1]
      · rw [if_neg hx, if_pos h2, h1]

theorem contains_iff_mem2 (R : List ℕ) (a : ℕ) : R.contains a = true ↔ a ∈ R := by
  constructor
  · intro h
    simpa using h
  · intro h
    simpa using h

theorem reachStep_sound (G : MGraph) (E0 : Multiset (ℕ × ℕ)) (s : ℕ)
    (hE0 : E0 = edgeMS G.edges) (R : List ℕ)
    (hR : ∀ x ∈ R, ReachMS E0 s x) :
    ∀ x ∈ reachStep G R, ReachMS E0 s x := by
  intro x hx
  unfold reachStep at hx
  rcases List.mem_append.mp hx with h | h
  · exact hR x h
  · have hfil := List.mem_filter.mp h
    have hany := (Bool.and_eq_true _ _).mp hfil.2
    rw [List.any_eq_true] at hany
    obtain ⟨u, hu, huR⟩ := hany.2
    have huR2 : u ∈ R := (contains_iff_mem2 R u).mp huR
    have hadj : adjRel (edgeMS G.edges) x u := (incident_iff_adjRel G x u).mp hu
    have : ReachMS E0 s u := hR u huR2
    exact Relation.ReflTransGen.tail this (by rw [hE0]; exact adjRel_symm _ _ _ hadj)

theorem reachIter_sound (G : MGraph) (E0 : Multiset (ℕ × ℕ)) (s : ℕ)
    (hE0 : E0 = edgeMS G.edges) :
    ∀ (n : ℕ) (R : List ℕ), (∀ x ∈ R, ReachMS E0 s x) →
      ∀ x ∈ reachIter G n R, ReachMS E0 s x := by
  intro n
  induction n with
  | zero => intro R hR x hx; exact hR x hx
  | succ n ih =>
      intro R hR x hx
      exact ih (reachStep G R) (reachStep_sound G E0 s hE0 R hR) x hx

theorem reachStep_sublist (G : MGraph) (R : List ℕ) : R.Sublist (reachStep G R) :=
  List.sublist_append_left R _

theorem reachIter_stable (G : MGraph) (R : List ℕ) (h : reachStep G R = R) :
    ∀ n, reachIter G n R = R := by
  intro n
  induction n with
  | zero => rfl
  | succ n ih => show reachIter G n (reachStep G R) = R; rw [h]; exact ih

/-- A stable reached set is closed under reachability. -/
theorem reachStep_closed (G : MGraph) (hWF : G.WF) (R : List ℕ)
    (h : reachStep G R = R) :
    ∀ x v, x ∈ R → ReachMS (edgeMS G.edges) x v → v ∈ R := by
  intro x v hx hreach
  induction hreach with
  | refl => exact hx
  | tail hprev hadj ih =>
      rename_i u w
      by_cases hw : w ∈ R
      · exact hw
      · have hwnode : w ∈ G.nodes := by
          rcases hadj with hq | hq
          · have hm := Multiset.mem_coe.mp hq
            rw [List.mem_map] at hm
            obtain ⟨e, he, hnrm⟩ := hm
            rcases nrm_cases e.1 e.2.1 u w hnrm with ⟨_, h2⟩ | ⟨h1, _⟩
            · rw [← h2]; exact (hWF.2 e he).2
            · rw [← h1]; exact (hWF.2 e he).1
          · have hm := Multiset.mem_coe.mp hq
            rw [List.mem_map] at hm
            obtain ⟨e, he, hnrm⟩ := hm
            rcases nrm_cases e.1 e.2.1 w u hnrm with ⟨h1, _⟩ | ⟨_, h2⟩
            · rw [← h1]; exact (hWF.2 e he).1
            · rw [← h2]; exact (hWF.2 e he).2
        have hwstep : w ∈ reachStep G R := by
          unfold reachStep
          rw [List.mem_append]
          right
          rw [List.mem_filter]
          refine ⟨hwnode, ?_⟩
          rw [Bool.and_eq_true]
          constructor
          · simp only [Bool.not_eq_true']
            rw [Bool.eq_false_iff]
            intro hc
            exact hw ((contains_iff_mem2 R w).mp hc)
          · rw [List.any_eq_true]
            refine ⟨u, ?_, ?_⟩
            · exact (incident_iff_adjRel G w u).mpr (adjRel_symm _ _ _ hadj)
            · exact (contains_iff_mem2 R u).mpr ih
        rw [h] at hwstep
        exact hwstep

theorem nodup_subset_full (R L : List ℕ) (hR : R.Nodup) (hL : L.Nodup)
    (hsub : ∀ x ∈ R, x ∈ L) (hlen : L.length ≤ R.length) : ∀ v ∈ L, v ∈ R := by
  intro v hv
  have hsubF : R.toFinset ⊆ L.toFinset := by
    intro x hx
    rw [List.mem_toFinset] at hx ⊢
    exact hsub x hx
  have hcR : R.toFinset.card = R.length := List.toFinset_card_of_nodup hR
  have hcL : L.toFinset.card = L.length := List.toFinset_card_of_nodup hL
  have heq : R.toFinset = L.toFinset :=
    Finset.eq_of_subset_of_card_le hsubF (by omega)
  rw [← List.mem_toFinset, ← heq, List.mem_toFinset] at hv
  exact hv

theorem reachStep_nodup (G : MGraph) (hN : G.nodes.Nodup) (R : List ℕ) (hR : R.Nodup) :
    (reachStep G R).Nodup := by
  unfold reachStep
  refine List.Nodup.append hR (List.Nodup.filter _ hN) ?_
  intro a haR haF
  have := (List.mem_filter.mp haF).2
  rw [Bool.and_eq_true] at this
  have h1 := this.1
  rw [Bool.not_eq_true'] at h1
  rw [Bool.eq_false_iff] at h1
  exact h1 ((contains_iff_mem2 R a).mpr haR)

theorem reachStep_subset_nodes (G : MGraph) (R : List ℕ) (hR : ∀ x ∈ R, x ∈ G.nodes) :
    ∀ x ∈ reachStep G R, x ∈ G.nodes := by
  intro x hx
  rcases List.mem_append.mp hx with h | h
  · exact hR x h
  · exact (List.mem_filter.mp h).1

theorem reachStep_grows (G : MGraph) (R : List ℕ) (h : reachStep G R ≠ R) :
    R.length + 1 ≤ (reachStep G R).length := by
  unfold reachStep at h ⊢
  rw [List.length_append]
  cases hf : List.filter (fun v => !R.contains v && (G.incident v).any fun u => R.contains u) G.nodes with
  | nil => exfalso; apply h; rw [hf]; exact List.append_nil R
  | cons a L => simp [hf]

theorem reachIter_complete (G : MGraph) (hWF : G.WF) :
    ∀ (n : ℕ) (R : List ℕ), R.Nodup → (∀ x ∈ R, x ∈ G.nodes) →
      G.nodes.length ≤ R.length + n →
      ∀ v x, x ∈ R → ReachMS (edgeMS G.edges) x v → v ∈ G.nodes →
        v ∈ reachIter G n R := by
  intro n
  induction n with
  | zero =>
      intro R hnd hsub hlen v x hx hreach hv
      exact nodup_subset_full R G.nodes hnd hWF.1 hsub (by omega) v hv
  | succ n ih =>
      intro R hnd hsub hlen v x hx hreach hv
      by_cases hst : reachStep G R = R
      · show v ∈ reachIter G n (reachStep G R)
        rw [hst, reachIter_stable G R hst n]
        exact reachStep_closed G hWF R hst x v hx hreach
      · show v ∈ reachIter G n (reachStep G R)
        refine ih (reachStep G R) (reachStep_nodup G hWF.1 R hnd)
          (reachStep_subset_nodes G R hsub) ?_ v x ?_ hreach hv
        · have := reachStep_grows G R hst
          omega
        · exact List.mem_append_left _ hx

theorem headD_mem (L : List ℕ) (h : L ≠ []) : L.headD 0 ∈ L := by
  cases L with
  | nil => exact absurd rfl h
  | cons a L2 => exact List.mem_cons_self a L2

/-- The library's connectivity check agrees with abstract connectivity. -/
theorem isConnected_iff (G : MGraph) (hWF : G.WF) :
    G.isConnected = true ↔ G.ConnectedAbs := by
  constructor
  · intro h
    unfold MGraph.isConnected at h
    rw [Bool.and_eq_true] at h
    have hne : G.nodes ≠ [] := by
      intro hcon
      rw [hcon] at h
      simp at h
    have hall := h.2
    rw [List.all_eq_true] at hall
    have hsound : ∀ x ∈ G.reachableFromHead,
        ReachMS (edgeMS G.edges) (G.nodes.headD 0) x := by
      intro x hx
      refine reachIter_sound G (edgeMS G.edges) (G.nodes.headD 0) rfl G.nodes.length
        [G.nodes.headD 0] ?_ x hx
      intro y hy
      have : y = G.nodes.headD 0 := by simpa using hy
      rw [this]
      exact Relation.ReflTransGen.refl
    refine ⟨hne, ?_⟩
    intro u hu v hv
    have hru := hsound u ((contains_iff_mem2 _ u).mp (hall u hu))
    have hrv := hsound v ((contains_iff_mem2 _ v).mp (hall v hv))
    exact Relation.ReflTransGen.trans (ReachMS_symm _ _ _ hru) hrv
  · intro h
    obtain ⟨hne, hpair⟩ := h
    unfold MGraph.isConnected
    rw [Bool.and_eq_true]
    constructor
    · simp only [Bool.not_eq_true']
      rw [List.isEmpty_eq_false_iff_exists_mem]
      exact List.exists_mem_of_ne_nil G.nodes hne
    · rw [List.all_eq_true]
      intro v hv
      refine (contains_iff_mem2 _ v).mpr ?_
      refine reachIter_complete G hWF G.nodes.length [G.nodes.headD 0] (by simp)
        ?_ ?_ v (G.nodes.headD 0) (by simp) ?_ hv
      · intro x hx
        have : x = G.nodes.headD 0 := by simpa using hx
        rw [this]
        exact headD_mem G.nodes hne
      · simp
      · exact hpair (G.nodes.headD 0) (headD_mem G.nodes hne) v hv

theorem degree_eq_msDeg_list (E : List (ℕ × ℕ × Weight)) (v : ℕ) :
    (E.map (fun e => (if e.1 = v then 1 else 0) + (if e.2.1 = v then 1 else 0))).sum
      = msDeg (edgeMS E) v := by
  induction E with
  | nil => rfl
  | cons f E ih =>
      show ((if f.1 = v then 1 else 0) + (if f.2.1 = v then 1 else 0))
          + (E.map _).sum = msDeg (nrm (f.1, f.2.1) ::ₘ edgeMS E) v
      rw [msDeg_cons, pairDeg_nrm, ih]
      rfl

theorem degree_eq_msDeg (G : MGraph) (v : ℕ) :
    G.degree v = msDeg (edgeMS G.edges) v :=
  degree_eq_msDeg_list G.edges v

theorem even_all_of_evenAbs (G : MGraph) (hWF : G.WF) (he : G.EvenAbs) :
    ∀ v, msDeg (edgeMS G.edges) v % 2 = 0 := by
  intro v
  by_cases hv : v ∈ G.nodes
  · rw [← degree_eq_msDeg]
    exact he v hv
  · rw [msDeg_edgeMS_zero v G.edges]
    intro e he2
    constructor
    · intro hc
      apply hv
      rw [← hc]
      exact (hWF.2 e he2).1
    · intro hc
      apply hv
      rw [← hc]
      exact (hWF.2 e he2).2

theorem min_mem_pair (a b : ℕ) : min a b = a ∨ min a b = b := by
  rcases Nat.le_total a b with h | h
  · left; exact Nat.min_eq_left h
  · right; exact Nat.min_eq_right h

theorem max_mem_pair (a b : ℕ) : max a b = a ∨ max a b = b := by
  rcases Nat.le_total a b with h | h
  · right; exact Nat.max_eq_right h
  · left; exact Nat.max_eq_left h

theorem touches_reach (G : MGraph) (hWF : G.WF) (hconn : G.ConnectedAbs)
    (start : ℕ) (hstart : start ∈ G.nodes) :
    ∀ v, touchesMS (edgeMS G.edges) v → ReachMS (edgeMS G.edges) start v := by
  intro v htouch
  obtain ⟨q, hq, hv⟩ := htouch
  have hm := Multiset.mem_coe.mp hq
  rw [List.mem_map] at hm
  obtain ⟨e, he, hnrm⟩ := hm
  have hends := hWF.2 e he
  have hvnode : v ∈ G.nodes := by
    rcases hv with h | h
    · rw [← h, ← hnrm]
      show min e.1 e.2.1 ∈ G.nodes
      rcases min_mem_pair e.1 e.2.1 with h2 | h2
      · rw [h2]; exact hends.1
      · rw [h2]; exact hends.2
    · rw [← h, ← hnrm]
      show max e.1 e.2.1 ∈ G.nodes
      rcases max_mem_pair e.1 e.2.1 with h2 | h2
      · rw [h2]; exact hends.1
      · rw [h2]; exact hends.2
  exact hconn.2 start hstart v hvnode

/-- Specification of `_create_eulerian_path` on a well-formed Eulerian
input: the returned vertex sequence has `E + 1` entries, is closed at
`start`, and its consecutive pairs are exactly the edge multiset. -/
theorem create_eulerian_path_spec (G : MGraph) (start : ℕ) (hWF : G.WF)
    (hconn : G.ConnectedAbs) (heven : G.EvenAbs) (hE : 1 ≤ G.edges.length)
    (hstart : start ∈ G.nodes) :
    ∃ P, create_eulerian_path G start = some P ∧
      P.length = G.edges.length + 1 ∧ P.head? = some start ∧
      P.getLast? = some start ∧ walkMS P = edgeMS G.edges := by
  obtain ⟨hms, hhd, hlt, hlen⟩ := eulerVertexSeq_spec G start
    (even_all_of_evenAbs G hWF heven) (touches_reach G hWF hconn start hstart)
  refine ⟨eulerVertexSeq G start, ?_, hlen, hhd, hlt, hms⟩
  unfold create_eulerian_path
  have hcheck : G.isEulerianCheck = true := by
    unfold MGraph.isEulerianCheck
    rw [Bool.and_eq_true]
    refine ⟨(isConnected_iff G hWF).mpr hconn, ?_⟩
    rw [List.all_eq_true]
    intro v hv
    have := heven v hv
    simpa using this
  rw [hcheck]
  have hst : G.nodes.contains start = true := (contains_iff_mem2 _ start).mpr hstart
  rw [hst]
  have hlt2 : ¬ (eulerVertexSeq G start).length < 2 := by omega
  simp only [Bool.and_self, if_true, if_neg hlt2]

/-- `_create_eulerian_path` raises (returns `none`) whenever the input is
disconnected or has an odd-degree vertex. -/
theorem create_eulerian_path_fail (G : MGraph) (start : ℕ) (hWF : G.WF)
    (h : ¬ (G.ConnectedAbs ∧ G.EvenAbs)) :
    create_eulerian_path G start = none := by
  unfold create_eulerian_path
  have hcheck : G.isEulerianCheck = false := by
    rw [Bool.eq_false_iff]
    intro hc
    unfold MGraph.isEulerianCheck at hc
    rw [Bool.and_eq_true] at hc
    refine h ⟨(isConnected_iff G hWF).mp hc.1, ?_⟩
    intro v hv
    have hall := hc.2
    rw [List.all_eq_true] at hall
    have := hall v hv
    simpa using this
  rw [hcheck]
  rfl

/-- C6.  On every well-formed connected multigraph with all degrees even,
at least one edge, and a start vertex of it, `_create_eulerian_path`
returns a vertex sequence of exactly `E + 1` vertices beginning and
ending at the start and whose consecutive unordered pairs are exactly
the edge multiset (every edge traversed exactly once); on a disconnected
or non-even-degree multigraph it raises instead of returning a partial
walk (`none` in the embedding). -/
theorem claim_C6 (G : MGraph) (start : ℕ) (hWF : G.WF) :
    ((G.ConnectedAbs ∧ G.EvenAbs ∧ 1 ≤ G.edges.length ∧ start ∈ G.nodes) →
      ∃ P, create_eulerian_path G start = some P ∧
        P.length = G.edges.length + 1 ∧ P.head? = some start ∧
        P.getLast? = some start ∧ walkMS P = edgeMS G.edges) ∧
    (¬ (G.ConnectedAbs ∧ G.EvenAbs) → create_eulerian_path G start = none) := by
  constructor
  · intro ⟨h1, h2, h3, h4⟩
    exact create_eulerian_path_spec G start hWF h1 h2 h3 h4
  · intro h
    exact create_eulerian_path_fail G start hWF h

/-- Witness for C6: a two-vertex multigraph with doubled edge (Eulerian),
and a single-edge multigraph (odd degrees, fatal error). -/
theorem claim_C6_witness :
    (∃ P, create_eulerian_path (MGraph.mk [0, 1] [(0, 1, 1), (0, 1, 1)]) 0 = some P ∧
      P.length = 3 ∧ P.head? = some 0 ∧ P.getLast? = some 0 ∧
      walkMS P = edgeMS [(0, 1, 1), (0, 1, 1)]) ∧
    create_eulerian_path (MGraph.mk [0, 1] [(0, 1, 1)]) 0 = none := by
  constructor
  · exact (claim_C6 (MGraph.mk [0, 1] [(0, 1, 1), (0, 1, 1)]) 0
      (by constructor
          · decide
          · intro e he
            rcases List.mem_cons.mp he with rfl | he2
            · exact ⟨by decide, by decide⟩
            · rcases List.mem_cons.mp he2 with rfl | he3
              · exact ⟨by decide, by decide⟩
              · exact absurd he3 (by simp))).1
      (by
        refine ⟨⟨by decide, ?_⟩, ?_, by decide, by decide⟩
        · intro u hu v hv
          have hadj : adjRel (edgeMS [((0:ℕ), (1:ℕ), (1:Weight)), (0, 1, 1)]) 0 1 :=
            Or.inl (by decide)
          have hu2 : u = 0 ∨ u = 1 := by simpa using hu
          have hv2 : v = 0 ∨ v = 1 := by simpa using hv
          rcases hu2 with rfl | rfl <;> rcases hv2 with rfl | rfl
          · exact Relation.ReflTransGen.refl
          · exact Relation.ReflTransGen.single hadj
          · exact Relation.ReflTransGen.single (adjRel_symm _ _ _ hadj)
          · exact Relation.ReflTransGen.refl
        · intro v hv
          have hv2 : v = 0 ∨ v = 1 := by simpa using hv
          rcases hv2 with rfl | rfl
          · decide
          · decide)
  · exact (claim_C6 (MGraph.mk [0, 1] [(0, 1, 1)]) 0
      (by constructor
          · decide
          · intro e he
            rcases List.mem_cons.mp he with rfl | he2
            · exact ⟨by decide, by decide⟩
            · exact absurd he2 (by simp))).2
      (by
        intro hcon
        have := hcon.2 0 (by decide)
        revert this
        decide)

/-! ## Well-formed simple graphs -/

/-- Two stored edges joining different unordered pairs. -/
def distinctPair (e f : ℕ × ℕ × Weight) : Prop :=
  ¬ ((e.1 = f.1 ∧ e.2.1 = f.2.1) ∨ (e.1 = f.2.1 ∧ e.2.1 = f.1))

/-- Well-formed simple graph: distinct nodes, edges between distinct
nodes, at most one stored edge per unordered pair. -/
def Graph.WF (Gr : Graph) : Prop :=
  Gr.nodes.Nodup ∧
  (∀ e ∈ Gr.edges, e.1 ∈ Gr.nodes ∧ e.2.1 ∈ Gr.nodes ∧ e.1 ≠ e.2.1) ∧
  List.Pairwise distinctPair Gr.edges

theorem sameEdge_comm (u v : ℕ) (e : ℕ × ℕ × Weight) :
    sameEdge u v e = sameEdge v u e := by
  unfold sameEdge
  exact Bool.or_comm _ _

theorem sameEdge_self (e : ℕ × ℕ × Weight) : sameEdge e.1 e.2.1 e = true := by
  unfold sameEdge
  simp

theorem sameEdge_of_distinctPair (u v : ℕ) (e f : ℕ × ℕ × Weight)
    (hd : distinctPair f e) (hf : f.1 = u ∧ f.2.1 = v) : sameEdge u v e = false := by
  rw [Bool.eq_false_iff]
  intro hc
  unfold sameEdge at hc
  rw [Bool.or_eq_true, Bool.and_eq_true, Bool.and_eq_true] at hc
  apply hd
  rcases hc with ⟨h1, h2⟩ | ⟨h1, h2⟩
  · rw [beq_iff_eq] at h1 h2
    exact Or.inl ⟨hf.1.trans h1.symm, hf.2.trans h2.symm⟩
  · rw [beq_iff_eq] at h1 h2
    exact Or.inr ⟨hf.1.trans h2.symm, hf.2.trans h1.symm⟩

/-- Under at-most-one-edge-per-pair, the lookup finds the stored edge. -/
theorem find?_sameEdge (v1 v2 : ℕ) :
    ∀ (E : List (ℕ × ℕ × Weight)), List.Pairwise distinctPair E →
      ∀ e ∈ E, e.1 = v1 → e.2.1 = v2 →
        E.find? (fun f => sameEdge v1 v2 f) = some e := by
  intro E
  induction E with
  | nil => intro _ e he; exact absurd he (by simp)
  | cons f E ih =>
      intro hpw e he h1 h2
      rcases List.mem_cons.mp he with rfl | he2
      · rw [List.find?_cons_of_pos _ (by rw [← h1, ← h2]; exact sameEdge_self e)]
      · have hd : distinctPair e f := by
          have := (List.pairwise_cons.mp hpw).1 e he2
          intro hc
          apply this
          rcases hc with ⟨ha, hb⟩ | ⟨ha, hb⟩
          · exact Or.inl ⟨ha.symm, hb.symm⟩
          · exact Or.inr ⟨hb.symm, ha.symm⟩
        rw [List.find?_cons_of_neg _ ?hneg]
        · exact ih (List.pairwise_cons.mp hpw).2 e he2 h1 h2
        · case hneg =>
            rw [Bool.not_eq_true]
            exact sameEdge_of_distinctPair v1 v2 f e hd ⟨h1, h2⟩

theorem wt_of_mem (Gr : Graph) (hpw : List.Pairwise distinctPair Gr.edges)
    (e : ℕ × ℕ × Weight) (he : e ∈ Gr.edges) :
    Gr.wt e.1 e.2.1 = e.2.2 ∧ Gr.wt e.2.1 e.1 = e.2.2 := by
  constructor
  · unfold Graph.wt Graph.edgeWeight
    rw [find?_sameEdge e.1 e.2.1 Gr.edges hpw e he rfl rfl]
    rfl
  · unfold Graph.wt Graph.edgeWeight
    have hsw : (fun f => sameEdge e.2.1 e.1 f) = (fun f => sameEdge e.1 e.2.1 f) := by
      funext f
      exact sameEdge_comm e.2.1 e.1 f
    rw [hsw, find?_sameEdge e.1 e.2.1 Gr.edges hpw e he rfl rfl]
    rfl

/-- Adjacency-list length at `v` equals the pair-multiset degree (for
self-loop-free edge lists). -/
theorem nbrsLen_eq_msDeg (v : ℕ) :
    ∀ (E : List (ℕ × ℕ × Weight)), (∀ e ∈ E, e.1 ≠ e.2.1) →
      (List.filterMap
          (fun e => if e.1 = v then some e.2.1 else if e.2.1 = v then some e.1 else none)
          E).length
        = msDeg (edgeMS E) v := by
  intro E
  induction E with
  | nil => intro _; rfl
  | cons e E ih =>
      intro hT
      have hne := hT e (List.mem_cons_self e E)
      have hE : ∀ f ∈ E, f.1 ≠ f.2.1 := fun f hf => hT f (List.mem_cons_of_mem e hf)
      have hm : msDeg (edgeMS (e :: E)) v = pairDeg (e.1, e.2.1) v + msDeg (edgeMS E) v := by
        show msDeg (nrm (e.1, e.2.1) ::ₘ edgeMS E) v = _
        rw [msDeg_cons, pairDeg_nrm]
      rw [hm]
      by_cases h1 : e.1 = v
      · have h2 : e.2.1 ≠ v := by rw [← h1]; exact fun hc => hne hc.symm
        have hcons : List.filterMap
            (fun e => if e.1 = v then some e.2.1 else if e.2.1 = v then some e.1 else none)
            (e :: E) = e.2.1 :: List.filterMap
              (fun e => if e.1 = v then some e.2.1 else if e.2.1 = v then some e.1 else none) E := by
          simp only [List.filterMap_cons, if_pos h1]
        rw [hcons, List.length_cons, ih hE]
        have hpd : pairDeg (e.1, e.2.1) v = 1 := by
          simp [pairDeg, h1, h2]
        omega
      · by_cases h2 : e.2.1 = v
        · have hcons : List.filterMap
              (fun e => if e.1 = v then some e.2.1 else if e.2.1 = v then some e.1 else none)
              (e :: E) = e.1 :: List.filterMap
                (fun e => if e.1 = v then some e.2.1 else if e.2.1 = v then some e.1 else none) E := by
            simp only [List.filterMap_cons, if_neg h1, if_pos h2]
          rw [hcons, List.length_cons, ih hE]
          have hpd : pairDeg (e.1, e.2.1) v = 1 := by
            simp [pairDeg, h1, h2]
          omega
        · have hcons : List.filterMap
              (fun e => if e.1 = v then some e.2.1 else if e.2.1 = v then some e.1 else none)
              (e :: E) = List.filterMap
                (fun e => if e.1 = v then some e.2.1 else if e.2.1 = v then some e.1 else none) E := by
            simp only [List.filterMap_cons, if_neg h1, if_neg h2]
          rw [hcons, ih hE]
          have hpd : pairDeg (e.1, e.2.1) v = 0 := by
            simp [pairDeg, h1, h2]
          omega

theorem degree_eq_msDeg_simple (Gr : Graph) (hT : ∀ e ∈ Gr.edges, e.1 ≠ e.2.1) (v : ℕ) :
    Gr.degree v = msDeg (edgeMS Gr.edges) v :=
  nbrsLen_eq_msDeg v Gr.edges hT

/-! ## The double-tree constructor -/

/-- Edge multiset with weights (unordered pairs). -/
def wedgeMS (E : List (ℕ × ℕ × Weight)) : Multiset ((ℕ × ℕ) × Weight) :=
  (E.map (fun e => (nrm (e.1, e.2.1), e.2.2)) : List ((ℕ × ℕ) × Weight))

/-- Connectivity of a simple graph (pairwise; nonempty). -/
def Graph.ConnG (Gr : Graph) : Prop :=
  Gr.nodes ≠ [] ∧ ∀ u ∈ Gr.nodes, ∀ v ∈ Gr.nodes, ReachMS (edgeMS Gr.edges) u v

def mStep (D : MGraph) (t : ℕ × ℕ × Weight) : MGraph := D.addEdge t.1 t.2.1 t.2.2

theorem MGraph.addNode_edges (D : MGraph) (v : ℕ) : (D.addNode v).edges = D.edges := by
  unfold MGraph.addNode
  split <;> rfl

theorem MGraph.addEdge_edges (D : MGraph) (u v : ℕ) (w : Weight) :
    (D.addEdge u v w).edges = D.edges ++ [(u, v, w)] := by
  show ((D.addNode u).addNode v).edges ++ [(u, v, w)] = D.edges ++ [(u, v, w)]
  rw [MGraph.addNode_edges, MGraph.addNode_edges]

theorem MGraph.addNode_mem_nodes (D : MGraph) (v x : ℕ) :
    x ∈ (D.addNode v).nodes ↔ x ∈ D.nodes ∨ x = v := by
  unfold MGraph.addNode
  split
  · rename_i h
    constructor
    · exact Or.inl
    · rintro (h2 | rfl)
      · exact h2
      · exact h
  · simp

theorem MGraph.addEdge_mem_nodes (D : MGraph) (u v : ℕ) (w : Weight) (x : ℕ) :
    x ∈ (D.addEdge u v w).nodes ↔ x ∈ D.nodes ∨ x = u ∨ x = v := by
  show x ∈ (((D.addNode u).addNode v)).nodes ↔ _
  rw [MGraph.addNode_mem_nodes, MGraph.addNode_mem_nodes]
  tauto

theorem MGraph.addNode_nodup_nodes (D : MGraph) (v : ℕ) (h : D.nodes.Nodup) :
    (D.addNode v).nodes.Nodup := by
  unfold MGraph.addNode
  split
  · exact h
  · rename_i hnv
    simpa [List.nodup_append] using ⟨h, hnv⟩

theorem MGraph.addEdge_nodup_nodes (D : MGraph) (u v : ℕ) (w : Weight) (h : D.nodes.Nodup) :
    (D.addEdge u v w).nodes.Nodup :=
  MGraph.addNode_nodup_nodes _ v (MGraph.addNode_nodup_nodes D u h)

theorem mfold_edges (L : List (ℕ × ℕ × Weight)) :
    ∀ D : MGraph, (L.foldl mStep D).edges = D.edges ++ L := by
  induction L with
  | nil => intro D; simp
  | cons t L ih =>
      intro D
      show (L.foldl mStep (mStep D t)).edges = D.edges ++ t :: L
      rw [ih (mStep D t)]
      show (D.addEdge t.1 t.2.1 t.2.2).edges ++ L = D.edges ++ t :: L
      rw [MGraph.addEdge_edges]
      simp

theorem mfold_nodes_mem (L : List (ℕ × ℕ × Weight)) :
    ∀ (D : MGraph) (x : ℕ),
      x ∈ (L.foldl mStep D).nodes ↔ x ∈ D.nodes ∨ ∃ t ∈ L, x = t.1 ∨ x = t.2.1 := by
  induction L with
  | nil => intro D x; simp
  | cons t L ih =>
      intro D x
      show x ∈ (L.foldl mStep (mStep D t)).nodes ↔ _
      rw [ih (mStep D t) x]
      show x ∈ (D.addEdge t.1 t.2.1 t.2.2).nodes ∨ _ ↔ _
      rw [MGraph.addEdge_mem_nodes]
      constructor
      · rintro ((h | h | h) | ⟨u, hu, hx⟩)
        · exact Or.inl h
        · exact Or.inr ⟨t, List.mem_cons_self t L, Or.inl h⟩
        · exact Or.inr ⟨t, List.mem_cons_self t L, Or.inr h⟩
        · exact Or.inr ⟨u, List.mem_cons_of_mem t hu, hx⟩
      · rintro (h | ⟨u, hu, hx⟩)
        · exact Or.inl (Or.inl h)
        · rcases List.mem_cons.mp hu with rfl | hu2
          · rcases hx with h2 | h2
            · exact Or.inl (Or.inr (Or.inl h2))
            · exact Or.inl (Or.inr (Or.inr h2))
          · exact Or.inr ⟨u, hu2, hx⟩

theorem mfold_nodes_nodup (L : List (ℕ × ℕ × Weight)) :
    ∀ D : MGraph, D.nodes.Nodup → (L.foldl mStep D).nodes.Nodup := by
  induction L with
  | nil => intro D h; exact h
  | cons t L ih =>
      intro D h
      exact ih (mStep D t) (MGraph.addEdge_nodup_nodes D t.1 t.2.1 t.2.2 h)

theorem foldl_bind_graphs (f : ℕ → List (ℕ × ℕ × Weight)) :
    ∀ (L : List ℕ) (D : MGraph),
      (L.flatMap f).foldl mStep D = L.foldl (fun acc v => (f v).foldl mStep acc) D := by
  intro L
  induction L with
  | nil => intro D; rfl
  | cons v L ih =>
      intro D
      show ((f v ++ L.flatMap f).foldl mStep D) = _
      rw [List.foldl_append]
      exact ih ((f v).foldl mStep D)

/-- The flattened edge-insertion list of `_duplicate_weighted_graph`. -/
def dupList (T : Graph) : List (ℕ × ℕ × Weight) :=
  T.nodes.flatMap (fun v => (T.nbrs v).map (fun w => (v, w, T.wt v w)))

theorem duplicate_eq_fold (T : Graph) :
    duplicate_weighted_graph T = (dupList T).foldl mStep MGraph.empty := by
  unfold duplicate_weighted_graph dupList
  rw [foldl_bind_graphs]
  congr 1
  funext acc v
  rw [List.foldl_map]
  rfl

theorem duplicate_edges (T : Graph) :
    (duplicate_weighted_graph T).edges = dupList T := by
  rw [duplicate_eq_fold, mfold_edges]
  rfl

theorem duplicate_nodes_mem (T : Graph) (x : ℕ) :
    x ∈ (duplicate_weighted_graph T).nodes ↔ ∃ t ∈ dupList T, x = t.1 ∨ x = t.2.1 := by
  rw [duplicate_eq_fold, mfold_nodes_mem]
  constructor
  · rintro (h | h)
    · exact absurd h (by simp [MGraph.empty])
    · exact h
  · exact Or.inr

theorem duplicate_nodes_nodup (T : Graph) : (duplicate_weighted_graph T).nodes.Nodup := by
  rw [duplicate_eq_fold]
  exact mfold_nodes_nodup (dupList T) MGraph.empty (by simp [MGraph.empty])

/-- The per-node incident-edge triples, with weights read off the edge. -/
def nbrsTriples (E : List (ℕ × ℕ × Weight)) (v : ℕ) : List (ℕ × ℕ × Weight) :=
  E.filterMap (fun e =>
    if e.1 = v then some (v, e.2.1, e.2.2)
    else if e.2.1 = v then some (v, e.1, e.2.2) else none)

theorem nbrs_map_eq_nbrsTriples (T : Graph) (hpw : List.Pairwise distinctPair T.edges)
    (v : ℕ) :
    (T.nbrs v).map (fun w => (v, w, T.wt v w)) = nbrsTriples T.edges v := by
  unfold Graph.nbrs nbrsTriples
  rw [List.map_filterMap]
  apply List.filterMap_congr
  intro e he
  by_cases h1 : e.1 = v
  · rw [if_pos h1, if_pos h1]
    have hw := (wt_of_mem T hpw e he).1
    simp only [Option.map_some']
    rw [← h1, hw]
  · rw [if_neg h1, if_neg h1]
    by_cases h2 : e.2.1 = v
    · rw [if_pos h2, if_pos h2]
      have hw := (wt_of_mem T hpw e he).2
      simp only [Option.map_some']
      rw [← h2, hw]
    · rw [if_neg h2, if_neg h2]
      rfl

theorem nbrsTriples_cons (e : ℕ × ℕ × Weight) (E : List (ℕ × ℕ × Weight)) (v : ℕ) :
    nbrsTriples (e :: E) v
      = (if e.1 = v then [(v, e.2.1, e.2.2)]
         else if e.2.1 = v then [(v, e.1, e.2.2)] else []) ++ nbrsTriples E v := by
  unfold nbrsTriples
  rw [List.filterMap_cons]
  by_cases h1 : e.1 = v
  · rw [if_pos h1, if_pos h1]
    rfl
  · rw [if_neg h1, if_neg h1]
    by_cases h2 : e.2.1 = v
    · rw [if_pos h2, if_pos h2]
      rfl
    · rw [if_neg h2, if_neg h2]
      rfl

theorem flatMap_append_ms {α : Type} (nodes : List ℕ) (A B : ℕ → List α) :
    (↑(nodes.flatMap (fun v => A v ++ B v)) : Multiset α)
      = ↑(nodes.flatMap A) + ↑(nodes.flatMap B) := by
  induction nodes with
  | nil => rfl
  | cons n nodes ih =>
      show (↑((A n ++ B n) ++ nodes.flatMap (fun v => A v ++ B v)) : Multiset α) = _
      rw [← Multiset.coe_add, ← Multiset.coe_add, ih]
      show (↑(A n) + ↑(B n) : Multiset α) + (↑(nodes.flatMap A) + ↑(nodes.flatMap B))
        = (↑(A n) + ↑(nodes.flatMap A)) + (↑(B n) + ↑(nodes.flatMap B))
      simp only [add_comm, add_left_comm, add_assoc]

theorem flatMap_all_nil {α : Type} (nodes : List ℕ) (f : ℕ → List α)
    (h : ∀ v ∈ nodes, f v = []) : nodes.flatMap f = [] := by
  induction nodes with
  | nil => rfl
  | cons n nodes ih =>
      show f n ++ nodes.flatMap f = []
      rw [h n (List.mem_cons_self n nodes), ih (fun v hv => h v (List.mem_cons_of_mem n hv))]
      rfl

theorem flatMap_one_hit {α : Type} (b : ℕ) (y : α) :
    ∀ (nodes : List ℕ) (f : ℕ → List α),
      (∀ v ∈ nodes, f v = if b = v then [y] else []) →
      nodes.Nodup → b ∈ nodes →
      (↑(nodes.flatMap f) : Multiset α) = {y} := by
  intro nodes
  induction nodes with
  | nil => intro f _ _ hb; exact absurd hb (by simp)
  | cons n nodes ih =>
      intro f hf hnd hb
      have hrest : ∀ v ∈ nodes, f v = if b = v then [y] else [] :=
        fun v hv => hf v (List.mem_cons_of_mem n hv)
      by_cases hbn : b = n
      · have hfn : f n = [y] := by rw [hf n (List.mem_cons_self n nodes), if_pos hbn]
        have hbrest : b ∉ nodes := by rw [hbn]; exact (List.nodup_cons.mp hnd).1
        have hnil : nodes.flatMap f = [] := by
          apply flatMap_all_nil
          intro v hv
          rw [hrest v hv, if_neg]
          intro hc
          rw [hc] at hbrest
          exact hbrest hv
        show (↑(f n ++ nodes.flatMap f) : Multiset α) = {y}
        rw [hfn, hnil]
        rfl
      · have hfn : f n = [] := by rw [hf n (List.mem_cons_self n nodes), if_neg hbn]
        have hb2 : b ∈ nodes := by
          rcases List.mem_cons.mp hb with h | h
          · exact absurd h hbn
          · exact h
        show (↑(f n ++ nodes.flatMap f) : Multiset α) = {y}
        rw [hfn]
        show (↑(nodes.flatMap f) : Multiset α) = {y}
        exact ih f hrest (List.nodup_cons.mp hnd).2 hb2

theorem flatMap_two_hits {α : Type} (a b : ℕ) (x y : α) :
    ∀ (nodes : List ℕ) (f : ℕ → List α),
      (∀ v ∈ nodes, f v = if a = v then [x] else if b = v then [y] else []) →
      nodes.Nodup → a ∈ nodes → b ∈ nodes → a ≠ b →
      (↑(nodes.flatMap f) : Multiset α) = {x, y} := by
  intro nodes
  induction nodes with
  | nil => intro f _ _ ha; exact absurd ha (by simp)
  | cons n nodes ih =>
      intro f hf hnd ha hb hab
      have hrest : ∀ v ∈ nodes, f v = if a = v then [x] else if b = v then [y] else [] :=
        fun v hv => hf v (List.mem_cons_of_mem n hv)
      by_cases han : a = n
      · have hfn : f n = [x] := by rw [hf n (List.mem_cons_self n nodes), if_pos han]
        have harest : a ∉ nodes := by rw [han]; exact (List.nodup_cons.mp hnd).1
        have hb2 : b ∈ nodes := by
          rcases List.mem_cons.mp hb with h | h
          · exact absurd (han.trans h.symm) hab
          · exact h
        have hone : (↑(nodes.flatMap f) : Multiset α) = {y} := by
          apply flatMap_one_hit b y nodes f ?_ (List.nodup_cons.mp hnd).2 hb2
          intro v hv
          rw [hrest v hv, if_neg]
          intro hc
          rw [hc] at harest
          exact harest hv
        show (↑(f n ++ nodes.flatMap f) : Multiset α) = {x, y}
        rw [hfn, ← Multiset.coe_add, hone]
        rfl
      · by_cases hbn : b = n
        · have hfn : f n = [y] := by
            rw [hf n (List.mem_cons_self n nodes), if_neg han, if_pos hbn]
          have hbrest : b ∉ nodes := by rw [hbn]; exact (List.nodup_cons.mp hnd).1
          have ha2 : a ∈ nodes := by
            rcases List.mem_cons.mp ha with h | h
            · exact absurd h han
            · exact h
          have hone : (↑(nodes.flatMap f) : Multiset α) = {x} := by
            apply flatMap_one_hit a x nodes f ?_ (List.nodup_cons.mp hnd).2 ha2
            intro v hv
            rw [hrest v hv]
            by_cases hav : a = v
            · rw [if_pos hav, if_pos hav]
            · rw [if_neg hav, if_neg hav, if_neg]
              intro hc
              rw [hc] at hbrest
              exact hbrest hv
          show (↑(f n ++ nodes.flatMap f) : Multiset α) = {x, y}
          rw [hfn, ← Multiset.coe_add, hone]
          show ({y} : Multiset α) + {x} = {x, y}
          rw [Multiset.pair_comm]
          rfl
        · have hfn : f n = [] := by
            rw [hf n (List.mem_cons_self n nodes), if_neg han, if_neg hbn]
          have ha2 : a ∈ nodes := by
            rcases List.mem_cons.mp ha with h | h
            · exact absurd h han
            · exact h
          have hb2 : b ∈ nodes := by
            rcases List.mem_cons.mp hb with h | h
            · exact absurd h hbn
            · exact h
          show (↑(f n ++ nodes.flatMap f) : Multiset α) = {x, y}
          rw [hfn]
          show (↑(nodes.flatMap f) : Multiset α) = {x, y}
          exact ih f hrest (List.nodup_cons.mp hnd).2 ha2 hb2 hab

/-- The handshake identity: summing each node's incident triples yields
every edge once per direction. -/
theorem handshake (nodes : List ℕ) :
    ∀ (E : List (ℕ × ℕ × Weight)), nodes.Nodup →
      (∀ e ∈ E, e.1 ∈ nodes ∧ e.2.1 ∈ nodes ∧ e.1 ≠ e.2.1) →
      (↑(nodes.flatMap (nbrsTriples E)) : Multiset (ℕ × ℕ × Weight))
        = ↑E + ↑(E.map (fun e => (e.2.1, e.1, e.2.2))) := by
  intro E
  induction E with
  | nil =>
      intro hnd _
      rw [flatMap_all_nil nodes (nbrsTriples []) (fun v _ => rfl)]
      rfl
  | cons e E ih =>
      intro hnd hE
      have hee := hE e (List.mem_cons_self e E)
      have hErest : ∀ f ∈ E, f.1 ∈ nodes ∧ f.2.1 ∈ nodes ∧ f.1 ≠ f.2.1 :=
        fun f hf => hE f (List.mem_cons_of_mem e hf)
      have hsplit : nodes.flatMap (nbrsTriples (e :: E))
          = nodes.flatMap (fun v =>
              (if e.1 = v then [(v, e.2.1, e.2.2)]
               else if e.2.1 = v then [(v, e.1, e.2.2)] else []) ++ nbrsTriples E v) := by
        congr 1
        funext v
        exact nbrsTriples_cons e E v
      rw [hsplit, flatMap_append_ms]
      have htwo : (↑(nodes.flatMap (fun v =>
          if e.1 = v then [(v, e.2.1, e.2.2)]
          else if e.2.1 = v then [(v, e.1, e.2.2)] else [])) : Multiset (ℕ × ℕ × Weight))
          = {(e.1, e.2.1, e.2.2), (e.2.1, e.1, e.2.2)} := by
        apply flatMap_two_hits e.1 e.2.1 (e.1, e.2.1, e.2.2) (e.2.1, e.1, e.2.2) nodes _ ?_
          hnd hee.1 hee.2.1 hee.2.2
        intro v hv
        by_cases h1 : e.1 = v
        · rw [if_pos h1, if_pos h1, ← h1]
        · rw [if_neg h1, if_neg h1]
          by_cases h2 : e.2.1 = v
          · rw [if_pos h2, if_pos h2, ← h2]
          · rw [if_neg h2, if_neg h2]
      rw [htwo, ih hnd hErest]
      show ({(e.1, e.2.1, e.2.2), (e.2.1, e.1, e.2.2)} : Multiset (ℕ × ℕ × Weight))
          + (↑E + ↑(E.map (fun e => (e.2.1, e.1, e.2.2))))
        = ↑(e :: E) + ↑((e :: E).map (fun e => (e.2.1, e.1, e.2.2)))
      have h1 : (↑(e :: E) : Multiset (ℕ × ℕ × Weight)) = e ::ₘ ↑E := rfl
      have h2 : (↑((e :: E).map (fun e => (e.2.1, e.1, e.2.2))) : Multiset (ℕ × ℕ × Weight))
          = (e.2.1, e.1, e.2.2) ::ₘ ↑(E.map (fun e => (e.2.1, e.1, e.2.2))) := rfl
      rw [h1, h2]
      have h3 : ({(e.1, e.2.1, e.2.2), (e.2.1, e.1, e.2.2)} : Multiset (ℕ × ℕ × Weight))
          = {(e.1, e.2.1, e.2.2)} + {(e.2.1, e.1, e.2.2)} := rfl
      rw [h3]
      have h4 : (e.1, e.2.1, e.2.2) = e := rfl
      rw [h4]
      simp only [← Multiset.singleton_add]
      simp only [add_comm, add_left_comm, add_assoc]

instance (Gr : Graph) : Decidable Gr.WF := by
  unfold Graph.WF distinctPair
  infer_instance

theorem dupList_ms (T : Graph) (hWF : T.WF) :
    (↑(dupList T) : Multiset (ℕ × ℕ × Weight))
      = ↑T.edges + ↑(T.edges.map (fun e => (e.2.1, e.1, e.2.2))) := by
  unfold dupList
  have hcg : T.nodes.flatMap (fun v => (T.nbrs v).map (fun w => (v, w, T.wt v w)))
      = T.nodes.flatMap (nbrsTriples T.edges) := by
    congr 1
    funext v
    exact nbrs_map_eq_nbrsTriples T hWF.2.2 v
  rw [hcg]
  exact handshake T.nodes T.edges hWF.1 hWF.2.1

theorem wedgeMS_coe_map (L : List (ℕ × ℕ × Weight)) :
    wedgeMS L = Multiset.map (fun e : ℕ × ℕ × Weight => (nrm (e.1, e.2.1), e.2.2))
      (↑L : Multiset (ℕ × ℕ × Weight)) := rfl

theorem edgeMS_coe_map (L : List (ℕ × ℕ × Weight)) :
    edgeMS L = Multiset.map (fun e : ℕ × ℕ × Weight => nrm (e.1, e.2.1))
      (↑L : Multiset (ℕ × ℕ × Weight)) := rfl

theorem dup_wedgeMS (T : Graph) (hWF : T.WF) :
    wedgeMS (duplicate_weighted_graph T).edges = wedgeMS T.edges + wedgeMS T.edges := by
  rw [duplicate_edges, wedgeMS_coe_map, dupList_ms T hWF, Multiset.map_add]
  congr 1
  show Multiset.map (fun e : ℕ × ℕ × Weight => (nrm (e.1, e.2.1), e.2.2))
      (↑(T.edges.map (fun e => (e.2.1, e.1, e.2.2))) : Multiset (ℕ × ℕ × Weight))
    = wedgeMS T.edges
  rw [← Multiset.map_coe, Multiset.map_map, wedgeMS_coe_map]
  apply Multiset.map_congr rfl
  intro e _
  show (nrm (e.2.1, e.1), e.2.2) = (nrm (e.1, e.2.1), e.2.2)
  rw [nrm_comm]

theorem dup_edgeMS (T : Graph) (hWF : T.WF) :
    edgeMS (duplicate_weighted_graph T).edges = edgeMS T.edges + edgeMS T.edges := by
  rw [duplicate_edges, edgeMS_coe_map, dupList_ms T hWF, Multiset.map_add]
  congr 1
  show Multiset.map (fun e : ℕ × ℕ × Weight => nrm (e.1, e.2.1))
      (↑(T.edges.map (fun e => (e.2.1, e.1, e.2.2))) : Multiset (ℕ × ℕ × Weight))
    = edgeMS T.edges
  rw [← Multiset.map_coe, Multiset.map_map, edgeMS_coe_map]
  apply Multiset.map_congr rfl
  intro e _
  show nrm (e.2.1, e.1) = nrm (e.1, e.2.1)
  rw [nrm_comm]

theorem dup_degree (T : Graph) (hWF : T.WF) (v : ℕ) :
    (duplicate_weighted_graph T).degree v = 2 * T.degree v := by
  rw [degree_eq_msDeg, dup_edgeMS T hWF, msDeg_add,
    degree_eq_msDeg_simple T (fun e he => (hWF.2.1 e he).2.2) v]
  omega

theorem mem_nbrs_iff (T : Graph) (v w : ℕ) :
    w ∈ T.nbrs v ↔ ∃ e ∈ T.edges, (e.1 = v ∧ e.2.1 = w) ∨ (e.1 = w ∧ e.2.1 = v) := by
  unfold Graph.nbrs
  rw [List.mem_filterMap]
  constructor
  · rintro ⟨e, he, hfe⟩
    by_cases h1 : e.1 = v
    · rw [if_pos h1] at hfe
      exact ⟨e, he, Or.inl ⟨h1, Option.some.inj hfe⟩⟩
    · rw [if_neg h1] at hfe
      by_cases h2 : e.2.1 = v
      · rw [if_pos h2] at hfe
        exact ⟨e, he, Or.inr ⟨Option.some.inj hfe, h2⟩⟩
      · rw [if_neg h2] at hfe
        exact absurd hfe (by simp)
  · rintro ⟨e, he, ⟨h1, h2⟩ | ⟨h1, h2⟩⟩
    · exact ⟨e, he, by rw [if_pos h1, h2]⟩
    · refine ⟨e, he, ?_⟩
      by_cases hx : e.1 = v
      · rw [if_pos hx]
        rw [hx] at h1
        rw [h2, ← h1]
      · rw [if_neg hx, if_pos h2, h1]

theorem exists_mem_of_one_le_length {α : Type} (l : List α) (h : 1 ≤ l.length) :
    ∃ x, x ∈ l := by
  cases l with
  | nil => simp at h
  | cons a L => exact ⟨a, List.mem_cons_self a L⟩

theorem dup_nodes_iff (T : Graph) (hWF : T.WF) (x : ℕ) :
    x ∈ (duplicate_weighted_graph T).nodes ↔ x ∈ T.nodes ∧ 1 ≤ T.degree x := by
  rw [duplicate_nodes_mem]
  constructor
  · rintro ⟨t, ht, hx⟩
    unfold dupList at ht
    rw [List.mem_flatMap] at ht
    obtain ⟨v, hv, htv⟩ := ht
    rw [List.mem_map] at htv
    obtain ⟨w, hw, heq⟩ := htv
    have ht1 : t.1 = v := by rw [← heq]
    have ht2 : t.2.1 = w := by rw [← heq]
    rcases hx with rfl | rfl
    · rw [ht1]
      refine ⟨hv, ?_⟩
      unfold Graph.degree
      cases hmem : T.nbrs v with
      | nil => rw [hmem] at hw; exact absurd hw (by simp)
      | cons a L => simp
    · rw [ht2]
      obtain ⟨e, he, hcase⟩ := (mem_nbrs_iff T v w).mp hw
      have hxnode : w ∈ T.nodes := by
        rcases hcase with ⟨_, h2⟩ | ⟨h1, _⟩
        · rw [← h2]; exact (hWF.2.1 e he).2.1
        · rw [← h1]; exact (hWF.2.1 e he).1
      refine ⟨hxnode, ?_⟩
      have hvback : v ∈ T.nbrs w := by
        rw [mem_nbrs_iff]
        refine ⟨e, he, ?_⟩
        rcases hcase with ⟨h1, h2⟩ | ⟨h1, h2⟩
        · exact Or.inr ⟨h1, h2⟩
        · exact Or.inl ⟨h1, h2⟩
      unfold Graph.degree
      cases hmem : T.nbrs w with
      | nil => rw [hmem] at hvback; exact absurd hvback (by simp)
      | cons a L => simp
  · rintro ⟨hx, hd⟩
    obtain ⟨w, hw⟩ := exists_mem_of_one_le_length (T.nbrs x) hd
    refine ⟨(x, w, T.wt x w), ?_, Or.inl rfl⟩
    unfold dupList
    rw [List.mem_flatMap]
    exact ⟨x, hx, List.mem_map.mpr ⟨w, hw, rfl⟩⟩

theorem dup_WF (T : Graph) : (duplicate_weighted_graph T).WF := by
  constructor
  · exact duplicate_nodes_nodup T
  · intro e he
    rw [duplicate_edges] at he
    constructor
    · rw [duplicate_nodes_mem]
      exact ⟨e, he, Or.inl rfl⟩
    · rw [duplicate_nodes_mem]
      exact ⟨e, he, Or.inr rfl⟩

theorem adjRel_double (A : Multiset (ℕ × ℕ)) (x y : ℕ) :
    adjRel (A + A) x y ↔ adjRel A x y := by
  unfold adjRel
  simp [Multiset.mem_add]

theorem ReachMS_double (A : Multiset (ℕ × ℕ)) (u v : ℕ) (h : ReachMS A u v) :
    ReachMS (A + A) u v := by
  induction h with
  | refl => exact Relation.ReflTransGen.refl
  | tail _ hadj ih =>
      exact Relation.ReflTransGen.tail ih ((adjRel_double A _ _).mpr hadj)

/-- In a connected graph with at least one edge, every node has an
incident edge. -/
theorem conn_pos_degree (T : Graph) (hWF : T.WF) (hconn : T.ConnG)
    (hE : T.edges ≠ []) : ∀ v ∈ T.nodes, 1 ≤ T.degree v := by
  intro v hv
  obtain ⟨e0, he0⟩ := List.exists_mem_of_ne_nil T.edges hE
  have he0n := hWF.2.1 e0 he0
  have hr := hconn.2 v hv e0.1 he0n.1
  have hdegpos : 1 ≤ msDeg (edgeMS T.edges) v := by
    rcases Relation.ReflTransGen.cases_head hr with heq | ⟨mid, hadj, _⟩
    · have hmem : nrm (e0.1, e0.2.1) ∈ edgeMS T.edges := by
        unfold edgeMS
        rw [Multiset.mem_coe, List.mem_map]
        exact ⟨e0, he0, rfl⟩
      apply msDeg_pos_of_mem _ _ _ hmem
      show min e0.1 e0.2.1 = v ∨ max e0.1 e0.2.1 = v
      rcases min_mem_pair e0.1 e0.2.1 with hm | hm
      · left; rw [hm, ← heq]
      · rcases max_mem_pair e0.1 e0.2.1 with hx | hx
        · right; rw [hx, ← heq]
        · left
          rw [hm]
          have : e0.1 = e0.2.1 := by
            have h1 : min e0.1 e0.2.1 = e0.2.1 := hm
            have h2 : max e0.1 e0.2.1 = e0.2.1 := hx
            rcases Nat.le_total e0.1 e0.2.1 with h | h
            · have := Nat.min_eq_left h
              rw [this] at h1
              exact h1
            · have := Nat.max_eq_left h
              rw [this] at h2
              exact h2
          exact absurd this he0n.2.2
    · rcases hadj with hq | hq
      · exact msDeg_pos_of_mem _ _ _ hq (Or.inl rfl)
      · exact msDeg_pos_of_mem _ _ _ hq (Or.inr rfl)
  rw [degree_eq_msDeg_simple T (fun e he => (hWF.2.1 e he).2.2) v]
  exact hdegpos

theorem dup_connected (T : Graph) (hWF : T.WF) (hconn : T.ConnG) (hE : T.edges ≠ []) :
    (duplicate_weighted_graph T).ConnectedAbs := by
  have hdeg := conn_pos_degree T hWF hconn hE
  constructor
  · have hne := hconn.1
    obtain ⟨h0, hh0⟩ := List.exists_mem_of_ne_nil T.nodes hne
    have : h0 ∈ (duplicate_weighted_graph T).nodes :=
      (dup_nodes_iff T hWF h0).mpr ⟨hh0, hdeg h0 hh0⟩
    exact List.ne_nil_of_mem this
  · intro u hu v hv
    have hu2 := (dup_nodes_iff T hWF u).mp hu
    have hv2 := (dup_nodes_iff T hWF v).mp hv
    have hr := hconn.2 u hu2.1 v hv2.1
    rw [dup_edgeMS T hWF]
    exact ReachMS_double _ u v hr

/-- C5 (with the connectivity clause amended to trees owning at least one
edge).  The double-tree constructor duplicates every tree edge into two
parallel copies of identical weight (edge multiset exactly doubled),
doubles every vertex degree (hence all degrees even), and preserves
connectivity whenever the tree has an edge. -/
theorem claim_C5 (T : Graph) (hWF : T.WF) :
    wedgeMS (duplicate_weighted_graph T).edges = wedgeMS T.edges + wedgeMS T.edges ∧
    (∀ v, (duplicate_weighted_graph T).degree v = 2 * T.degree v) ∧
    (∀ v, (duplicate_weighted_graph T).degree v % 2 = 0) ∧
    (T.ConnG → T.edges ≠ [] → (duplicate_weighted_graph T).ConnectedAbs) := by
  refine ⟨dup_wedgeMS T hWF, fun v => dup_degree T hWF v, ?_, ?_⟩
  · intro v
    rw [dup_degree T hWF v]
    omega
  · exact dup_connected T hWF

/-- C5 counterexample to the unconditional connectivity clause: the
one-vertex tree (the spanning tree of a 1×1 matrix) is connected, but its
double is the null multigraph, on which the pipeline's connectivity check
fails (networkx raises `NetworkXPointlessConcept`). -/
theorem claim_C5_counterexample :
    (Graph.mk [0] []).ConnG ∧ (Graph.mk [0] []).WF ∧
    ¬ (duplicate_weighted_graph (Graph.mk [0] [])).ConnectedAbs := by
  refine ⟨⟨by simp, ?_⟩, ⟨by simp, by simp, by simp⟩, ?_⟩
  · intro u hu v hv
    have hu2 : u = 0 := by simpa using hu
    have hv2 : v = 0 := by simpa using hv
    rw [hu2, hv2]
    exact Relation.ReflTransGen.refl
  · intro h
    exact h.1 rfl

/-- Witness for C5 at a concrete one-edge tree. -/
theorem claim_C5_witness :
    (Graph.mk [0, 1] [(0, 1, 5)]).WF ∧
    wedgeMS (duplicate_weighted_graph (Graph.mk [0, 1] [(0, 1, 5)])).edges
      = wedgeMS [(0, 1, 5)] + wedgeMS [(0, 1, 5)] ∧
    (duplicate_weighted_graph (Graph.mk [0, 1] [(0, 1, 5)])).degree 0
      = 2 * (Graph.mk [0, 1] [(0, 1, 5)]).degree 0 := by
  refine ⟨?hwf, ?_, ?_⟩
  · case hwf => decide
  · exact (claim_C5 (Graph.mk [0, 1] [(0, 1, 5)]) (by decide)).1
  · exact (claim_C5 (Graph.mk [0, 1] [(0, 1, 5)]) (by decide)).2.1 0

/-! ## The complete weighted graph built from the cost matrix -/

theorem Graph.addNode_edges_pres (G : Graph) (v : ℕ) : (G.addNode v).edges = G.edges := by
  unfold Graph.addNode
  split <;> rfl

theorem Graph.addNode_nodes_mem (G : Graph) (v x : ℕ) :
    x ∈ (G.addNode v).nodes ↔ x ∈ G.nodes ∨ x = v := by
  unfold Graph.addNode
  split
  · rename_i h
    constructor
    · exact fun hx => Or.inl hx
    · rintro (hx | rfl)
      · exact hx
      · exact h
  · show x ∈ G.nodes ++ [v] ↔ _
    simp

theorem Graph.addNode_nodes_nodup (G : Graph) (v : ℕ) (h : G.nodes.Nodup) :
    (G.addNode v).nodes.Nodup := by
  unfold Graph.addNode
  split
  · exact h
  · rename_i hv
    show (G.nodes ++ [v]).Nodup
    simp [List.nodup_append, h, hv]

theorem Graph.addNode_of_mem (G : Graph) (v : ℕ) (h : v ∈ G.nodes) : G.addNode v = G := by
  unfold Graph.addNode
  rw [if_pos h]

theorem Graph.addEdge_nodes_eq (G : Graph) (u v : ℕ) (w : Weight) :
    (G.addEdge u v w).nodes = ((G.addNode u).addNode v).nodes := by
  unfold Graph.addEdge
  dsimp only
  split <;> rfl

theorem Graph.addEdge_nodes_mem (G : Graph) (u v : ℕ) (w : Weight) (x : ℕ) :
    x ∈ (G.addEdge u v w).nodes ↔ x ∈ G.nodes ∨ x = u ∨ x = v := by
  rw [Graph.addEdge_nodes_eq, Graph.addNode_nodes_mem, Graph.addNode_nodes_mem]
  tauto

theorem Graph.addEdge_nodes_nodup (G : Graph) (u v : ℕ) (w : Weight) (h : G.nodes.Nodup) :
    (G.addEdge u v w).nodes.Nodup := by
  rw [Graph.addEdge_nodes_eq]
  exact Graph.addNode_nodes_nodup _ v (Graph.addNode_nodes_nodup _ u h)

theorem Graph.addEdge_nodes_of_mem (G : Graph) (u v : ℕ) (w : Weight)
    (hu : u ∈ G.nodes) (hv : v ∈ G.nodes) : (G.addEdge u v w).nodes = G.nodes := by
  rw [Graph.addEdge_nodes_eq, Graph.addNode_of_mem G u hu,
    Graph.addNode_of_mem G v hv]

/-- When the unordered pair `{u, v}` is not yet stored, `add_edge` appends
the new edge. -/
theorem Graph.addEdge_fresh (G : Graph) (u v : ℕ) (w : Weight)
    (h : ∀ e ∈ G.edges, sameEdge u v e = false) :
    (G.addEdge u v w).edges = G.edges ++ [(u, v, w)] := by
  unfold Graph.addEdge
  dsimp only
  split
  · rename_i hc
    rw [Graph.addNode_edges_pres, Graph.addNode_edges_pres] at hc
    exfalso
    rw [List.any_eq_true] at hc
    obtain ⟨e, he, hse⟩ := hc
    rw [h e he] at hse
    exact absurd hse (by simp)
  · rw [Graph.addNode_edges_pres, Graph.addNode_edges_pres]

/-- The pair insertion order of `_create_weighted_graph`: row by row, row
`i` contributing `(i, i+1), …, (i, rowlen-1)`. -/
def pairList (M : Mat) : List (ℕ × ℕ) :=
  (List.range M.length).flatMap (fun i =>
    (List.range' (i + 1) ((M.getD i []).length - (i + 1))).map (fun j => (i, j)))

theorem row_foldl_eq (M : Mat) :
    ∀ (L : List ℕ) (G : Graph),
      L.foldl (fun G2 i =>
        (List.range' (i + 1) ((M.getD i []).length - (i + 1))).foldl
          (fun G3 j => G3.addEdge i j (wt M i j)) G2) G
      = (L.flatMap (fun i =>
          (List.range' (i + 1) ((M.getD i []).length - (i + 1))).map (fun j => (i, j)))).foldl
          (fun G2 p => G2.addEdge p.1 p.2 (wt M p.1 p.2)) G := by
  intro L
  induction L with
  | nil => intro G; rfl
  | cons i L ih =>
      intro G
      simp only [List.foldl_cons, List.flatMap_cons, List.foldl_append, List.foldl_map]
      rw [ih]

theorem cwg_eq_pairFold (M : Mat) :
    create_weighted_graph M =
      (pairList M).foldl (fun G p => G.addEdge p.1 p.2 (wt M p.1 p.2)) Graph.empty := by
  unfold create_weighted_graph pairList
  exact row_foldl_eq M (List.range M.length) Graph.empty

theorem row_len (M : Mat) (N : ℕ) (hsq : SquareSym M N) (i : ℕ) (hi : i < N) :
    (M.getD i []).length = N := by
  have hlen : M.length = N := hsq.1
  have hmem : M.getD i [] ∈ M := by
    rw [List.getD_eq_getElem M [] (by omega)]
    exact List.getElem_mem _
  exact hsq.2.1 _ hmem

theorem mem_pairList_lt (M : Mat) (p : ℕ × ℕ) (hp : p ∈ pairList M) : p.1 < p.2 := by
  unfold pairList at hp
  rw [List.mem_flatMap] at hp
  obtain ⟨i, _, hp⟩ := hp
  rw [List.mem_map] at hp
  obtain ⟨j, hj, rfl⟩ := hp
  rw [List.mem_range'_1] at hj
  show i < j
  omega

theorem mem_pairList (M : Mat) (N : ℕ) (hsq : SquareSym M N) (p : ℕ × ℕ) :
    p ∈ pairList M ↔ p.1 < p.2 ∧ p.2 < N := by
  constructor
  · intro hp
    refine ⟨mem_pairList_lt M p hp, ?_⟩
    unfold pairList at hp
    rw [List.mem_flatMap] at hp
    obtain ⟨i, hi, hp⟩ := hp
    rw [List.mem_map] at hp
    obtain ⟨j, hj, rfl⟩ := hp
    rw [List.mem_range, hsq.1] at hi
    rw [List.mem_range'_1, row_len M N hsq i hi] at hj
    show j < N
    omega
  · rintro ⟨h1, h2⟩
    unfold pairList
    rw [List.mem_flatMap]
    have hp1 : p.1 < N := by omega
    refine ⟨p.1, ?_, ?_⟩
    · rw [List.mem_range, hsq.1]
      omega
    · rw [List.mem_map]
      refine ⟨p.2, ?_, Prod.mk.eta⟩
      rw [List.mem_range'_1, row_len M N hsq p.1 hp1]
      omega

theorem pairList_nodup (M : Mat) : (pairList M).Nodup := by
  show List.Pairwise (fun p q : ℕ × ℕ => p ≠ q) (pairList M)
  unfold pairList
  rw [List.pairwise_flatMap]
  constructor
  · intro i _
    rw [List.pairwise_map]
    refine (List.pairwise_lt_range' (i + 1) _).imp ?_
    intro a b hab hc
    rw [Prod.mk.injEq] at hc
    omega
  · refine (List.pairwise_lt_range M.length).imp ?_
    intro a b hab
    intro x hx y hy
    rw [List.mem_map] at hx hy
    obtain ⟨jx, _, rfl⟩ := hx
    obtain ⟨jy, _, rfl⟩ := hy
    intro hc
    rw [Prod.mk.injEq] at hc
    omega

/-- Unordered distinctness of the stored pairs. -/
def offPair (p q : ℕ × ℕ) : Prop :=
  ¬ ((p.1 = q.1 ∧ p.2 = q.2) ∨ (p.1 = q.2 ∧ p.2 = q.1))

theorem pairList_offPair (M : Mat) : List.Pairwise offPair (pairList M) := by
  have hnd : List.Pairwise (fun p q : ℕ × ℕ => p ≠ q) (pairList M) := pairList_nodup M
  refine hnd.imp_of_mem ?_
  intro p q hp hq hne
  have h1 := mem_pairList_lt M p hp
  have h2 := mem_pairList_lt M q hq
  intro hc
  rcases hc with ⟨ha, hb⟩ | ⟨ha, hb⟩
  · exact hne (Prod.ext ha hb)
  · omega

/-- Folding `addEdge` over fresh pairwise-distinct pairs appends exactly
one stored edge per pair. -/
theorem pairFold_edges (W : ℕ × ℕ → Weight) :
    ∀ (P : List (ℕ × ℕ)) (G : Graph),
      List.Pairwise offPair P →
      (∀ p ∈ P, ∀ e ∈ G.edges, sameEdge p.1 p.2 e = false) →
      (P.foldl (fun G2 p => G2.addEdge p.1 p.2 (W p)) G).edges
        = G.edges ++ P.map (fun p => (p.1, p.2, W p)) := by
  intro P
  induction P with
  | nil => intro G _ _; simp
  | cons p P ih =>
      intro G hpw hfresh
      have hfr : ∀ e ∈ G.edges, sameEdge p.1 p.2 e = false :=
        hfresh p (List.mem_cons_self p P)
      have hstep := Graph.addEdge_fresh G p.1 p.2 (W p) hfr
      have hfresh2 : ∀ q ∈ P, ∀ e ∈ (G.addEdge p.1 p.2 (W p)).edges,
          sameEdge q.1 q.2 e = false := by
        intro q hq e he
        rw [hstep, List.mem_append] at he
        rcases he with he | he
        · exact hfresh q (List.mem_cons_of_mem p hq) e he
        · rw [List.mem_singleton] at he
          subst he
          have hd := (List.pairwise_cons.mp hpw).1 q hq
          unfold offPair at hd
          refine sameEdge_of_distinctPair q.1 q.2 (p.1, p.2, W p) (q.1, q.2, 0) ?_ ⟨rfl, rfl⟩
          intro hc
          apply hd
          rcases hc with ⟨ha, hb⟩ | ⟨ha, hb⟩
          · exact Or.inl ⟨ha.symm, hb.symm⟩
          · exact Or.inr ⟨hb.symm, ha.symm⟩
      simp only [List.foldl_cons, List.map_cons]
      rw [ih (G.addEdge p.1 p.2 (W p)) (List.pairwise_cons.mp hpw).2 hfresh2, hstep]
      simp

theorem pairFold_nodes_fixed (W : ℕ × ℕ → Weight) :
    ∀ (P : List (ℕ × ℕ)) (G : Graph),
      (∀ p ∈ P, p.1 ∈ G.nodes ∧ p.2 ∈ G.nodes) →
      (P.foldl (fun G2 p => G2.addEdge p.1 p.2 (W p)) G).nodes = G.nodes := by
  intro P
  induction P with
  | nil => intro G _; rfl
  | cons p P ih =>
      intro G hmem
      have hp := hmem p (List.mem_cons_self p P)
      have hn : (G.addEdge p.1 p.2 (W p)).nodes = G.nodes :=
        Graph.addEdge_nodes_of_mem G p.1 p.2 (W p) hp.1 hp.2
      simp only [List.foldl_cons]
      rw [ih (G.addEdge p.1 p.2 (W p)) (fun q hq => by
        rw [hn]
        exact hmem q (List.mem_cons_of_mem p hq))]
      exact hn

theorem chain_nodes (W : ℕ × ℕ → Weight) (a : ℕ) :
    ∀ (L : List ℕ) (G : Graph), a ∈ G.nodes → L.Nodup → (∀ j ∈ L, j ∉ G.nodes) →
      ((L.map (fun j => (a, j))).foldl (fun G2 p => G2.addEdge p.1 p.2 (W p)) G).nodes
        = G.nodes ++ L := by
  intro L
  induction L with
  | nil => intro G _ _ _; simp
  | cons j L ih =>
      intro G ha hnd hnew
      have hj : j ∉ G.nodes := hnew j (List.mem_cons_self j L)
      have hnodes : (G.addEdge a j (W (a, j))).nodes = G.nodes ++ [j] := by
        rw [Graph.addEdge_nodes_eq, Graph.addNode_of_mem G a ha]
        unfold Graph.addNode
        rw [if_neg hj]
      simp only [List.map_cons, List.foldl_cons]
      rw [ih (G.addEdge a j (W (a, j))) ?hmem ?hnodup ?hfresh]
      · rw [hnodes, List.append_assoc]
        rfl
      case hmem =>
        rw [hnodes, List.mem_append]
        exact Or.inl ha
      case hnodup => exact (List.nodup_cons.mp hnd).2
      case hfresh =>
        intro x hx
        rw [hnodes, List.mem_append, List.mem_singleton]
        rintro (hc | rfl)
        · exact hnew x (List.mem_cons_of_mem j hx) hc
        · exact (List.nodup_cons.mp hnd).1 hx

theorem cwg_edges (M : Mat) :
    (create_weighted_graph M).edges
      = (pairList M).map (fun p => (p.1, p.2, wt M p.1 p.2)) := by
  rw [cwg_eq_pairFold]
  rw [pairFold_edges (fun p => wt M p.1 p.2) (pairList M) Graph.empty
    (pairList_offPair M) (fun p _ e he => absurd he (by simp [Graph.empty]))]
  rfl

theorem cwg_mem_edges (M : Mat) (N : ℕ) (hsq : SquareSym M N) (i j : ℕ) (w : Weight) :
    (i, j, w) ∈ (create_weighted_graph M).edges ↔ i < j ∧ j < N ∧ w = wt M i j := by
  rw [cwg_edges, List.mem_map]
  constructor
  · rintro ⟨p, hp, heq⟩
    rw [Prod.mk.injEq, Prod.mk.injEq] at heq
    obtain ⟨h1, h2, h3⟩ := heq
    rw [mem_pairList M N hsq] at hp
    subst h1
    subst h2
    exact ⟨hp.1, hp.2, h3.symm⟩
  · rintro ⟨h1, h2, rfl⟩
    refine ⟨(i, j), ?_, rfl⟩
    rw [mem_pairList M N hsq]
    exact ⟨h1, h2⟩

theorem cwg_nodes (M : Mat) (N : ℕ) (hsq : SquareSym M N) (hN : 2 ≤ N) :
    (create_weighted_graph M).nodes = List.range N := by
  rw [cwg_eq_pairFold]
  have hsplit : pairList M =
      ((1 :: List.range' 2 (N - 2)).map (fun j => (0, j))) ++
      ((List.range' 1 (M.length - 1)).flatMap (fun i =>
          (List.range' (i + 1) ((M.getD i []).length - (i + 1))).map (fun j => (i, j)))) := by
    unfold pairList
    have hlen : M.length = (M.length - 1) + 1 := by
      rw [hsq.1]; omega
    have h1 : List.range M.length = 0 :: List.range' 1 (M.length - 1) := by
      rw [List.range_eq_range']
      conv_lhs => rw [hlen, List.range'_succ]
    rw [h1, List.flatMap_cons]
    have hrow0 : (M.getD 0 []).length - 1 = N - 1 := by
      rw [row_len M N hsq 0 (by omega)]
    have h2 : List.range' 1 ((M.getD 0 []).length - (0 + 1)) = 1 :: List.range' 2 (N - 2) := by
      show List.range' 1 ((M.getD 0 []).length - 1) = _
      rw [hrow0]
      have : N - 1 = (N - 2) + 1 := by omega
      rw [this, List.range'_succ]
    rw [h2]
  rw [hsplit, List.foldl_append, List.map_cons, List.foldl_cons]
  have hfirst : (Graph.empty.addEdge 0 1 (wt M 0 1)).nodes = [0, 1] := by rfl
  have hchain := chain_nodes (fun p => wt M p.1 p.2) 0 (List.range' 2 (N - 2))
    (Graph.empty.addEdge 0 1 (wt M 0 1)) (by rw [hfirst]; simp)
    (List.nodup_range' 2 (N - 2)) ?fresh
  case fresh =>
    intro j hj
    rw [List.mem_range'_1] at hj
    rw [hfirst]
    intro hc
    have hj01 : j = 0 ∨ j = 1 := by simpa using hc
    omega
  rw [pairFold_nodes_fixed (fun p => wt M p.1 p.2) _ _ ?inrange]
  · rw [hchain, hfirst]
    show 0 :: 1 :: List.range' 2 (N - 2) = List.range N
    rw [List.range_eq_range']
    have h3 : N = (N - 2) + 1 + 1 := by omega
    conv_rhs => rw [h3, List.range'_succ, List.range'_succ]
  case inrange =>
    intro p hp
    have hmem : p ∈ pairList M := by
      rw [hsplit, List.mem_append]
      exact Or.inr hp
    rw [mem_pairList M N hsq] at hmem
    have hn := hchain
    rw [hn, hfirst]
    constructor
    · show p.1 ∈ [0, 1] ++ List.range' 2 (N - 2)
      rw [List.mem_append, List.mem_range'_1]
      by_cases h : p.1 < 2
      · left
        have h01 : p.1 = 0 ∨ p.1 = 1 := by omega
        rcases h01 with h01 | h01 <;> simp [h01]
      · right
        omega
    · show p.2 ∈ [0, 1] ++ List.range' 2 (N - 2)
      rw [List.mem_append, List.mem_range'_1]
      by_cases h : p.2 < 2
      · left
        have h01 : p.2 = 0 ∨ p.2 = 1 := by omega
        rcases h01 with h01 | h01 <;> simp [h01]
      · right
        omega

theorem cwg_WF (M : Mat) (N : ℕ) (hsq : SquareSym M N) (hN : 2 ≤ N) :
    (create_weighted_graph M).WF := by
  refine ⟨?_, ?_, ?_⟩
  · rw [cwg_nodes M N hsq hN]
    exact List.nodup_range N
  · intro e he
    obtain ⟨i, j, w⟩ := e
    rw [cwg_mem_edges M N hsq i j w] at he
    rw [cwg_nodes M N hsq hN]
    refine ⟨?_, ?_, ?_⟩
    · rw [List.mem_range]
      show i < N
      omega
    · rw [List.mem_range]
      show j < N
      omega
    · show i ≠ j
      omega
  · rw [cwg_edges]
    rw [List.pairwise_map]
    refine (pairList_offPair M).imp ?_
    intro p q hpq
    exact hpq

theorem cwg_wt (M : Mat) (N : ℕ) (hsq : SquareSym M N) (hN : 2 ≤ N) (i j : ℕ)
    (hi : i < N) (hj : j < N) (hij : i ≠ j) :
    (create_weighted_graph M).wt i j = wt M i j := by
  have hpw := (cwg_WF M N hsq hN).2.2
  rcases Nat.lt_or_ge i j with h | h
  · have hmem : (i, j, wt M i j) ∈ (create_weighted_graph M).edges := by
      rw [cwg_mem_edges M N hsq]
      exact ⟨h, hj, rfl⟩
    exact (wt_of_mem (create_weighted_graph M) hpw (i, j, wt M i j) hmem).1
  · have hji : j < i := by omega
    have hmem : (j, i, wt M j i) ∈ (create_weighted_graph M).edges := by
      rw [cwg_mem_edges M N hsq]
      exact ⟨hji, hi, rfl⟩
    have h2 := (wt_of_mem (create_weighted_graph M) hpw (j, i, wt M j i) hmem).2
    rw [h2]
    exact hsq.2.2.2.2 j hj i hi

theorem cwg_nbrs_mem (M : Mat) (N : ℕ) (hsq : SquareSym M N) (x y : ℕ)
    (hx : x < N) (hy : y < N) (hxy : y ≠ x) :
    y ∈ (create_weighted_graph M).nbrs x := by
  rw [mem_nbrs_iff]
  rcases Nat.lt_or_ge x y with h | h
  · refine ⟨(x, y, wt M x y), ?_, Or.inl ⟨rfl, rfl⟩⟩
    rw [cwg_mem_edges M N hsq]
    exact ⟨h, hy, rfl⟩
  · have hyx : y < x := by omega
    refine ⟨(y, x, wt M y x), ?_, Or.inr ⟨rfl, rfl⟩⟩
    rw [cwg_mem_edges M N hsq]
    exact ⟨hyx, hx, rfl⟩

theorem cwg_nbrs_bound (M : Mat) (N : ℕ) (hsq : SquareSym M N) (x y : ℕ)
    (hmem : y ∈ (create_weighted_graph M).nbrs x) : y < N ∧ x < N ∧ y ≠ x := by
  rw [mem_nbrs_iff] at hmem
  obtain ⟨e, he, hc⟩ := hmem
  obtain ⟨i, j, w⟩ := e
  rw [cwg_mem_edges M N hsq] at he
  rcases hc with ⟨h1, h2⟩ | ⟨h1, h2⟩
  · have hi : i = x := h1
    have hj : j = y := h2
    omega
  · have hi : i = y := h1
    have hj : j = x := h2
    omega

/-! ## The handshake bound used for the Prim fuel argument -/

theorem sum_map_two (L : List ℕ) (f g : ℕ → ℕ) :
    (L.map (fun v => f v + g v)).sum = (L.map f).sum + (L.map g).sum := by
  induction L with
  | nil => rfl
  | cons a L ih =>
      simp only [List.map_cons, List.sum_cons, ih]
      omega

theorem sum_ind_count (a : ℕ) (L : List ℕ) :
    (L.map (fun v => if a = v then 1 else 0)).sum = L.count a := by
  induction L with
  | nil => rfl
  | cons b L ih =>
      simp only [List.map_cons, List.sum_cons, ih, List.count_cons]
      by_cases h : a = b
      · rw [if_pos h]
        simp [h]
        omega
      · rw [if_neg h]
        have hb : ¬ (b == a) = true := by
          simp
          exact fun hc => h hc.symm
        simp [hb]

theorem pair_two (p : ℕ × ℕ) (L : List ℕ) (hnd : L.Nodup) (h1 : p.1 ∈ L) (h2 : p.2 ∈ L)
    (hne : p.1 ≠ p.2) : (L.map (fun v => pairDeg p v)).sum = 2 := by
  unfold pairDeg
  rw [sum_map_two, sum_ind_count, sum_ind_count,
    List.count_eq_one_of_mem hnd h1, List.count_eq_one_of_mem hnd h2]

theorem sum_msDeg_swap (S : Multiset (ℕ × ℕ)) :
    ∀ L : List ℕ, (L.map (fun v => msDeg S v)).sum
      = (S.map (fun p => (L.map (fun v => pairDeg p v)).sum)).sum := by
  intro L
  induction L with
  | nil =>
      show (0 : ℕ) = (S.map (fun _ => (0 : ℕ))).sum
      rw [Multiset.map_const', Multiset.sum_replicate]
      simp
  | cons a L ih =>
      simp only [List.map_cons, List.sum_cons, ih]
      show msDeg S a + _ = _
      unfold msDeg
      rw [← Multiset.sum_map_add]

theorem handshake_simple (G : Graph) (hWF : G.WF) :
    (G.nodes.map (fun v => G.degree v)).sum = 2 * G.edges.length := by
  have hT : ∀ e ∈ G.edges, e.1 ≠ e.2.1 := fun e he => (hWF.2.1 e he).2.2
  have hdeg : ∀ v, G.degree v = msDeg (edgeMS G.edges) v :=
    fun v => degree_eq_msDeg_simple G hT v
  have h1 : G.nodes.map (fun v => G.degree v)
      = G.nodes.map (fun v => msDeg (edgeMS G.edges) v) := by
    exact List.map_congr_left (fun v _ => hdeg v)
  rw [h1, sum_msDeg_swap]
  have h2 : (edgeMS G.edges).map
        (fun p => (G.nodes.map (fun v => pairDeg p v)).sum)
      = (edgeMS G.edges).map (fun _ => 2) := by
    refine Multiset.map_congr rfl ?_
    intro p hp
    unfold edgeMS at hp
    rw [Multiset.mem_coe, List.mem_map] at hp
    obtain ⟨e, he, rfl⟩ := hp
    have hends := hWF.2.1 e he
    refine pair_two _ G.nodes hWF.1 ?_ ?_ ?_
    · show min e.1 e.2.1 ∈ G.nodes
      rcases min_mem_pair e.1 e.2.1 with h | h <;> rw [h]
      · exact hends.1
      · exact hends.2.1
    · show max e.1 e.2.1 ∈ G.nodes
      rcases max_mem_pair e.1 e.2.1 with h | h <;> rw [h]
      · exact hends.1
      · exact hends.2.1
    · show min e.1 e.2.1 ≠ max e.1 e.2.1
      have := hends.2.2
      rcases Nat.lt_or_ge e.1 e.2.1 with h | h
      · rw [Nat.min_eq_left (by omega), Nat.max_eq_right (by omega)]
        omega
      · have hlt : e.2.1 < e.1 := by omega
        rw [Nat.min_eq_right (by omega), Nat.max_eq_left (by omega)]
        omega
  rw [h2, Multiset.map_const', Multiset.sum_replicate]
  have hcard : Multiset.card (edgeMS G.edges) = G.edges.length := by
    unfold edgeMS
    rw [Multiset.coe_card, List.length_map]
  rw [hcard]
  rw [smul_eq_mul]
  omega

/-! ## Prim's algorithm: heap and frontier lemmas -/

theorem heapMin_cases (x y : Weight × ℕ × ℕ × ℕ) :
    heapMin x y = x ∨ heapMin x y = y := by
  unfold heapMin
  split
  · exact Or.inr rfl
  · exact Or.inl rfl

theorem heapMin_le (x y : Weight × ℕ × ℕ × ℕ) :
    (heapMin x y).1 ≤ x.1 ∧ (heapMin x y).1 ≤ y.1 := by
  unfold heapMin
  split
  · rename_i h
    rcases h with h | h
    · exact ⟨le_of_lt h, le_refl _⟩
    · exact ⟨le_of_eq h.1, le_refl _⟩
  · rename_i h
    push_neg at h
    exact ⟨le_refl _, h.1⟩

theorem foldl_heapMin_mem (L : List (Weight × ℕ × ℕ × ℕ)) :
    ∀ x, L.foldl heapMin x ∈ x :: L := by
  induction L with
  | nil => intro x; exact List.mem_singleton.mpr rfl
  | cons y L ih =>
      intro x
      rw [List.foldl_cons]
      rcases heapMin_cases x y with hc | hc <;> rw [hc]
      · rcases List.mem_cons.mp (ih x) with h2 | h2
        · rw [h2]
          exact List.mem_cons_self _ _
        · exact List.mem_cons_of_mem _ (List.mem_cons_of_mem _ h2)
      · rcases List.mem_cons.mp (ih y) with h2 | h2
        · rw [h2]
          exact List.mem_cons_of_mem _ (List.mem_cons_self _ _)
        · exact List.mem_cons_of_mem _ (List.mem_cons_of_mem _ h2)

theorem foldl_heapMin_le (L : List (Weight × ℕ × ℕ × ℕ)) :
    ∀ x, (L.foldl heapMin x).1 ≤ x.1 ∧ ∀ e ∈ L, (L.foldl heapMin x).1 ≤ e.1 := by
  induction L with
  | nil =>
      intro x
      exact ⟨le_refl _, fun e he => absurd he (by simp)⟩
  | cons y L ih =>
      intro x
      rw [List.foldl_cons]
      have h := ih (heapMin x y)
      have hm := heapMin_le x y
      refine ⟨le_trans h.1 hm.1, ?_⟩
      intro e he
      rcases List.mem_cons.mp he with rfl | h2
      · exact le_trans h.1 hm.2
      · exact h.2 e h2

theorem popMin_none (f : List (Weight × ℕ × ℕ × ℕ)) : popMin f = none ↔ f = [] := by
  cases f with
  | nil => simp [popMin]
  | cons x rest => simp [popMin]

theorem popMin_spec (f : List (Weight × ℕ × ℕ × ℕ)) (e : Weight × ℕ × ℕ × ℕ)
    (rest : List (Weight × ℕ × ℕ × ℕ)) (h : popMin f = some (e, rest)) :
    e ∈ f ∧ rest = f.erase e ∧ rest.length + 1 = f.length ∧ ∀ g ∈ f, e.1 ≤ g.1 := by
  cases f with
  | nil => exact absurd h (by simp [popMin])
  | cons x f2 =>
      unfold popMin at h
      rw [Option.some.injEq, Prod.mk.injEq] at h
      obtain ⟨he, hrest⟩ := h
      rw [he] at hrest
      have hmem : e ∈ x :: f2 := by
        rw [← he]
        exact foldl_heapMin_mem f2 x
      refine ⟨hmem, hrest.symm, ?_, ?_⟩
      · rw [← hrest]
        rw [List.length_erase_of_mem hmem]
        have : 0 < (x :: f2).length := by simp
        omega
      · intro g hg
        rw [← he]
        rcases List.mem_cons.mp hg with rfl | h2
        · exact (foldl_heapMin_le f2 g).1
        · exact (foldl_heapMin_le f2 x).2 g h2

/-! ## Prim's algorithm: pushNbrs lemmas -/

theorem pushAux_mem_mono (G : Graph) (v : ℕ) (vis : List ℕ) :
    ∀ (L : List ℕ) (f : List (Weight × ℕ × ℕ × ℕ)) (c : ℕ) (q : Weight × ℕ × ℕ × ℕ),
      q ∈ f →
      q ∈ (L.foldl (fun p w2 =>
        if w2 ∈ vis then p else (p.1 ++ [(G.wt v w2, p.2, v, w2)], p.2 + 1)) (f, c)).1 := by
  intro L
  induction L with
  | nil => intro f c q hq; exact hq
  | cons w L ih =>
      intro f c q hq
      rw [List.foldl_cons]
      by_cases h : w ∈ vis
      · rw [if_pos h]
        exact ih f c q hq
      · rw [if_neg h]
        exact ih _ _ q (List.mem_append.mpr (Or.inl hq))

theorem pushAux_mem_src (G : Graph) (v : ℕ) (vis : List ℕ) :
    ∀ (L : List ℕ) (f : List (Weight × ℕ × ℕ × ℕ)) (c : ℕ) (q : Weight × ℕ × ℕ × ℕ),
      q ∈ (L.foldl (fun p w2 =>
        if w2 ∈ vis then p else (p.1 ++ [(G.wt v w2, p.2, v, w2)], p.2 + 1)) (f, c)).1 →
      q ∈ f ∨ ∃ w2 ∈ L, w2 ∉ vis ∧ ∃ c2, q = (G.wt v w2, c2, v, w2) := by
  intro L
  induction L with
  | nil => intro f c q hq; exact Or.inl hq
  | cons w L ih =>
      intro f c q hq
      rw [List.foldl_cons] at hq
      by_cases h : w ∈ vis
      · rw [if_pos h] at hq
        rcases ih f c q hq with h2 | ⟨w2, hw2, hv2, c2, hq2⟩
        · exact Or.inl h2
        · exact Or.inr ⟨w2, List.mem_cons_of_mem w hw2, hv2, c2, hq2⟩
      · rw [if_neg h] at hq
        rcases ih _ _ q hq with h2 | ⟨w2, hw2, hv2, c2, hq2⟩
        · rcases List.mem_append.mp h2 with h3 | h3
          · exact Or.inl h3
          · rw [List.mem_singleton] at h3
            exact Or.inr ⟨w, List.mem_cons_self w L, h, c, h3⟩
        · exact Or.inr ⟨w2, List.mem_cons_of_mem w hw2, hv2, c2, hq2⟩

theorem pushAux_complete (G : Graph) (v : ℕ) (vis : List ℕ) :
    ∀ (L : List ℕ) (f : List (Weight × ℕ × ℕ × ℕ)) (c : ℕ) (w2 : ℕ),
      w2 ∈ L → w2 ∉ vis →
      ∃ c2, (G.wt v w2, c2, v, w2) ∈ (L.foldl (fun p w3 =>
        if w3 ∈ vis then p else (p.1 ++ [(G.wt v w3, p.2, v, w3)], p.2 + 1)) (f, c)).1 := by
  intro L
  induction L with
  | nil => intro f c w2 hw2; exact absurd hw2 (by simp)
  | cons w L ih =>
      intro f c w2 hw2 hnv
      rw [List.foldl_cons]
      rcases List.mem_cons.mp hw2 with rfl | h2
      · rw [if_neg hnv]
        refine ⟨c, ?_⟩
        exact pushAux_mem_mono G v vis L _ _ _ (List.mem_append.mpr (Or.inr (by simp)))
      · by_cases h : w ∈ vis
        · rw [if_pos h]
          exact ih f c w2 h2 hnv
        · rw [if_neg h]
          exact ih _ _ w2 h2 hnv

theorem pushAux_len (G : Graph) (v : ℕ) (vis : List ℕ) :
    ∀ (L : List ℕ) (f : List (Weight × ℕ × ℕ × ℕ)) (c : ℕ),
      (L.foldl (fun p w2 =>
        if w2 ∈ vis then p else (p.1 ++ [(G.wt v w2, p.2, v, w2)], p.2 + 1)) (f, c)).1.length
        ≤ f.length + L.length := by
  intro L
  induction L with
  | nil => intro f c; simp
  | cons w L ih =>
      intro f c
      rw [List.foldl_cons]
      by_cases h : w ∈ vis
      · rw [if_pos h]
        have := ih f c
        simp only [List.length_cons]
        omega
      · rw [if_neg h]
        have := ih (f ++ [(G.wt v w, c, v, w)]) (c + 1)
        simp only [List.length_cons]
        rw [List.length_append] at this
        simp only [List.length_singleton] at this
        omega

/-! ## Reachability toolkit for the spanning-tree proofs -/

theorem ReachMS_trans (E : Multiset (ℕ × ℕ)) (a b c : ℕ)
    (h1 : ReachMS E a b) (h2 : ReachMS E b c) : ReachMS E a c :=
  Relation.ReflTransGen.trans h1 h2

theorem reach_single (B : Multiset (ℕ × ℕ)) (p : ℕ × ℕ) (hp : p ∈ B) :
    ReachMS B p.1 p.2 :=
  Relation.ReflTransGen.single (Or.inl hp)

theorem reach_via (A B : Multiset (ℕ × ℕ)) (h : ∀ p ∈ A, ReachMS B p.1 p.2) :
    ∀ u w, ReachMS A u w → ReachMS B u w := by
  intro u w hr
  induction hr with
  | refl => exact Relation.ReflTransGen.refl
  | tail hyb hstep ih =>
      rename_i m b
      rcases hstep with hq | hq
      · exact ReachMS_trans B u m b ih (h (m, b) hq)
      · exact ReachMS_trans B u m b ih (ReachMS_symm B b m (h (b, m) hq))

theorem reach_mem_mono (A B : Multiset (ℕ × ℕ)) (h : ∀ p ∈ A, p ∈ B) :
    ∀ u w, ReachMS A u w → ReachMS B u w :=
  reach_via A B (fun p hp => reach_single B p (h p hp))

theorem no_reach_isolated (E : Multiset (ℕ × ℕ)) (u v : ℕ)
    (huv : u ≠ v) (hdeg : msDeg E v = 0) : ¬ ReachMS E u v := by
  intro h
  have h2 := ReachMS_symm E u v h
  rcases Relation.ReflTransGen.cases_head h2 with heq | ⟨c, hstep, _⟩
  · exact huv heq.symm
  · rcases hstep with hq | hq
    · have := msDeg_pos_of_mem E (v, c) v hq (Or.inl rfl)
      omega
    · have := msDeg_pos_of_mem E (c, v) v hq (Or.inr rfl)
      omega

/-- Collapsing a pendant edge `{u, v}` (with `v` otherwise isolated):
walks in `E + {u,v}` project to walks in `E` after renaming `v` to `u`. -/
theorem reach_collapse (E : Multiset (ℕ × ℕ)) (u v : ℕ) (huv : u ≠ v)
    (hdeg : msDeg E v = 0) :
    ∀ a b, ReachMS (nrm (u, v) ::ₘ E) a b →
      ReachMS E (if a = v then u else a) (if b = v then u else b) := by
  intro a b hr
  induction hr with
  | refl => exact Relation.ReflTransGen.refl
  | tail hyb hstep ih =>
      rename_i y b
      have hclean : ∀ q : ℕ × ℕ, q ∈ E → q.1 ≠ v ∧ q.2 ≠ v := by
        intro q hq
        constructor
        · intro hc
          have := msDeg_pos_of_mem E q v hq (Or.inl hc)
          omega
        · intro hc
          have := msDeg_pos_of_mem E q v hq (Or.inr hc)
          omega
      rcases hstep with hq | hq
      · rw [Multiset.mem_cons] at hq
        rcases hq with hq | hq
        · rcases nrm_cases u v y b hq.symm with ⟨h1, h2⟩ | ⟨h1, h2⟩
          · subst h1
            subst h2
            rw [if_neg huv] at ih
            rw [if_pos rfl]
            exact ih
          · subst h1
            subst h2
            rw [if_pos rfl] at ih
            rw [if_neg huv]
            exact ih
        · have hcl := hclean (y, b) hq
          rw [if_neg hcl.1] at ih
          rw [if_neg hcl.2]
          exact Relation.ReflTransGen.tail ih (Or.inl hq)
      · rw [Multiset.mem_cons] at hq
        rcases hq with hq | hq
        · rcases nrm_cases u v b y hq.symm with ⟨h1, h2⟩ | ⟨h1, h2⟩
          · subst h1
            subst h2
            rw [if_pos rfl] at ih
            rw [if_neg huv]
            exact ih
          · subst h1
            subst h2
            rw [if_neg huv] at ih
            rw [if_pos rfl]
            exact ih
        · have hcl := hclean (b, y) hq
          rw [if_neg hcl.2] at ih
          rw [if_neg hcl.1]
          exact Relation.ReflTransGen.tail ih (Or.inr hq)

/-! ## The Prim loop invariant -/

theorem primLoop_none_eq (G : Graph) (fuel : ℕ) (s : PrimState)
    (h : popMin s.frontier = none) : primLoop G (fuel + 1) s = s := by
  show (match popMin s.frontier with
        | none => s
        | some (e, rest) =>
            let v := e.2.2.2
            if v ∈ s.visited then primLoop G fuel ⟨rest, s.visited, s.mst, s.ctr⟩
            else
              let p := pushNbrs G v (s.visited ++ [v]) rest s.ctr
              primLoop G fuel ⟨p.1, s.visited ++ [v], s.mst ++ [(e.2.2.1, v, e.1)], p.2⟩) = s
  rw [h]

theorem primLoop_skip_eq (G : Graph) (fuel : ℕ) (s : PrimState)
    (e : Weight × ℕ × ℕ × ℕ) (rest : List (Weight × ℕ × ℕ × ℕ))
    (h : popMin s.frontier = some (e, rest)) (hv : e.2.2.2 ∈ s.visited) :
    primLoop G (fuel + 1) s = primLoop G fuel ⟨rest, s.visited, s.mst, s.ctr⟩ := by
  show (match popMin s.frontier with
        | none => s
        | some (e, rest) =>
            let v := e.2.2.2
            if v ∈ s.visited then primLoop G fuel ⟨rest, s.visited, s.mst, s.ctr⟩
            else
              let p := pushNbrs G v (s.visited ++ [v]) rest s.ctr
              primLoop G fuel ⟨p.1, s.visited ++ [v], s.mst ++ [(e.2.2.1, v, e.1)], p.2⟩) = _
  rw [h]
  dsimp only
  rw [if_pos hv]

theorem primLoop_accept_eq (G : Graph) (fuel : ℕ) (s : PrimState)
    (e : Weight × ℕ × ℕ × ℕ) (rest : List (Weight × ℕ × ℕ × ℕ))
    (h : popMin s.frontier = some (e, rest)) (hv : e.2.2.2 ∉ s.visited) :
    primLoop G (fuel + 1) s = primLoop G fuel
      ⟨(pushNbrs G e.2.2.2 (s.visited ++ [e.2.2.2]) rest s.ctr).1,
       s.visited ++ [e.2.2.2], s.mst ++ [(e.2.2.1, e.2.2.2, e.1)],
       (pushNbrs G e.2.2.2 (s.visited ++ [e.2.2.2]) rest s.ctr).2⟩ := by
  show (match popMin s.frontier with
        | none => s
        | some (e, rest) =>
            let v := e.2.2.2
            if v ∈ s.visited then primLoop G fuel ⟨rest, s.visited, s.mst, s.ctr⟩
            else
              let p := pushNbrs G v (s.visited ++ [v]) rest s.ctr
              primLoop G fuel ⟨p.1, s.visited ++ [v], s.mst ++ [(e.2.2.1, v, e.1)], p.2⟩) = _
  rw [h]
  dsimp only
  rw [if_neg hv]

theorem edgeMS_append (E F : List (ℕ × ℕ × Weight)) :
    edgeMS (E ++ F) = edgeMS E + edgeMS F := by
  unfold edgeMS
  rw [List.map_append]
  rfl

/-- Invariant of networkx's Prim loop: visited order, tree structure over
the accepted edges, and frontier soundness and completeness. -/
structure PInv (G : Graph) (u0 : ℕ) (s : PrimState) : Prop where
  nodup : s.visited.Nodup
  sub : ∀ v ∈ s.visited, v ∈ G.nodes
  shape : s.visited = u0 :: s.mst.map (fun e => e.2.1)
  src : ∀ e ∈ s.mst, e.1 ∈ s.visited
  adj : ∀ e ∈ s.mst, e.2.1 ∈ G.nbrs e.1 ∧ e.2.2 = G.wt e.1 e.2.1 ∧ e.1 ≠ e.2.1
  conn : ∀ v ∈ s.visited, ReachMS (edgeMS s.mst) u0 v
  bridge : ∀ e ∈ s.mst, ¬ ReachMS (edgeMS (s.mst.erase e)) e.1 e.2.1
  pw : List.Pairwise distinctPair s.mst
  fs : ∀ q ∈ s.frontier, q.2.2.1 ∈ s.visited ∧ q.2.2.2 ∈ G.nbrs q.2.2.1 ∧
    q.1 = G.wt q.2.2.1 q.2.2.2
  fc : ∀ x y, x ∈ s.visited → y ∉ s.visited → y ∈ G.nbrs x →
    ∃ c, (G.wt x y, c, x, y) ∈ s.frontier

theorem PInv.tgt (G : Graph) (u0 : ℕ) (s : PrimState) (h : PInv G u0 s) :
    ∀ e ∈ s.mst, e.2.1 ∈ s.visited := by
  intro e he
  rw [h.shape]
  exact List.mem_cons_of_mem _ (List.mem_map.mpr ⟨e, he, rfl⟩)

/-- Degree mass of the not-yet-visited vertices (the Prim fuel measure). -/
def unvisDegSum (G : Graph) (vis : List ℕ) : ℕ :=
  ((G.nodes.filter (fun x => decide (x ∉ vis))).map (fun v => G.degree v)).sum

theorem sum_unvis_split (deg : ℕ → ℕ) (vis : List ℕ) (v : ℕ) :
    ∀ L : List ℕ, L.Nodup → v ∈ L → v ∉ vis →
      ((L.filter (fun x => decide (x ∉ vis))).map deg).sum
        = ((L.filter (fun x => decide (x ∉ vis ++ [v]))).map deg).sum + deg v := by
  intro L
  induction L with
  | nil => intro _ hv _; exact absurd hv (by simp)
  | cons a L ih =>
      intro hnd hv hnvis
      have hnda := List.nodup_cons.mp hnd
      rcases List.mem_cons.mp hv with rfl | hvL
      · have hsame : L.filter (fun x => decide (x ∉ vis ++ [v]))
            = L.filter (fun x => decide (x ∉ vis)) := by
          refine List.filter_congr ?_
          intro x hx
          have hxv : x ≠ v := fun hc => hnda.1 (hc ▸ hx)
          simp [List.mem_append, hxv]
        rw [List.filter_cons, List.filter_cons]
        rw [if_pos (by simp [hnvis]), if_neg (by simp)]
        rw [hsame]
        simp only [List.map_cons, List.sum_cons]
        omega
      · have hav : a ≠ v := fun hc => hnda.1 (hc ▸ hvL)
        have hcond : (decide (a ∉ vis ++ [v])) = (decide (a ∉ vis)) := by
          simp [List.mem_append, hav]
        rw [List.filter_cons, List.filter_cons, hcond]
        by_cases hc : a ∈ vis
        · rw [if_neg (by simp [hc]), if_neg (by simp [hc])]
          exact ih hnda.2 hvL hnvis
        · rw [if_pos (by simp [hc]), if_pos (by simp [hc])]
          simp only [List.map_cons, List.sum_cons]
          rw [ih hnda.2 hvL hnvis]
          omega

theorem unvisDegSum_step (G : Graph) (vis : List ℕ) (v : ℕ)
    (hnd : G.nodes.Nodup) (hv : v ∈ G.nodes) (hnvis : v ∉ vis) :
    unvisDegSum G vis = unvisDegSum G (vis ++ [v]) + G.degree v :=
  sum_unvis_split (fun v => G.degree v) vis v G.nodes hnd hv hnvis

theorem nbrs_sub_nodes (G : Graph) (hWF : G.WF) (x y : ℕ) (h : y ∈ G.nbrs x) :
    y ∈ G.nodes := by
  rw [mem_nbrs_iff] at h
  obtain ⟨ed, hed, hc⟩ := h
  have hends := hWF.2.1 ed hed
  rcases hc with ⟨h1, h2⟩ | ⟨h1, h2⟩
  · rw [← h2]
    exact hends.2.1
  · rw [← h1]
    exact hends.1

theorem adj_nrm (E : Multiset (ℕ × ℕ)) (x v : ℕ) (h : nrm (x, v) ∈ E) :
    adjRel E x v := by
  unfold adjRel
  rcases Nat.le_total x v with hle | hle
  · left
    have heq : nrm (x, v) = (x, v) := by
      unfold nrm
      rw [Nat.min_eq_left hle, Nat.max_eq_right hle]
    rw [← heq]
    exact h
  · right
    have heq : nrm (x, v) = (v, x) := by
      unfold nrm
      rw [Nat.min_eq_right hle, Nat.max_eq_left hle]
    rw [← heq]
    exact h

theorem PInv_skip (G : Graph) (u0 : ℕ) (s : PrimState) (e : Weight × ℕ × ℕ × ℕ)
    (rest : List (Weight × ℕ × ℕ × ℕ)) (hinv : PInv G u0 s)
    (hpop : popMin s.frontier = some (e, rest)) (hv : e.2.2.2 ∈ s.visited) :
    PInv G u0 ⟨rest, s.visited, s.mst, s.ctr⟩ := by
  have hps := popMin_spec s.frontier e rest hpop
  have hrmem : ∀ q ∈ rest, q ∈ s.frontier := by
    intro q hq
    rw [hps.2.1] at hq
    exact List.mem_of_mem_erase hq
  refine ⟨hinv.nodup, hinv.sub, hinv.shape, hinv.src, hinv.adj, hinv.conn,
    hinv.bridge, hinv.pw, ?_, ?_⟩
  · intro q hq
    exact hinv.fs q (hrmem q hq)
  · intro x y hx hy hnb
    obtain ⟨c, hc⟩ := hinv.fc x y hx hy hnb
    refine ⟨c, ?_⟩
    have hne : (G.wt x y, c, x, y) ≠ e := by
      intro hcq
      have hyv : y = e.2.2.2 := by rw [← hcq]
      rw [hyv] at hy
      exact hy hv
    show (G.wt x y, c, x, y) ∈ rest
    rw [hps.2.1]
    exact (List.mem_erase_of_ne hne).mpr hc

theorem PInv_accept (G : Graph) (u0 : ℕ) (hWF : G.WF) (s : PrimState)
    (e : Weight × ℕ × ℕ × ℕ) (rest : List (Weight × ℕ × ℕ × ℕ)) (hinv : PInv G u0 s)
    (hpop : popMin s.frontier = some (e, rest)) (hv : e.2.2.2 ∉ s.visited) :
    PInv G u0 ⟨(pushNbrs G e.2.2.2 (s.visited ++ [e.2.2.2]) rest s.ctr).1,
      s.visited ++ [e.2.2.2], s.mst ++ [(e.2.2.1, e.2.2.2, e.1)],
      (pushNbrs G e.2.2.2 (s.visited ++ [e.2.2.2]) rest s.ctr).2⟩ := by
  have hps := popMin_spec s.frontier e rest hpop
  obtain ⟨hx, hynb, hwt⟩ := hinv.fs e hps.1
  have hvnode : e.2.2.2 ∈ G.nodes := nbrs_sub_nodes G hWF e.2.2.1 e.2.2.2 hynb
  have hxv : e.2.2.1 ≠ e.2.2.2 := fun hc => hv (hc ▸ hx)
  have hrmem : ∀ q ∈ rest, q ∈ s.frontier := by
    intro q hq
    rw [hps.2.1] at hq
    exact List.mem_of_mem_erase hq
  have hmstv : ∀ f ∈ s.mst, f.1 ≠ e.2.2.2 ∧ f.2.1 ≠ e.2.2.2 := by
    intro f hf
    constructor
    · intro hc
      exact hv (hc ▸ hinv.src f hf)
    · intro hc
      exact hv (hc ▸ PInv.tgt G u0 s hinv f hf)
  have hdeg0 : msDeg (edgeMS s.mst) e.2.2.2 = 0 := by
    refine msDeg_edgeMS_zero e.2.2.2 s.mst ?_
    intro f hf
    exact hmstv f hf
  have hEnew : edgeMS (s.mst ++ [(e.2.2.1, e.2.2.2, e.1)])
      = nrm (e.2.2.1, e.2.2.2) ::ₘ edgeMS s.mst := by
    rw [edgeMS_append]
    show edgeMS s.mst + (nrm (e.2.2.1, e.2.2.2) ::ₘ 0) = _
    rw [← cons_exchange, add_zero]
  refine ⟨?_, ?_, ?_, ?_, ?_, ?_, ?_, ?_, ?_, ?_⟩
  · show (s.visited ++ [e.2.2.2]).Nodup
    rw [List.nodup_append]
    exact ⟨hinv.nodup, by simp, by simp [hv]⟩
  · intro z hz
    rcases List.mem_append.mp hz with hz | hz
    · exact hinv.sub z hz
    · rw [List.mem_singleton] at hz
      rw [hz]
      exact hvnode
  · show s.visited ++ [e.2.2.2] = u0 :: (s.mst ++ [(e.2.2.1, e.2.2.2, e.1)]).map
      (fun f => f.2.1)
    rw [hinv.shape, List.map_append]
    rfl
  · intro f hf
    rcases List.mem_append.mp hf with hf | hf
    · exact List.mem_append.mpr (Or.inl (hinv.src f hf))
    · rw [List.mem_singleton] at hf
      rw [hf]
      exact List.mem_append.mpr (Or.inl hx)
  · intro f hf
    rcases List.mem_append.mp hf with hf | hf
    · exact hinv.adj f hf
    · rw [List.mem_singleton] at hf
      rw [hf]
      exact ⟨hynb, hwt, hxv⟩
  · intro z hz
    show ReachMS (edgeMS (s.mst ++ [(e.2.2.1, e.2.2.2, e.1)])) u0 z
    rw [hEnew]
    rcases List.mem_append.mp hz with hz | hz
    · refine reach_mem_mono (edgeMS s.mst) _ ?_ u0 z (hinv.conn z hz)
      intro p hp
      exact Multiset.mem_cons_of_mem hp
    · rw [List.mem_singleton] at hz
      rw [hz]
      have h1 : ReachMS (nrm (e.2.2.1, e.2.2.2) ::ₘ edgeMS s.mst) u0 e.2.2.1 := by
        refine reach_mem_mono (edgeMS s.mst) _ ?_ u0 e.2.2.1
          (hinv.conn e.2.2.1 hx)
        intro p hp
        exact Multiset.mem_cons_of_mem hp
      refine Relation.ReflTransGen.tail h1 ?_
      exact adj_nrm _ e.2.2.1 e.2.2.2 (Multiset.mem_cons_self _ _)
  · intro f hf
    rcases List.mem_append.mp hf with hf | hf
    · intro hr
      have herase : (s.mst ++ [(e.2.2.1, e.2.2.2, e.1)]).erase f
          = s.mst.erase f ++ [(e.2.2.1, e.2.2.2, e.1)] :=
        List.erase_append_left _ hf
      rw [herase, edgeMS_append] at hr
      have hEr : edgeMS (s.mst.erase f) + edgeMS [(e.2.2.1, e.2.2.2, e.1)]
          = nrm (e.2.2.1, e.2.2.2) ::ₘ edgeMS (s.mst.erase f) := by
        show edgeMS (s.mst.erase f) + (nrm (e.2.2.1, e.2.2.2) ::ₘ 0) = _
        rw [← cons_exchange, add_zero]
      rw [hEr] at hr
      have hdeg0e : msDeg (edgeMS (s.mst.erase f)) e.2.2.2 = 0 := by
        refine msDeg_edgeMS_zero e.2.2.2 (s.mst.erase f) ?_
        intro g hg
        exact hmstv g (List.mem_of_mem_erase hg)
      have hcol := reach_collapse (edgeMS (s.mst.erase f)) e.2.2.1 e.2.2.2
        hxv hdeg0e f.1 f.2.1 hr
      have hf1 : f.1 ≠ e.2.2.2 := (hmstv f hf).1
      have hf2 : f.2.1 ≠ e.2.2.2 := (hmstv f hf).2
      rw [if_neg hf1, if_neg hf2] at hcol
      exact hinv.bridge f hf hcol
    · rw [List.mem_singleton] at hf
      rw [hf]
      intro hr
      have hnotin : (e.2.2.1, e.2.2.2, e.1) ∉ s.mst := by
        intro hc
        exact (hmstv _ hc).2 rfl
      have herase : (s.mst ++ [(e.2.2.1, e.2.2.2, e.1)]).erase
          (e.2.2.1, e.2.2.2, e.1) = s.mst := by
        rw [List.erase_append_right _ hnotin]
        rw [List.erase_cons_head]
        rw [List.append_nil]
      rw [herase] at hr
      exact no_reach_isolated (edgeMS s.mst) e.2.2.1 e.2.2.2 hxv hdeg0 hr
  · show List.Pairwise distinctPair (s.mst ++ [(e.2.2.1, e.2.2.2, e.1)])
    rw [List.pairwise_append]
    refine ⟨hinv.pw, List.pairwise_singleton _ _, ?_⟩
    intro f hf g hg
    rw [List.mem_singleton] at hg
    rw [hg]
    intro hc
    rcases hc with ⟨h1, h2⟩ | ⟨h1, h2⟩
    · exact (hmstv f hf).2 h2
    · exact (hmstv f hf).1 h1
  · intro q hq
    rcases pushAux_mem_src G e.2.2.2 (s.visited ++ [e.2.2.2]) (G.nbrs e.2.2.2)
        rest s.ctr q hq with hq2 | ⟨w2, hw2, _, c2, hq2⟩
    · have hold := hinv.fs q (hrmem q hq2)
      exact ⟨List.mem_append.mpr (Or.inl hold.1), hold.2.1, hold.2.2⟩
    · rw [hq2]
      exact ⟨List.mem_append.mpr (Or.inr (by simp)), hw2, rfl⟩
  · intro x y hxm hym hnb
    rcases List.mem_append.mp hxm with hxm | hxm
    · have hyold : y ∉ s.visited := by
        intro hc
        exact hym (List.mem_append.mpr (Or.inl hc))
      obtain ⟨c, hc⟩ := hinv.fc x y hxm hyold hnb
      have hne : (G.wt x y, c, x, y) ≠ e := by
        intro hcq
        have hyv : y = e.2.2.2 := by rw [← hcq]
        exact hym (List.mem_append.mpr (Or.inr (by simp [hyv])))
      have hcr : (G.wt x y, c, x, y) ∈ rest := by
        rw [hps.2.1]
        exact (List.mem_erase_of_ne hne).mpr hc
      exact ⟨c, pushAux_mem_mono G e.2.2.2 (s.visited ++ [e.2.2.2])
        (G.nbrs e.2.2.2) rest s.ctr _ hcr⟩
    · rw [List.mem_singleton] at hxm
      rw [hxm] at hnb ⊢
      exact pushAux_complete G e.2.2.2 (s.visited ++ [e.2.2.2])
        (G.nbrs e.2.2.2) rest s.ctr y hnb hym

theorem primLoop_spec (G : Graph) (u0 : ℕ) (hWF : G.WF) :
    ∀ (fuel : ℕ) (s : PrimState), PInv G u0 s →
      s.frontier.length + unvisDegSum G s.visited < fuel →
      PInv G u0 (primLoop G fuel s) ∧ (primLoop G fuel s).frontier = [] := by
  intro fuel
  induction fuel with
  | zero => intro s _ hlt; omega
  | succ fuel ih =>
      intro s hinv hlt
      rcases hpop : popMin s.frontier with _ | ⟨e, rest⟩
      · have hfe : s.frontier = [] := (popMin_none _).mp hpop
        rw [primLoop_none_eq G fuel s hpop]
        exact ⟨hinv, hfe⟩
      · have hps := popMin_spec s.frontier e rest hpop
        by_cases hv : e.2.2.2 ∈ s.visited
        · rw [primLoop_skip_eq G fuel s e rest hpop hv]
          refine ih _ (PInv_skip G u0 s e rest hinv hpop hv) ?_
          show rest.length + unvisDegSum G s.visited < fuel
          have hlen := hps.2.2.1
          omega
        · rw [primLoop_accept_eq G fuel s e rest hpop hv]
          refine ih _ (PInv_accept G u0 hWF s e rest hinv hpop hv) ?_
          obtain ⟨hx, hynb, hwt⟩ := hinv.fs e hps.1
          have hvnode : e.2.2.2 ∈ G.nodes := nbrs_sub_nodes G hWF e.2.2.1 e.2.2.2 hynb
          show (pushNbrs G e.2.2.2 (s.visited ++ [e.2.2.2]) rest s.ctr).1.length
            + unvisDegSum G (s.visited ++ [e.2.2.2]) < fuel
          have hpush : (pushNbrs G e.2.2.2 (s.visited ++ [e.2.2.2]) rest s.ctr).1.length
              ≤ rest.length + (G.nbrs e.2.2.2).length :=
            pushAux_len G e.2.2.2 (s.visited ++ [e.2.2.2]) (G.nbrs e.2.2.2) rest s.ctr
          have hstep : unvisDegSum G s.visited
              = unvisDegSum G (s.visited ++ [e.2.2.2]) + G.degree e.2.2.2 :=
            unvisDegSum_step G s.visited e.2.2.2 hWF.1 hvnode hv
          have hdegdef : G.degree e.2.2.2 = (G.nbrs e.2.2.2).length := rfl
          have hlen := hps.2.2.1
          omega

/-! ## Running Prim on the complete graph -/

theorem pairList_len (M : Mat) (N : ℕ) (hsq : SquareSym M N) :
    2 * (pairList M).length = N * N - N := by
  unfold pairList
  rw [List.length_flatMap]
  simp only [Function.comp_def]
  have hmap : (List.range M.length).map
        (fun i => ((List.range' (i + 1) ((M.getD i []).length - (i + 1))).map
          (fun j => (i, j))).length)
      = (List.range N).map (fun i => N - (i + 1)) := by
    rw [hsq.1]
    refine List.map_congr_left ?_
    intro i hi
    rw [List.mem_range] at hi
    rw [List.length_map, List.length_range']
    rw [row_len M N hsq i hi]
  rw [hmap]
  have hbridge : ((List.range N).map (fun i => N - (i + 1))).sum
      = ∑ i ∈ Finset.range N, (N - (i + 1)) := rfl
  rw [hbridge]
  have hrefl : ∑ i ∈ Finset.range N, (N - (i + 1)) = ∑ i ∈ Finset.range N, i := by
    have h := Finset.sum_range_reflect (fun i => i) N
    rw [← h]
    refine Finset.sum_congr rfl ?_
    intro i hi
    rw [Finset.mem_range] at hi
    omega
  rw [hrefl]
  have hgauss := Finset.sum_range_id_mul_two N
  have h2 : N * (N - 1) = N * N - N := by
    cases N with
    | zero => rfl
    | succ n =>
        rw [Nat.succ_sub_one]
        have hexp : (n + 1) * (n + 1) = (n + 1) * n + (n + 1) := by ring
        omega
  omega

theorem cwg_edges_len (M : Mat) (N : ℕ) (hsq : SquareSym M N) :
    2 * (create_weighted_graph M).edges.length = N * N - N := by
  rw [cwg_edges, List.length_map]
  exact pairList_len M N hsq

theorem PInv_init (M : Mat) (N : ℕ) (hsq : SquareSym M N) (hN : 2 ≤ N) :
    PInv (create_weighted_graph M) 0
      ⟨(pushNbrs (create_weighted_graph M) 0 [0] [] 0).1, [0], [],
       (pushNbrs (create_weighted_graph M) 0 [0] [] 0).2⟩ := by
  refine ⟨?_, ?_, rfl, ?_, ?_, ?_, ?_, ?_, ?_, ?_⟩
  · simp
  · intro z hz
    rw [List.mem_singleton] at hz
    rw [hz, cwg_nodes M N hsq hN, List.mem_range]
    omega
  · intro f hf
    exact absurd hf (by simp)
  · intro f hf
    exact absurd hf (by simp)
  · intro z hz
    rw [List.mem_singleton] at hz
    rw [hz]
    exact Relation.ReflTransGen.refl
  · intro f hf
    exact absurd hf (by simp)
  · simp
  · intro q hq
    rcases pushAux_mem_src (create_weighted_graph M) 0 [0]
        ((create_weighted_graph M).nbrs 0) [] 0 q hq with hq2 | ⟨w2, hw2, hnv, c2, hq2⟩
    · exact absurd hq2 (by simp)
    · rw [hq2]
      exact ⟨by simp, hw2, rfl⟩
  · intro x y hx hy hnb
    rw [List.mem_singleton] at hx
    subst hx
    exact pushAux_complete (create_weighted_graph M) 0 [0]
      ((create_weighted_graph M).nbrs 0) [] 0 y hnb hy

theorem mst_run (G : Graph) (u0 : ℕ) (rest0 : List ℕ) (hnodes : G.nodes = u0 :: rest0) :
    minimum_spanning_tree G = ⟨G.nodes,
      (primLoop G (G.nodes.length * G.nodes.length + G.nodes.length + 1)
        ⟨(pushNbrs G u0 [u0] [] 0).1, [u0], [], (pushNbrs G u0 [u0] [] 0).2⟩).mst⟩ := by
  unfold minimum_spanning_tree
  rw [hnodes]

theorem fuel_ok (M : Mat) (N : ℕ) (hsq : SquareSym M N) (hN : 2 ≤ N) :
    (pushNbrs (create_weighted_graph M) 0 [0] [] 0).1.length
      + unvisDegSum (create_weighted_graph M) [0]
      < (create_weighted_graph M).nodes.length * (create_weighted_graph M).nodes.length
        + (create_weighted_graph M).nodes.length + 1 := by
  have hlen : (create_weighted_graph M).nodes.length = N := by
    rw [cwg_nodes M N hsq hN, List.length_range]
  have hWF := cwg_WF M N hsq hN
  have hpush : (pushNbrs (create_weighted_graph M) 0 [0] [] 0).1.length
      ≤ ([] : List (Weight × ℕ × ℕ × ℕ)).length
        + ((create_weighted_graph M).nbrs 0).length :=
    pushAux_len (create_weighted_graph M) 0 [0] ((create_weighted_graph M).nbrs 0) [] 0
  have h0node : 0 ∈ (create_weighted_graph M).nodes := by
    rw [cwg_nodes M N hsq hN, List.mem_range]
    omega
  have hstep : unvisDegSum (create_weighted_graph M) []
      = unvisDegSum (create_weighted_graph M) ([] ++ [0])
        + (create_weighted_graph M).degree 0 :=
    unvisDegSum_step (create_weighted_graph M) [] 0 hWF.1 h0node (by simp)
  rw [List.nil_append] at hstep
  have htot : unvisDegSum (create_weighted_graph M) []
      = ((create_weighted_graph M).nodes.map
          (fun v => (create_weighted_graph M).degree v)).sum := by
    unfold unvisDegSum
    have hfil : (create_weighted_graph M).nodes.filter
        (fun x => decide (x ∉ ([] : List ℕ))) = (create_weighted_graph M).nodes := by
      refine List.filter_eq_self.mpr ?_
      intro a _
      simp
    rw [hfil]
  have hhand := handshake_simple (create_weighted_graph M) hWF
  have hE := cwg_edges_len M N hsq
  have hdegdef : (create_weighted_graph M).degree 0
      = ((create_weighted_graph M).nbrs 0).length := rfl
  rw [hlen]
  simp only [List.length_nil] at hpush
  omega

theorem mst_final_inv (M : Mat) (N : ℕ) (hsq : SquareSym M N) (hN : 2 ≤ N) :
    PInv (create_weighted_graph M) 0
      (primLoop (create_weighted_graph M)
        ((create_weighted_graph M).nodes.length * (create_weighted_graph M).nodes.length
          + (create_weighted_graph M).nodes.length + 1)
        ⟨(pushNbrs (create_weighted_graph M) 0 [0] [] 0).1, [0], [],
         (pushNbrs (create_weighted_graph M) 0 [0] [] 0).2⟩)
    ∧ (primLoop (create_weighted_graph M)
        ((create_weighted_graph M).nodes.length * (create_weighted_graph M).nodes.length
          + (create_weighted_graph M).nodes.length + 1)
        ⟨(pushNbrs (create_weighted_graph M) 0 [0] [] 0).1, [0], [],
         (pushNbrs (create_weighted_graph M) 0 [0] [] 0).2⟩).frontier = [] :=
  primLoop_spec (create_weighted_graph M) 0 (cwg_WF M N hsq hN) _ _
    (PInv_init M N hsq hN) (fuel_ok M N hsq hN)

/-- The final Prim state inside `minimum_spanning_tree` on the complete
graph of the cost matrix. -/
def primFinal (M : Mat) : PrimState :=
  primLoop (create_weighted_graph M)
    ((create_weighted_graph M).nodes.length * (create_weighted_graph M).nodes.length
      + (create_weighted_graph M).nodes.length + 1)
    ⟨(pushNbrs (create_weighted_graph M) 0 [0] [] 0).1, [0], [],
     (pushNbrs (create_weighted_graph M) 0 [0] [] 0).2⟩

theorem mst_eq_primFinal (M : Mat) (N : ℕ) (hsq : SquareSym M N) (hN : 2 ≤ N) :
    minimum_spanning_tree (create_weighted_graph M)
      = ⟨(create_weighted_graph M).nodes, (primFinal M).mst⟩ := by
  have hnodes : (create_weighted_graph M).nodes = 0 :: List.range' 1 (N - 1) := by
    rw [cwg_nodes M N hsq hN, List.range_eq_range']
    have hN1 : N = (N - 1) + 1 := by omega
    conv_lhs => rw [hN1, List.range'_succ]
  exact mst_run _ 0 _ hnodes

theorem nodup_len_le (R L : List ℕ) (hR : R.Nodup) (hL : L.Nodup)
    (hsub : ∀ x ∈ R, x ∈ L) : R.length ≤ L.length := by
  have hsubF : R.toFinset ⊆ L.toFinset := by
    intro x hx
    rw [List.mem_toFinset] at hx ⊢
    exact hsub x hx
  have hc := Finset.card_le_card hsubF
  rw [List.toFinset_card_of_nodup hR, List.toFinset_card_of_nodup hL] at hc
  exact hc

theorem primFinal_inv (M : Mat) (N : ℕ) (hsq : SquareSym M N) (hN : 2 ≤ N) :
    PInv (create_weighted_graph M) 0 (primFinal M) ∧ (primFinal M).frontier = [] :=
  mst_final_inv M N hsq hN

theorem primFinal_visited (M : Mat) (N : ℕ) (hsq : SquareSym M N) (hN : 2 ≤ N) :
    ∀ y ∈ (create_weighted_graph M).nodes, y ∈ (primFinal M).visited := by
  obtain ⟨hinv, hfe⟩ := primFinal_inv M N hsq hN
  intro y hy
  have hyN : y < N := by
    rw [cwg_nodes M N hsq hN, List.mem_range] at hy
    exact hy
  have h0v : 0 ∈ (primFinal M).visited := by
    rw [hinv.shape]
    exact List.mem_cons_self _ _
  by_cases h0 : y = 0
  · rw [h0]
    exact h0v
  · by_contra hny
    have hnb : y ∈ (create_weighted_graph M).nbrs 0 :=
      cwg_nbrs_mem M N hsq 0 y (by omega) hyN h0
    obtain ⟨c, hc⟩ := hinv.fc 0 y h0v hny hnb
    rw [hfe] at hc
    exact absurd hc (by simp)

theorem primFinal_vis_len (M : Mat) (N : ℕ) (hsq : SquareSym M N) (hN : 2 ≤ N) :
    (primFinal M).visited.length = N := by
  obtain ⟨hinv, _⟩ := primFinal_inv M N hsq hN
  have hrn : (List.range N).Nodup := List.nodup_range N
  have h1 : (primFinal M).visited.length ≤ N := by
    have := nodup_len_le (primFinal M).visited (List.range N) hinv.nodup hrn ?_
    · rw [List.length_range] at this
      exact this
    · intro x hx
      rw [← cwg_nodes M N hsq hN]
      exact hinv.sub x hx
  have h2 : N ≤ (primFinal M).visited.length := by
    have := nodup_len_le (List.range N) (primFinal M).visited hrn hinv.nodup ?_
    · rw [List.length_range] at this
      exact this
    · intro x hx
      refine primFinal_visited M N hsq hN x ?_
      rw [cwg_nodes M N hsq hN]
      exact hx
  omega

theorem primFinal_mst_len (M : Mat) (N : ℕ) (hsq : SquareSym M N) (hN : 2 ≤ N) :
    (primFinal M).mst.length = N - 1 := by
  obtain ⟨hinv, _⟩ := primFinal_inv M N hsq hN
  have hlen := primFinal_vis_len M N hsq hN
  rw [hinv.shape] at hlen
  rw [List.length_cons, List.length_map] at hlen
  omega

/-- Structural properties of the spanning tree computed by
`nx.minimum_spanning_tree` on the complete weighted graph: it spans all
`N` vertices, has `N - 1` edges between distinct vertices carrying the
matrix weights, is connected, and every tree edge is a bridge
(cycle-freeness). -/
theorem mst_props (M : Mat) (N : ℕ) (hsq : SquareSym M N) (hN : 2 ≤ N) :
    (minimum_spanning_tree (create_weighted_graph M)).nodes = List.range N ∧
    (minimum_spanning_tree (create_weighted_graph M)).WF ∧
    (minimum_spanning_tree (create_weighted_graph M)).edges.length = N - 1 ∧
    (minimum_spanning_tree (create_weighted_graph M)).ConnG ∧
    (∀ e ∈ (minimum_spanning_tree (create_weighted_graph M)).edges,
      ¬ ReachMS (edgeMS ((minimum_spanning_tree (create_weighted_graph M)).edges.erase e))
        e.1 e.2.1) ∧
    (∀ e ∈ (minimum_spanning_tree (create_weighted_graph M)).edges,
      e.1 < N ∧ e.2.1 < N ∧ e.1 ≠ e.2.1 ∧ e.2.2 = wt M e.1 e.2.1) := by
  obtain ⟨hinv, hfe⟩ := primFinal_inv M N hsq hN
  have hTeq := mst_eq_primFinal M N hsq hN
  have hnodes : (minimum_spanning_tree (create_weighted_graph M)).nodes = List.range N := by
    rw [hTeq]
    exact cwg_nodes M N hsq hN
  have hedges : (minimum_spanning_tree (create_weighted_graph M)).edges
      = (primFinal M).mst := by
    rw [hTeq]
  have hbounds : ∀ e ∈ (primFinal M).mst,
      e.1 < N ∧ e.2.1 < N ∧ e.1 ≠ e.2.1 ∧ e.2.2 = wt M e.1 e.2.1 := by
    intro e he
    have hsrc := hinv.sub e.1 (hinv.src e he)
    have htgt := hinv.sub e.2.1 (PInv.tgt _ _ _ hinv e he)
    rw [cwg_nodes M N hsq hN, List.mem_range] at hsrc htgt
    have hadj := hinv.adj e he
    refine ⟨hsrc, htgt, hadj.2.2, ?_⟩
    rw [hadj.2.1]
    exact cwg_wt M N hsq hN e.1 e.2.1 hsrc htgt hadj.2.2
  refine ⟨hnodes, ?_, ?_, ?_, ?_, ?_⟩
  · refine ⟨?_, ?_, ?_⟩
    · rw [hnodes]
      exact List.nodup_range N
    · intro e he
      rw [hedges] at he
      have hb := hbounds e he
      rw [hnodes, List.mem_range, List.mem_range]
      exact ⟨hb.1, hb.2.1, hb.2.2.1⟩
    · rw [hedges]
      exact hinv.pw
  · rw [hedges]
    exact primFinal_mst_len M N hsq hN
  · constructor
    · rw [hnodes]
      intro hc
      have := List.length_range N
      rw [hc] at this
      simp at this
      omega
    · intro u hu v hv
      rw [hnodes] at hu hv
      rw [hedges]
      have hu2 : u ∈ (primFinal M).visited := by
        refine primFinal_visited M N hsq hN u ?_
        rw [cwg_nodes M N hsq hN]
        exact hu
      have hv2 : v ∈ (primFinal M).visited := by
        refine primFinal_visited M N hsq hN v ?_
        rw [cwg_nodes M N hsq hN]
        exact hv
      exact ReachMS_trans _ u 0 v
        (ReachMS_symm _ 0 u (hinv.conn u hu2)) (hinv.conn v hv2)
  · intro e he
    rw [hedges] at he ⊢
    exact hinv.bridge e he
  · intro e he
    rw [hedges] at he
    exact hbounds e he

/-! ## The exchange argument for spanning-tree minimality -/

theorem reach_nrm (B : Multiset (ℕ × ℕ)) (c v : ℕ) (h : ReachMS B c v) :
    ReachMS B (nrm (c, v)).1 (nrm (c, v)).2 := by
  rcases Nat.le_total c v with hle | hle
  · have heq : nrm (c, v) = (c, v) := by
      unfold nrm
      rw [Nat.min_eq_left hle, Nat.max_eq_right hle]
    rw [heq]
    exact h
  · have heq : nrm (c, v) = (v, c) := by
      unfold nrm
      rw [Nat.min_eq_right hle, Nat.max_eq_left hle]
    rw [heq]
    exact ReachMS_symm B c v h

/-- Splitting a walk at its uses of the pair `q`: either the walk avoids
`q` entirely, or it decomposes into `q`-free segments entering and leaving
at `q`'s endpoints. -/
theorem reach_erase_split (E : Multiset (ℕ × ℕ)) (q : ℕ × ℕ) :
    ∀ u w, ReachMS E u w →
      ReachMS (E.erase q) u w ∨
      (ReachMS (E.erase q) u q.1 ∧ ReachMS (E.erase q) q.2 w) ∨
      (ReachMS (E.erase q) u q.2 ∧ ReachMS (E.erase q) q.1 w) := by
  intro u w hr
  induction hr with
  | refl => exact Or.inl Relation.ReflTransGen.refl
  | tail hym hstep ih =>
      rename_i m b
      by_cases hq : (m, b) = q ∨ (b, m) = q
      · have hmb : (m = q.1 ∧ b = q.2) ∨ (m = q.2 ∧ b = q.1) := by
          rcases hq with h | h
          · exact Or.inl ⟨congrArg Prod.fst h, congrArg Prod.snd h⟩
          · exact Or.inr ⟨congrArg Prod.snd h, congrArg Prod.fst h⟩
        rcases hmb with ⟨hm, hb⟩ | ⟨hm, hb⟩
        · rcases ih with h1 | ⟨h2a, h2b⟩ | ⟨h3a, h3b⟩
          · refine Or.inr (Or.inl ⟨?_, ?_⟩)
            · rw [← hm]
              exact h1
            · rw [hb]
              exact Relation.ReflTransGen.refl
          · refine Or.inr (Or.inl ⟨h2a, ?_⟩)
            rw [hb]
            exact Relation.ReflTransGen.refl
          · refine Or.inl ?_
            rw [hb]
            exact h3a
        · rcases ih with h1 | ⟨h2a, h2b⟩ | ⟨h3a, h3b⟩
          · refine Or.inr (Or.inr ⟨?_, ?_⟩)
            · rw [← hm]
              exact h1
            · rw [hb]
              exact Relation.ReflTransGen.refl
          · refine Or.inl ?_
            rw [hb]
            exact h2a
          · refine Or.inr (Or.inr ⟨h3a, ?_⟩)
            rw [hb]
            exact Relation.ReflTransGen.refl
      · push_neg at hq
        have hstep2 : adjRel (E.erase q) m b := by
          rcases hstep with h | h
          · exact Or.inl ((Multiset.mem_erase_of_ne hq.1).mpr h)
          · exact Or.inr ((Multiset.mem_erase_of_ne hq.2).mpr h)
        rcases ih with h1 | ⟨h2a, h2b⟩ | ⟨h3a, h3b⟩
        · exact Or.inl (Relation.ReflTransGen.tail h1 hstep2)
        · exact Or.inr (Or.inl ⟨h2a, Relation.ReflTransGen.tail h2b hstep2⟩)
        · exact Or.inr (Or.inr ⟨h3a, Relation.ReflTransGen.tail h3b hstep2⟩)

/-- Crossing-edge exchange: if `a` inside the cut reaches `v` outside it
through `E`, some crossing pair `q` of `E` can be traded for the new pair
`{a, v}` while keeping `q`'s endpoints connected. -/
theorem exchange_step (V : List ℕ) :
    ∀ (n : ℕ) (E : Multiset (ℕ × ℕ)), Multiset.card E ≤ n →
      ∀ a v, a ∈ V → v ∉ V → ReachMS E a v →
        ∃ q ∈ E, ((q.1 ∈ V ∧ q.2 ∉ V) ∨ (q.1 ∉ V ∧ q.2 ∈ V)) ∧
          ReachMS (nrm (a, v) ::ₘ E.erase q) q.1 q.2 := by
  intro n
  induction n with
  | zero =>
      intro E hcard a v ha hv hr
      have hE : E = 0 := by
        have hc0 : Multiset.card E = 0 := by omega
        exact Multiset.card_eq_zero.mp hc0
      subst hE
      exfalso
      rcases Relation.ReflTransGen.cases_head hr with h | ⟨c, hstep, _⟩
      · exact hv (h ▸ ha)
      · rcases hstep with h | h <;> exact absurd h (by simp)
  | succ n ihn =>
      intro E hcard a v ha hv hr
      revert ha
      induction hr using Relation.ReflTransGen.head_induction_on with
      | refl => intro ha; exact absurd ha hv
      | head hstep htail ih =>
          rename_i a c
          intro ha
          by_cases hc : c ∈ V
          · obtain ⟨q, hqE, hcross, hreach⟩ := ih hc
            refine ⟨q, hqE, hcross, ?_⟩
            have hB : ReachMS (nrm (a, v) ::ₘ E.erase q) c v := by
              have hstep0 : adjRel (nrm (a, v) ::ₘ E.erase q) c a := by
                rcases hstep with h | h
                · have hne : (a, c) ≠ q := by
                    intro hcq
                    rcases hcross with ⟨hq1, hq2⟩ | ⟨hq1, hq2⟩
                    · apply hq2
                      rw [← hcq]
                      exact hc
                    · apply hq1
                      rw [← hcq]
                      exact ha
                  exact Or.inr (Multiset.mem_cons_of_mem
                    ((Multiset.mem_erase_of_ne hne).mpr h))
                · have hne : (c, a) ≠ q := by
                    intro hcq
                    rcases hcross with ⟨hq1, hq2⟩ | ⟨hq1, hq2⟩
                    · apply hq2
                      rw [← hcq]
                      exact ha
                    · apply hq1
                      rw [← hcq]
                      exact hc
                  exact Or.inl (Multiset.mem_cons_of_mem
                    ((Multiset.mem_erase_of_ne hne).mpr h))
              have hav : ReachMS (nrm (a, v) ::ₘ E.erase q) a v :=
                Relation.ReflTransGen.single (adj_nrm _ a v (Multiset.mem_cons_self _ _))
              exact ReachMS_trans _ c a v (Relation.ReflTransGen.single hstep0) hav
            refine reach_via (nrm (c, v) ::ₘ E.erase q) (nrm (a, v) ::ₘ E.erase q)
              ?_ q.1 q.2 hreach
            intro p hp
            rw [Multiset.mem_cons] at hp
            rcases hp with rfl | hp
            · exact reach_nrm _ c v hB
            · exact reach_single _ p (Multiset.mem_cons_of_mem hp)
          · rcases hstep with h | h
            · rcases reach_erase_split E (a, c) c v htail with hd | ⟨hd1, hd2⟩ | ⟨hd1, hd2⟩
              · refine ⟨(a, c), h, Or.inl ⟨ha, hc⟩, ?_⟩
                have h1 : ReachMS (nrm (a, v) ::ₘ E.erase (a, c)) a v :=
                  Relation.ReflTransGen.single (adj_nrm _ a v (Multiset.mem_cons_self _ _))
                have h2 : ReachMS (nrm (a, v) ::ₘ E.erase (a, c)) c v :=
                  reach_mem_mono _ _ (fun p hp => Multiset.mem_cons_of_mem hp) c v hd
                exact ReachMS_trans _ a v c h1 (ReachMS_symm _ c v h2)
              · have hav : ReachMS (E.erase (a, c)) a v :=
                  ReachMS_trans _ a c v (ReachMS_symm _ c a hd1) hd2
                have hcard2 : Multiset.card (E.erase (a, c)) ≤ n := by
                  rw [Multiset.card_erase_of_mem h, Nat.pred_eq_sub_one]
                  have hpos : 0 < Multiset.card E :=
                    Multiset.card_pos_iff_exists_mem.mpr ⟨_, h⟩
                  omega
                obtain ⟨q, hqE, hcross, hreach⟩ := ihn (E.erase (a, c)) hcard2 a v ha hv hav
                refine ⟨q, Multiset.mem_of_mem_erase hqE, hcross, ?_⟩
                refine reach_mem_mono _ _ ?_ q.1 q.2 hreach
                intro p hp
                rw [Multiset.mem_cons] at hp
                rcases hp with rfl | hp
                · exact Multiset.mem_cons_self _ _
                · refine Multiset.mem_cons_of_mem ?_
                  rw [Multiset.erase_comm] at hp
                  exact Multiset.mem_of_mem_erase hp
              · have hav : ReachMS (E.erase (a, c)) a v := hd2
                have hcard2 : Multiset.card (E.erase (a, c)) ≤ n := by
                  rw [Multiset.card_erase_of_mem h, Nat.pred_eq_sub_one]
                  have hpos : 0 < Multiset.card E :=
                    Multiset.card_pos_iff_exists_mem.mpr ⟨_, h⟩
                  omega
                obtain ⟨q, hqE, hcross, hreach⟩ := ihn (E.erase (a, c)) hcard2 a v ha hv hav
                refine ⟨q, Multiset.mem_of_mem_erase hqE, hcross, ?_⟩
                refine reach_mem_mono _ _ ?_ q.1 q.2 hreach
                intro p hp
                rw [Multiset.mem_cons] at hp
                rcases hp with rfl | hp
                · exact Multiset.mem_cons_self _ _
                · refine Multiset.mem_cons_of_mem ?_
                  rw [Multiset.erase_comm] at hp
                  exact Multiset.mem_of_mem_erase hp
            · rcases reach_erase_split E (c, a) c v htail with hd | ⟨hd1, hd2⟩ | ⟨hd1, hd2⟩
              · refine ⟨(c, a), h, Or.inr ⟨hc, ha⟩, ?_⟩
                have h1 : ReachMS (nrm (a, v) ::ₘ E.erase (c, a)) a v :=
                  Relation.ReflTransGen.single (adj_nrm _ a v (Multiset.mem_cons_self _ _))
                have h2 : ReachMS (nrm (a, v) ::ₘ E.erase (c, a)) c v :=
                  reach_mem_mono _ _ (fun p hp => Multiset.mem_cons_of_mem hp) c v hd
                exact ReachMS_trans _ c v a h2 (ReachMS_symm _ a v h1)
              · have hav : ReachMS (E.erase (c, a)) a v := hd2
                have hcard2 : Multiset.card (E.erase (c, a)) ≤ n := by
                  rw [Multiset.card_erase_of_mem h, Nat.pred_eq_sub_one]
                  have hpos : 0 < Multiset.card E :=
                    Multiset.card_pos_iff_exists_mem.mpr ⟨_, h⟩
                  omega
                obtain ⟨q, hqE, hcross, hreach⟩ := ihn (E.erase (c, a)) hcard2 a v ha hv hav
                refine ⟨q, Multiset.mem_of_mem_erase hqE, hcross, ?_⟩
                refine reach_mem_mono _ _ ?_ q.1 q.2 hreach
                intro p hp
                rw [Multiset.mem_cons] at hp
                rcases hp with rfl | hp
                · exact Multiset.mem_cons_self _ _
                · refine Multiset.mem_cons_of_mem ?_
                  rw [Multiset.erase_comm] at hp
                  exact Multiset.mem_of_mem_erase hp
              · have hav : ReachMS (E.erase (c, a)) a v :=
                  ReachMS_trans _ a c v (ReachMS_symm _ c a hd1) hd2
                have hcard2 : Multiset.card (E.erase (c, a)) ≤ n := by
                  rw [Multiset.card_erase_of_mem h, Nat.pred_eq_sub_one]
                  have hpos : 0 < Multiset.card E :=
                    Multiset.card_pos_iff_exists_mem.mpr ⟨_, h⟩
                  omega
                obtain ⟨q, hqE, hcross, hreach⟩ := ihn (E.erase (c, a)) hcard2 a v ha hv hav
                refine ⟨q, Multiset.mem_of_mem_erase hqE, hcross, ?_⟩
                refine reach_mem_mono _ _ ?_ q.1 q.2 hreach
                intro p hp
                rw [Multiset.mem_cons] at hp
                rcases hp with rfl | hp
                · exact Multiset.mem_cons_self _ _
                · refine Multiset.mem_cons_of_mem ?_
                  rw [Multiset.erase_comm] at hp
                  exact Multiset.mem_of_mem_erase hp

/-- A spanning tree of the complete graph on `{0..N-1}`, as a set of
increasing vertex pairs: `N - 1` edges connecting all the vertices. -/
def STree (N : ℕ) (S : Finset (ℕ × ℕ)) : Prop :=
  (∀ p ∈ S, p.1 < p.2 ∧ p.2 < N) ∧ S.card = N - 1 ∧
  (∀ u v : ℕ, u < N → v < N → ReachMS S.val u v)

/-- Total matrix weight of a set of vertex pairs. -/
def streeWt (M : Mat) (S : Finset (ℕ × ℕ)) : Weight := ∑ p ∈ S, wt M p.1 p.2

/-- The star tree rooted at vertex `0`. -/
def starList (N : ℕ) : List (ℕ × ℕ) := (List.range' 1 (N - 1)).map (fun j => (0, j))

theorem starList_nodup (N : ℕ) : (starList N).Nodup := by
  unfold starList
  refine List.Nodup.map ?_ (List.nodup_range' 1 (N - 1))
  intro a b hab
  rw [Prod.mk.injEq] at hab
  exact hab.2

theorem star_tree (N : ℕ) (hN : 2 ≤ N) : STree N (starList N).toFinset := by
  refine ⟨?_, ?_, ?_⟩
  · intro p hp
    rw [List.mem_toFinset] at hp
    unfold starList at hp
    rw [List.mem_map] at hp
    obtain ⟨j, hj, rfl⟩ := hp
    rw [List.mem_range'_1] at hj
    show 0 < j ∧ j < N
    omega
  · rw [List.toFinset_card_of_nodup (starList_nodup N)]
    unfold starList
    rw [List.length_map, List.length_range']
  · have hreach0 : ∀ u, u < N → ReachMS (starList N).toFinset.val 0 u := by
      intro u hu
      by_cases h0 : u = 0
      · rw [h0]
        exact Relation.ReflTransGen.refl
      · refine Relation.ReflTransGen.single (Or.inl ?_)
        show (0, u) ∈ (starList N).toFinset.val
        rw [← Finset.mem_def, List.mem_toFinset]
        unfold starList
        rw [List.mem_map]
        refine ⟨u, ?_, rfl⟩
        rw [List.mem_range'_1]
        omega
    intro u v hu hv
    exact ReachMS_trans _ u 0 v (ReachMS_symm _ 0 u (hreach0 u hu)) (hreach0 v hv)

theorem stree_exists_min (M : Mat) (N : ℕ) (hN : 2 ≤ N) :
    ∃ S : Finset (ℕ × ℕ), STree N S ∧ ∀ S2, STree N S2 → streeWt M S ≤ streeWt M S2 := by
  have hfin : {S : Finset (ℕ × ℕ) | STree N S}.Finite := by
    refine Set.Finite.subset (Finset.finite_toSet
      ((Finset.range N ×ˢ Finset.range N).powerset)) ?_
    intro S hS
    rw [Finset.mem_coe, Finset.mem_powerset]
    intro p hp
    have hb := hS.1 p hp
    rw [Finset.mem_product, Finset.mem_range, Finset.mem_range]
    exact ⟨by omega, by omega⟩
  have hne : {S : Finset (ℕ × ℕ) | STree N S}.Nonempty := ⟨_, star_tree N hN⟩
  obtain ⟨S, hS, hmin⟩ := Set.exists_min_image _ (streeWt M) hfin hne
  exact ⟨S, hS, fun S2 hS2 => hmin S2 hS2⟩

/-- The minimality invariant: the accepted tree pairs extend to some
minimum-weight spanning tree. -/
def MinInv (M : Mat) (N : ℕ) (mst : List (ℕ × ℕ × Weight)) : Prop :=
  ∃ S : Finset (ℕ × ℕ), STree N S ∧ (∀ S2, STree N S2 → streeWt M S ≤ streeWt M S2) ∧
    ∀ e ∈ mst, nrm (e.1, e.2.1) ∈ S

theorem nrm_inj_ne (a b c d : ℕ) (h : nrm (a, b) = nrm (c, d)) :
    (a = c ∧ b = d) ∨ (a = d ∧ b = c) := by
  unfold nrm at h
  rw [Prod.mk.injEq] at h
  rcases Nat.le_total a b with h1 | h1
  · rw [Nat.min_eq_left h1, Nat.max_eq_right h1] at h
    rcases Nat.le_total c d with h2 | h2
    · rw [Nat.min_eq_left h2, Nat.max_eq_right h2] at h
      exact Or.inl ⟨h.1, h.2⟩
    · rw [Nat.min_eq_right h2, Nat.max_eq_left h2] at h
      exact Or.inr ⟨h.1, h.2⟩
  · rw [Nat.min_eq_right h1, Nat.max_eq_left h1] at h
    rcases Nat.le_total c d with h2 | h2
    · rw [Nat.min_eq_left h2, Nat.max_eq_right h2] at h
      exact Or.inr ⟨h.2, h.1⟩
    · rw [Nat.min_eq_right h2, Nat.max_eq_left h2] at h
      exact Or.inl ⟨h.2, h.1⟩

theorem wt_nrm (M : Mat) (N : ℕ) (hsq : SquareSym M N) (x v : ℕ)
    (hx : x < N) (hv : v < N) :
    wt M (nrm (x, v)).1 (nrm (x, v)).2 = wt M x v := by
  rcases Nat.le_total x v with hle | hle
  · have heq : nrm (x, v) = (x, v) := by
      unfold nrm
      rw [Nat.min_eq_left hle, Nat.max_eq_right hle]
    rw [heq]
  · have heq : nrm (x, v) = (v, x) := by
      unfold nrm
      rw [Nat.min_eq_right hle, Nat.max_eq_left hle]
    rw [heq]
    exact hsq.2.2.2.2 v hv x hx

theorem MinInv_accept (M : Mat) (N : ℕ) (hsq : SquareSym M N) (hN : 2 ≤ N)
    (s : PrimState) (e : Weight × ℕ × ℕ × ℕ) (rest : List (Weight × ℕ × ℕ × ℕ))
    (hinv : PInv (create_weighted_graph M) 0 s)
    (hpop : popMin s.frontier = some (e, rest)) (hv : e.2.2.2 ∉ s.visited)
    (hmin : MinInv M N s.mst) :
    MinInv M N (s.mst ++ [(e.2.2.1, e.2.2.2, e.1)]) := by
  have hps := popMin_spec s.frontier e rest hpop
  obtain ⟨hx, hynb, hwt⟩ := hinv.fs e hps.1
  have hxN : e.2.2.1 < N := by
    have hh := hinv.sub _ hx
    rw [cwg_nodes M N hsq hN, List.mem_range] at hh
    exact hh
  have hvN : e.2.2.2 < N := (cwg_nbrs_bound M N hsq _ _ hynb).1
  have hxv : e.2.2.1 ≠ e.2.2.2 := fun hc => hv (hc ▸ hx)
  have hWle : ∀ y z, y ∈ s.visited → z < N → z ∉ s.visited →
      wt M e.2.2.1 e.2.2.2 ≤ wt M y z := by
    intro y z hy hzN hz
    have hyN : y < N := by
      have hh := hinv.sub _ hy
      rw [cwg_nodes M N hsq hN, List.mem_range] at hh
      exact hh
    have hyz : z ≠ y := fun hc => hz (hc ▸ hy)
    have hnb : z ∈ (create_weighted_graph M).nbrs y := cwg_nbrs_mem M N hsq y z hyN hzN hyz
    obtain ⟨c, hc⟩ := hinv.fc y z hy hz hnb
    have hle := hps.2.2.2 _ hc
    rw [hwt] at hle
    have h1 : (create_weighted_graph M).wt e.2.2.1 e.2.2.2 = wt M e.2.2.1 e.2.2.2 :=
      cwg_wt M N hsq hN _ _ hxN hvN hxv
    have h2 : (create_weighted_graph M).wt y z = wt M y z :=
      cwg_wt M N hsq hN y z hyN hzN (fun hc2 => hyz hc2.symm)
    rw [h1, h2] at hle
    exact hle
  obtain ⟨S, hS, hSmin, hsub⟩ := hmin
  by_cases hmem : nrm (e.2.2.1, e.2.2.2) ∈ S
  · refine ⟨S, hS, hSmin, ?_⟩
    intro f hf
    rcases List.mem_append.mp hf with hf | hf
    · exact hsub f hf
    · rw [List.mem_singleton] at hf
      rw [hf]
      exact hmem
  · have hreachS : ReachMS S.val e.2.2.1 e.2.2.2 := hS.2.2 _ _ hxN hvN
    obtain ⟨q, hqSv, hcross, hqreach⟩ := exchange_step s.visited (Multiset.card S.val)
      S.val (le_refl _) e.2.2.1 e.2.2.2 hx hv hreachS
    have hqS : q ∈ S := Finset.mem_def.mpr hqSv
    have hq12 := hS.1 q hqS
    have hnot : nrm (e.2.2.1, e.2.2.2) ∉ S.erase q :=
      fun hc => hmem (Finset.mem_of_mem_erase hc)
    have hval : (insert (nrm (e.2.2.1, e.2.2.2)) (S.erase q)).val
        = nrm (e.2.2.1, e.2.2.2) ::ₘ S.val.erase q := by
      rw [Finset.insert_val_of_not_mem hnot, Finset.erase_val]
    have hnrm1 : (nrm (e.2.2.1, e.2.2.2)).1 < (nrm (e.2.2.1, e.2.2.2)).2 := by
      show min e.2.2.1 e.2.2.2 < max e.2.2.1 e.2.2.2
      rcases Nat.lt_or_ge e.2.2.1 e.2.2.2 with h | h
      · rw [Nat.min_eq_left (by omega), Nat.max_eq_right (by omega)]
        omega
      · have hlt : e.2.2.2 < e.2.2.1 := by omega
        rw [Nat.min_eq_right (by omega), Nat.max_eq_left (by omega)]
        omega
    have hnrm2 : (nrm (e.2.2.1, e.2.2.2)).2 < N := by
      show max e.2.2.1 e.2.2.2 < N
      rcases max_mem_pair e.2.2.1 e.2.2.2 with h | h <;> rw [h] <;> omega
    have hwle : wt M (nrm (e.2.2.1, e.2.2.2)).1 (nrm (e.2.2.1, e.2.2.2)).2
        ≤ wt M q.1 q.2 := by
      rw [wt_nrm M N hsq _ _ hxN hvN]
      rcases hcross with ⟨hq1, hq2⟩ | ⟨hq1, hq2⟩
      · exact hWle q.1 q.2 hq1 hq12.2 hq2
      · have hle2 := hWle q.2 q.1 hq2 (by omega) hq1
        have hsym : wt M q.2 q.1 = wt M q.1 q.2 :=
          hsq.2.2.2.2 q.2 hq12.2 q.1 (by omega)
        rw [hsym] at hle2
        exact hle2
    have hS2 : STree N (insert (nrm (e.2.2.1, e.2.2.2)) (S.erase q)) := by
      refine ⟨?_, ?_, ?_⟩
      · intro p hp
        rcases Finset.mem_insert.mp hp with rfl | hp
        · exact ⟨hnrm1, hnrm2⟩
        · exact hS.1 p (Finset.mem_of_mem_erase hp)
      · rw [Finset.card_insert_of_not_mem hnot, Finset.card_erase_of_mem hqS, hS.2.1]
        omega
      · intro u v hu hv2
        refine reach_via S.val _ ?_ u v (hS.2.2 u v hu hv2)
        intro p hp
        rw [hval]
        by_cases hpq : p = q
        · rw [hpq]
          exact hqreach
        · refine reach_single _ p (Multiset.mem_cons_of_mem ?_)
          exact (Multiset.mem_erase_of_ne hpq).mpr hp
    have hwt2 : streeWt M (insert (nrm (e.2.2.1, e.2.2.2)) (S.erase q)) ≤ streeWt M S := by
      unfold streeWt
      rw [Finset.sum_insert hnot]
      have hback := Finset.sum_erase_add S (fun p => wt M p.1 p.2) hqS
      have := hwle
      linarith
    refine ⟨insert (nrm (e.2.2.1, e.2.2.2)) (S.erase q), hS2, ?_, ?_⟩
    · intro S2 hS2t
      exact le_trans hwt2 (hSmin S2 hS2t)
    · intro f hf
      rcases List.mem_append.mp hf with hf | hf
      · have hfS := hsub f hf
        have hfvis1 : f.1 ∈ s.visited := hinv.src f hf
        have hfvis2 : f.2.1 ∈ s.visited := PInv.tgt _ _ _ hinv f hf
        have hne : nrm (f.1, f.2.1) ≠ q := by
          intro hc
          have hc1 : (nrm (f.1, f.2.1)).1 ∈ s.visited := by
            show min f.1 f.2.1 ∈ s.visited
            rcases min_mem_pair f.1 f.2.1 with h | h <;> rw [h]
            · exact hfvis1
            · exact hfvis2
          have hc2 : (nrm (f.1, f.2.1)).2 ∈ s.visited := by
            show max f.1 f.2.1 ∈ s.visited
            rcases max_mem_pair f.1 f.2.1 with h | h <;> rw [h]
            · exact hfvis1
            · exact hfvis2
          rcases hcross with ⟨hq1, hq2⟩ | ⟨hq1, hq2⟩
          · exact hq2 (hc ▸ hc2)
          · exact hq1 (hc ▸ hc1)
        exact Finset.mem_insert_of_mem (Finset.mem_erase.mpr ⟨hne, hfS⟩)
      · rw [List.mem_singleton] at hf
        rw [hf]
        exact Finset.mem_insert_self _ _

theorem primLoop_min (M : Mat) (N : ℕ) (hsq : SquareSym M N) (hN : 2 ≤ N) :
    ∀ (fuel : ℕ) (s : PrimState), PInv (create_weighted_graph M) 0 s →
      MinInv M N s.mst →
      MinInv M N (primLoop (create_weighted_graph M) fuel s).mst := by
  intro fuel
  induction fuel with
  | zero => intro s _ hm; exact hm
  | succ fuel ih =>
      intro s hinv hm
      rcases hpop : popMin s.frontier with _ | ⟨e, rest⟩
      · rw [primLoop_none_eq _ fuel s hpop]
        exact hm
      · by_cases hv : e.2.2.2 ∈ s.visited
        · rw [primLoop_skip_eq _ fuel s e rest hpop hv]
          exact ih _ (PInv_skip _ 0 s e rest hinv hpop hv) hm
        · rw [primLoop_accept_eq _ fuel s e rest hpop hv]
          refine ih _ (PInv_accept _ 0 (cwg_WF M N hsq hN) s e rest hinv hpop hv) ?_
          exact MinInv_accept M N hsq hN s e rest hinv hpop hv hm

theorem mst_minimal (M : Mat) (N : ℕ) (hsq : SquareSym M N) (hN : 2 ≤ N) :
    ∀ S2, STree N S2 →
      ((minimum_spanning_tree (create_weighted_graph M)).edges.map (fun e => e.2.2)).sum
        ≤ streeWt M S2 := by
  intro S2 hS2
  obtain ⟨hinv, hfe⟩ := primFinal_inv M N hsq hN
  obtain ⟨S0, hS0, hS0min⟩ := stree_exists_min M N hN
  have hmin0 : MinInv M N ([] : List (ℕ × ℕ × Weight)) :=
    ⟨S0, hS0, hS0min, fun e he => absurd he (by simp)⟩
  have hminF : MinInv M N (primFinal M).mst := by
    unfold primFinal
    exact primLoop_min M N hsq hN _ _ (PInv_init M N hsq hN) hmin0
  obtain ⟨S, hS, hSmin, hsub⟩ := hminF
  have hprops := mst_props M N hsq hN
  have hedges : (minimum_spanning_tree (create_weighted_graph M)).edges
      = (primFinal M).mst := by
    rw [mst_eq_primFinal M N hsq hN]
  have hb := hprops.2.2.2.2.2
  have hnd : ((primFinal M).mst.map (fun e => nrm (e.1, e.2.1))).Nodup := by
    show List.Pairwise (fun p q : ℕ × ℕ => p ≠ q) _
    rw [List.pairwise_map]
    refine hinv.pw.imp ?_
    intro f g hd hc
    rcases nrm_inj_ne f.1 f.2.1 g.1 g.2.1 hc with ⟨h1, h2⟩ | ⟨h1, h2⟩
    · exact hd (Or.inl ⟨h1, h2⟩)
    · exact hd (Or.inr ⟨h1, h2⟩)
  have hlenp : ((primFinal M).mst.map (fun e => nrm (e.1, e.2.1))).length = N - 1 := by
    rw [List.length_map]
    exact primFinal_mst_len M N hsq hN
  have hsubF : ((primFinal M).mst.map (fun e => nrm (e.1, e.2.1))).toFinset ⊆ S := by
    intro p hp
    rw [List.mem_toFinset, List.mem_map] at hp
    obtain ⟨f, hf, rfl⟩ := hp
    exact hsub f hf
  have hSeq : ((primFinal M).mst.map (fun e => nrm (e.1, e.2.1))).toFinset = S := by
    refine Finset.eq_of_subset_of_card_le hsubF ?_
    rw [List.toFinset_card_of_nodup hnd, hlenp, hS.2.1]
  have hwsum : ((minimum_spanning_tree (create_weighted_graph M)).edges.map
      (fun e => e.2.2)).sum = streeWt M S := by
    rw [hedges]
    have hmapeq : (primFinal M).mst.map (fun e => e.2.2)
        = ((primFinal M).mst.map (fun e => nrm (e.1, e.2.1))).map
            (fun p => wt M p.1 p.2) := by
      rw [List.map_map]
      refine List.map_congr_left ?_
      intro f hf
      have hbf := hb f (by rw [hedges]; exact hf)
      show f.2.2 = wt M (nrm (f.1, f.2.1)).1 (nrm (f.1, f.2.1)).2
      rw [wt_nrm M N hsq f.1 f.2.1 hbf.1 hbf.2.1]
      exact hbf.2.2.2
    rw [hmapeq]
    rw [← List.sum_toFinset _ hnd, hSeq]
    rfl
  rw [hwsum]
  exact hSmin S2 hS2

/-! ## Claim C7 -/

/-- Heap minimum under the tie-break rule as WORDED by the specification
("lowest destination-vertex index" on weight ties); written only to be
compared against the embedding of the library's actual rule (push-counter
order). -/
def heapMinTie (x y : Weight × ℕ × ℕ × ℕ) : Weight × ℕ × ℕ × ℕ :=
  if y.1 < x.1 ∨ (y.1 = x.1 ∧ y.2.2.2 < x.2.2.2) then y else x

/-- `popMin` under the specification's tie-break rule. -/
def popMinTie (f : List (Weight × ℕ × ℕ × ℕ)) :
    Option ((Weight × ℕ × ℕ × ℕ) × List (Weight × ℕ × ℕ × ℕ)) :=
  match f with
  | [] => none
  | x :: rest =>
      let m := rest.foldl heapMinTie x
      some (m, f.erase m)

/-- The Prim loop under the specification's tie-break rule. -/
def primLoopTie (G : Graph) : ℕ → PrimState → PrimState
  | 0, s => s
  | fuel + 1, s =>
      match popMinTie s.frontier with
      | none => s
      | some (e, rest) =>
          let v := e.2.2.2
          if v ∈ s.visited then primLoopTie G fuel ⟨rest, s.visited, s.mst, s.ctr⟩
          else
            let p := pushNbrs G v (s.visited ++ [v]) rest s.ctr
            primLoopTie G fuel ⟨p.1, s.visited ++ [v], s.mst ++ [(e.2.2.1, v, e.1)], p.2⟩

/-- The whole spanning-tree computation under the specification's
tie-break rule. -/
def minimum_spanning_treeTie (G : Graph) : Graph :=
  match G.nodes with
  | [] => ⟨G.nodes, []⟩
  | u :: _ =>
      let init := pushNbrs G u [u] [] 0
      let s := primLoopTie G (G.nodes.length * G.nodes.length + G.nodes.length + 1)
        ⟨init.1, [u], [], init.2⟩
      ⟨G.nodes, s.mst⟩

/-- A symmetric instance on four vertices with a weight tie (both
remaining candidate edges of weight 5 after vertex 1 is taken). -/
def M4 : Mat := [[none, some 1, some 9, some 5],
                 [some 1, none, some 5, some 9],
                 [some 9, some 5, none, some 2],
                 [some 5, some 9, some 2, none]]

/-- C7 (amended): on every symmetric cost matrix of finite weights with
`N ≥ 2`, the spanning tree handed to both pipelines spans all `N`
vertices in order, has exactly `N - 1` well-formed edges carrying the
matrix weights, is connected, every tree edge is a bridge (so the tree is
cycle-free), and its total weight is minimal among all spanning trees of
the complete graph.  (Determinism holds because the embedding is a pure
function of the matrix; the tie-break clause of the original claim is
refuted separately: the library breaks weight ties by heap push order,
not by lowest destination index.) -/
theorem claim_C7 (M : Mat) (N : ℕ) (hsq : SquareSym M N) (hN : 2 ≤ N) :
    (minimum_spanning_tree (create_weighted_graph M)).nodes = List.range N ∧
    (minimum_spanning_tree (create_weighted_graph M)).edges.length = N - 1 ∧
    (minimum_spanning_tree (create_weighted_graph M)).WF ∧
    (minimum_spanning_tree (create_weighted_graph M)).ConnG ∧
    (∀ e ∈ (minimum_spanning_tree (create_weighted_graph M)).edges,
      e.1 < N ∧ e.2.1 < N ∧ e.1 ≠ e.2.1 ∧ e.2.2 = wt M e.1 e.2.1) ∧
    (∀ e ∈ (minimum_spanning_tree (create_weighted_graph M)).edges,
      ¬ ReachMS (edgeMS ((minimum_spanning_tree (create_weighted_graph M)).edges.erase e))
        e.1 e.2.1) ∧
    (∀ S, STree N S →
      ((minimum_spanning_tree (create_weighted_graph M)).edges.map (fun e => e.2.2)).sum
        ≤ streeWt M S) := by
  have hp := mst_props M N hsq hN
  exact ⟨hp.1, hp.2.2.1, hp.2.1, hp.2.2.2.1, hp.2.2.2.2.2, hp.2.2.2.2.1,
    mst_minimal M N hsq hN⟩

theorem claim_C7_witness :
    SquareSym M4 4 ∧ 2 ≤ 4 ∧
    ((minimum_spanning_tree (create_weighted_graph M4)).nodes = List.range 4 ∧
    (minimum_spanning_tree (create_weighted_graph M4)).edges.length = 4 - 1 ∧
    (minimum_spanning_tree (create_weighted_graph M4)).WF ∧
    (minimum_spanning_tree (create_weighted_graph M4)).ConnG ∧
    (∀ e ∈ (minimum_spanning_tree (create_weighted_graph M4)).edges,
      e.1 < 4 ∧ e.2.1 < 4 ∧ e.1 ≠ e.2.1 ∧ e.2.2 = wt M4 e.1 e.2.1) ∧
    (∀ e ∈ (minimum_spanning_tree (create_weighted_graph M4)).edges,
      ¬ ReachMS (edgeMS ((minimum_spanning_tree (create_weighted_graph M4)).edges.erase e))
        e.1 e.2.1) ∧
    (∀ S, STree 4 S →
      ((minimum_spanning_tree (create_weighted_graph M4)).edges.map (fun e => e.2.2)).sum
        ≤ streeWt M4 S)) :=
  ⟨by decide, by decide, claim_C7 M4 4 (by decide) (by decide)⟩

/-- C7 counterexample (against the tie-break clause of the original
claim): on `M4` the tree computed by the library's rule keeps edge
`(0, 3)` while the specification's lowest-destination rule would keep
`(1, 2)` instead; the two trees differ. -/
theorem claim_C7_counterexample :
    SquareSym M4 4 ∧
    (minimum_spanning_tree (create_weighted_graph M4)).edges.map (fun e => (e.1, e.2.1))
      = [(0, 1), (0, 3), (3, 2)] ∧
    (minimum_spanning_treeTie (create_weighted_graph M4)).edges.map (fun e => (e.1, e.2.1))
      = [(0, 1), (1, 2), (2, 3)] ∧
    minimum_spanning_tree (create_weighted_graph M4)
      ≠ minimum_spanning_treeTie (create_weighted_graph M4) := by
  refine ⟨by decide, by decide, by decide, by decide⟩

/-! ## Claim C1: shape of the emitted route -/

theorem fo_split : ∀ (P acc : List ℕ), ∃ Q, firstOccs P acc = acc ++ Q ∧ Q.Sublist P := by
  intro P
  induction P with
  | nil => intro acc; exact ⟨[], by simp [firstOccs], List.Sublist.refl []⟩
  | cons v rest ih =>
      intro acc
      unfold firstOccs
      by_cases hv : v ∈ acc
      · rw [if_pos hv]
        obtain ⟨Q, hQ, hs⟩ := ih acc
        exact ⟨Q, hQ, hs.cons v⟩
      · rw [if_neg hv]
        obtain ⟨Q, hQ, hs⟩ := ih (acc ++ [v])
        refine ⟨v :: Q, ?_, hs.cons₂ v⟩
        rw [hQ, List.append_assoc]
        rfl

theorem fo_mem : ∀ (P acc : List ℕ) (x : ℕ),
    x ∈ firstOccs P acc ↔ x ∈ acc ∨ x ∈ P := by
  intro P
  induction P with
  | nil => intro acc x; simp [firstOccs]
  | cons v rest ih =>
      intro acc x
      unfold firstOccs
      by_cases hv : v ∈ acc
      · rw [if_pos hv, ih]
        constructor
        · rintro (h | h)
          · exact Or.inl h
          · exact Or.inr (List.mem_cons_of_mem v h)
        · rintro (h | h)
          · exact Or.inl h
          · rcases List.mem_cons.mp h with rfl | h2
            · exact Or.inl hv
            · exact Or.inr h2
      · rw [if_neg hv, ih]
        constructor
        · rintro (h | h)
          · rcases List.mem_append.mp h with h2 | h2
            · exact Or.inl h2
            · rw [List.mem_singleton] at h2
              exact Or.inr (h2 ▸ List.mem_cons_self v rest)
          · exact Or.inr (List.mem_cons_of_mem v h)
        · rintro (h | h)
          · exact Or.inl (List.mem_append.mpr (Or.inl h))
          · rcases List.mem_cons.mp h with rfl | h2
            · exact Or.inl (List.mem_append.mpr (Or.inr (by simp)))
            · exact Or.inr h2

theorem fo_nodup : ∀ (P acc : List ℕ), acc.Nodup → (firstOccs P acc).Nodup := by
  intro P
  induction P with
  | nil => intro acc h; exact h
  | cons v rest ih =>
      intro acc h
      unfold firstOccs
      by_cases hv : v ∈ acc
      · rw [if_pos hv]
        exact ih acc h
      · rw [if_neg hv]
        refine ih (acc ++ [v]) ?_
        rw [List.nodup_append]
        exact ⟨h, by simp, by simp [hv]⟩

theorem fo_head (P : List ℕ) (hP : P ≠ []) : (firstOccs P []).head? = P.head? := by
  cases P with
  | nil => exact absurd rfl hP
  | cons v rest =>
      show (firstOccs rest [v]).head? = some v
      obtain ⟨Q, hQ, _⟩ := fo_split rest [v]
      rw [hQ]
      rfl

theorem msDeg_pos_endpoint (S : Multiset (ℕ × ℕ)) (z : ℕ) (h : 0 < msDeg S z) :
    ∃ q ∈ S, q.1 = z ∨ q.2 = z := by
  induction S using Multiset.induction_on with
  | empty => rw [msDeg_zero] at h; omega
  | cons p S ih =>
      rw [msDeg_cons] at h
      by_cases hp : p.1 = z ∨ p.2 = z
      · exact ⟨p, Multiset.mem_cons_self p S, hp⟩
      · push_neg at hp
        have hpd : pairDeg p z = 0 := by
          unfold pairDeg
          rw [if_neg hp.1, if_neg hp.2]
        rw [hpd] at h
        obtain ⟨q, hq, hqz⟩ := ih (by omega)
        exact ⟨q, Multiset.mem_cons_of_mem hq, hqz⟩

theorem mem_walk_pair : ∀ (L : List ℕ) (z : ℕ), z ∈ L → 2 ≤ L.length →
    ∃ q ∈ walkMS L, q.1 = z ∨ q.2 = z := by
  intro L
  induction L with
  | nil => intro z hz; exact absurd hz (by simp)
  | cons a L ih =>
      intro z hz hlen
      cases L with
      | nil => simp at hlen
      | cons b rest =>
          have hq0 : nrm (a, b) ∈ walkMS (a :: b :: rest) := by
            rw [walkMS_cons_cons]
            exact Multiset.mem_cons_self _ _
          have hends : (nrm (a, b)).1 = a ∨ (nrm (a, b)).1 = b := by
            show min a b = a ∨ min a b = b
            exact min_mem_pair a b
          have hends2 : (nrm (a, b)).2 = a ∨ (nrm (a, b)).2 = b := by
            show max a b = a ∨ max a b = b
            exact max_mem_pair a b
          rcases List.mem_cons.mp hz with rfl | hz2
          · refine ⟨nrm (z, b), hq0, ?_⟩
            rcases Nat.le_total z b with h | h
            · left
              show min z b = z
              omega
            · right
              show max z b = z
              omega
          · by_cases hrest : 2 ≤ (b :: rest).length
            · obtain ⟨q, hq, hqz⟩ := ih z hz2 hrest
              refine ⟨q, ?_, hqz⟩
              rw [walkMS_cons_cons]
              exact Multiset.mem_cons_of_mem hq
            · have hr0 : rest = [] := by
                cases rest with
                | nil => rfl
                | cons c r2 => simp at hrest
              subst hr0
              rw [List.mem_singleton] at hz2
              subst hz2
              refine ⟨nrm (a, z), hq0, ?_⟩
              rcases Nat.le_total a z with h | h
              · right
                show max a z = z
                omega
              · left
                show min a z = z
                omega

/-- Shape of the Hamilton route obtained from an Eulerian multigraph
covering exactly the vertices `0..N-1`. -/
theorem pipeline_shape (D : MGraph) (start N : ℕ) (hWF : D.WF)
    (hconn : D.ConnectedAbs) (heven : D.EvenAbs) (hE : 1 ≤ D.edges.length)
    (hstart : start ∈ D.nodes)
    (hbound : ∀ q ∈ edgeMS D.edges, q.1 < N ∧ q.2 < N)
    (hcover : ∀ z, z < N → 0 < msDeg (edgeMS D.edges) z) :
    ∃ P, create_eulerian_path D start = some P ∧
      (create_hamiltonian_path P).length = N + 1 ∧
      (create_hamiltonian_path P).head? = some start ∧
      (create_hamiltonian_path P).getLast? = some start ∧
      (create_hamiltonian_path P).dropLast.Perm (List.range N) := by
  obtain ⟨P, hsome, hlen, hhd, hlast, hms⟩ :=
    create_eulerian_path_spec D start hWF hconn heven hE hstart
  have hPne : P ≠ [] := by
    intro hc
    rw [hc] at hlen
    simp at hlen
  have hP2 : 2 ≤ P.length := by omega
  have hmemP : ∀ z, z < N ↔ z ∈ P := by
    intro z
    constructor
    · intro hzN
      obtain ⟨q, hq, hqz⟩ := msDeg_pos_endpoint (edgeMS D.edges) z (hcover z hzN)
      rw [← hms] at hq
      have hqmem := walkMS_mem_left P q hq
      rcases hqz with h | h
      · exact h ▸ hqmem.1
      · exact h ▸ hqmem.2
    · intro hzP
      obtain ⟨q, hq, hqz⟩ := mem_walk_pair P z hzP hP2
      rw [hms] at hq
      have hb := hbound q hq
      rcases hqz with h | h
      · omega
      · omega
  have hfo_nodup := fo_nodup P [] (by simp)
  have hfo_mem : ∀ x, x ∈ firstOccs P [] ↔ x ∈ List.range N := by
    intro x
    rw [fo_mem, List.mem_range]
    constructor
    · rintro (h | h)
      · exact absurd h (by simp)
      · exact (hmemP x).mpr h
    · intro h
      exact Or.inr ((hmemP x).mp h)
  have hperm : (firstOccs P []).Perm (List.range N) := by
    refine List.perm_of_nodup_nodup_toFinset_eq hfo_nodup (List.nodup_range N) ?_
    refine Finset.ext ?_
    intro x
    rw [List.mem_toFinset, List.mem_toFinset]
    exact hfo_mem x
  have hfolen : (firstOccs P []).length = N := by
    rw [hperm.length_eq, List.length_range]
  have hheadD : P.headD 0 = start := by
    cases P with
    | nil => exact absurd rfl hPne
    | cons a L =>
        have : a = start := by
          rw [List.head?_cons, Option.some.injEq] at hhd
          exact hhd
        rw [← this]
        rfl
  refine ⟨P, hsome, ?_, ?_, ?_, ?_⟩
  · unfold create_hamiltonian_path
    rw [List.length_append, hfolen]
    simp
  · unfold create_hamiltonian_path
    have hfh : (firstOccs P []).head? = some start := by
      rw [fo_head P hPne]
      exact hhd
    exact head?_append_of_ne_nil (firstOccs P []) [P.headD 0] start hfh
  · unfold create_hamiltonian_path
    rw [hheadD]
    exact List.getLast?_concat _
  · unfold create_hamiltonian_path
    rw [List.dropLast_concat]
    exact hperm

theorem dup_edges_len (T : Graph) (hWF : T.WF) :
    (duplicate_weighted_graph T).edges.length = 2 * T.edges.length := by
  rw [duplicate_edges]
  unfold dupList
  rw [List.length_flatMap]
  have hmap : T.nodes.map (fun v => ((T.nbrs v).map (fun w => (v, w, T.wt v w))).length)
      = T.nodes.map (fun v => T.degree v) := by
    refine List.map_congr_left ?_
    intro v _
    rw [List.length_map]
    rfl
  have hcomp : T.nodes.map (List.length ∘ fun v => (T.nbrs v).map (fun w => (v, w, T.wt v w)))
      = T.nodes.map (fun v => ((T.nbrs v).map (fun w => (v, w, T.wt v w))).length) := rfl
  rw [hcomp, hmap, handshake_simple T hWF]

theorem edgeMS_bound (E : List (ℕ × ℕ × Weight)) (N : ℕ)
    (h : ∀ e ∈ E, e.1 < N ∧ e.2.1 < N) :
    ∀ q ∈ edgeMS E, q.1 < N ∧ q.2 < N := by
  intro q hq
  unfold edgeMS at hq
  rw [Multiset.mem_coe, List.mem_map] at hq
  obtain ⟨e, he, rfl⟩ := hq
  have hb := h e he
  constructor
  · show min e.1 e.2.1 < N
    rcases min_mem_pair e.1 e.2.1 with heq | heq <;> rw [heq] <;> omega
  · show max e.1 e.2.1 < N
    rcases max_mem_pair e.1 e.2.1 with heq | heq <;> rw [heq] <;> omega

theorem dta_shape (M : Mat) (N start : ℕ) (hsq : SquareSym M N) (hN : 2 ≤ N)
    (hstart : start < N) :
    ∃ r, double_tree_algorithm M start = some r ∧ r.length = N + 1 ∧
      r.head? = some start ∧ r.getLast? = some start ∧
      r.dropLast.Perm (List.range N) := by
  have hp := mst_props M N hsq hN
  obtain ⟨hnodes, hWF, hlen, hconn, hbridge, hb⟩ := hp
  have hne : (minimum_spanning_tree (create_weighted_graph M)).edges ≠ [] := by
    intro hc
    rw [hc] at hlen
    simp at hlen
    omega
  have hdeg1 : ∀ v ∈ (minimum_spanning_tree (create_weighted_graph M)).nodes,
      1 ≤ (minimum_spanning_tree (create_weighted_graph M)).degree v :=
    conn_pos_degree _ hWF hconn hne
  have hWFD := dup_WF (minimum_spanning_tree (create_weighted_graph M))
  have hconnD := dup_connected _ hWF hconn hne
  have hevenD : (duplicate_weighted_graph (minimum_spanning_tree
      (create_weighted_graph M))).EvenAbs := by
    intro v _
    rw [dup_degree _ hWF v]
    omega
  have hED : 1 ≤ (duplicate_weighted_graph (minimum_spanning_tree
      (create_weighted_graph M))).edges.length := by
    rw [dup_edges_len _ hWF]
    omega
  have hstartD : start ∈ (duplicate_weighted_graph (minimum_spanning_tree
      (create_weighted_graph M))).nodes := by
    rw [dup_nodes_iff _ hWF]
    have hsn : start ∈ (minimum_spanning_tree (create_weighted_graph M)).nodes := by
      rw [hnodes, List.mem_range]
      exact hstart
    exact ⟨hsn, hdeg1 start hsn⟩
  have hboundD : ∀ q ∈ edgeMS (duplicate_weighted_graph (minimum_spanning_tree
      (create_weighted_graph M))).edges, q.1 < N ∧ q.2 < N := by
    rw [duplicate_edges]
    refine edgeMS_bound _ N ?_
    intro e he
    unfold dupList at he
    rw [List.mem_flatMap] at he
    obtain ⟨v, hv, he2⟩ := he
    rw [List.mem_map] at he2
    obtain ⟨w, hw, rfl⟩ := he2
    have hvN : v < N := by
      rw [hnodes, List.mem_range] at hv
      exact hv
    have hwN : w < N := by
      have hwn := nbrs_sub_nodes _ hWF v w hw
      rw [hnodes, List.mem_range] at hwn
      exact hwn
    exact ⟨hvN, hwN⟩
  have hcoverD : ∀ z, z < N →
      0 < msDeg (edgeMS (duplicate_weighted_graph (minimum_spanning_tree
        (create_weighted_graph M))).edges) z := by
    intro z hz
    have hzn : z ∈ (minimum_spanning_tree (create_weighted_graph M)).nodes := by
      rw [hnodes, List.mem_range]
      exact hz
    have h1 := hdeg1 z hzn
    have h2 := dup_degree _ hWF z
    have h3 := degree_eq_msDeg (duplicate_weighted_graph (minimum_spanning_tree
      (create_weighted_graph M))) z
    omega
  obtain ⟨P, hsome, hl, hh, hlst, hperm⟩ := pipeline_shape _ start N hWFD hconnD
    hevenD hED hstartD hboundD hcoverD
  refine ⟨create_hamiltonian_path P, ?_, hl, hh, hlst, hperm⟩
  show (create_eulerian_path (duplicate_weighted_graph (minimum_spanning_tree
    (create_weighted_graph M))) start).map create_hamiltonian_path
    = some (create_hamiltonian_path P)
  rw [hsome]
  rfl

/-! ## Claim C3: the graph restricted to the odd-degree tree vertices -/

theorem red_nodes_fold (T : Graph) :
    ∀ (L : List ℕ) (R : Graph),
      (L.foldl (fun R2 v => if T.degree v % 2 = 0 then R2.removeNode v else R2) R).nodes
        = R.nodes.filter (fun x => !(decide (x ∈ L) && decide (T.degree x % 2 = 0))) := by
  intro L
  induction L with
  | nil =>
      intro R
      rw [List.foldl_nil]
      refine (List.filter_eq_self.mpr ?_).symm
      intro a _
      simp
  | cons v L ih =>
      intro R
      rw [List.foldl_cons]
      by_cases hv : T.degree v % 2 = 0
      · rw [if_pos hv, ih]
        show (R.nodes.filter (fun x => x != v)).filter _ = _
        rw [List.filter_filter]
        refine List.filter_congr ?_
        intro x _
        by_cases hxv : x = v
        · subst hxv
          simp [hv]
        · simp [hxv, List.mem_cons]
      · rw [if_neg hv, ih]
        refine List.filter_congr ?_
        intro x _
        by_cases hxv : x = v
        · subst hxv
          simp [hv]
        · simp [hxv, List.mem_cons]

theorem red_edges_fold (T : Graph) :
    ∀ (L : List ℕ) (R : Graph),
      (L.foldl (fun R2 v => if T.degree v % 2 = 0 then R2.removeNode v else R2) R).edges
        = R.edges.filter (fun e =>
            !(decide (e.1 ∈ L) && decide (T.degree e.1 % 2 = 0))
            && !(decide (e.2.1 ∈ L) && decide (T.degree e.2.1 % 2 = 0))) := by
  intro L
  induction L with
  | nil =>
      intro R
      rw [List.foldl_nil]
      refine (List.filter_eq_self.mpr ?_).symm
      intro a _
      simp
  | cons v L ih =>
      intro R
      rw [List.foldl_cons]
      by_cases hv : T.degree v % 2 = 0
      · rw [if_pos hv, ih]
        show (R.edges.filter (fun e => !(e.1 == v) && !(e.2.1 == v))).filter _ = _
        rw [List.filter_filter]
        refine List.filter_congr ?_
        intro e _
        by_cases h1 : e.1 = v
        · simp [h1, hv]
        · by_cases h2 : e.2.1 = v
          · simp [h1, h2, hv]
          · simp [h1, h2, List.mem_cons]
      · rw [if_neg hv, ih]
        refine List.filter_congr ?_
        intro e _
        by_cases h1 : e.1 = v
        · by_cases h2 : e.2.1 = v
          · simp [h1, h2, hv]
          · simp [h1, h2, hv, List.mem_cons]
        · by_cases h2 : e.2.1 = v
          · simp [h1, h2, hv, List.mem_cons]
          · simp [h1, h2, List.mem_cons]

/-- The odd-degree vertices of the spanning tree, in vertex order. -/
def oddList (N : ℕ) (T : Graph) : List ℕ :=
  (List.range N).filter (fun x => !decide (T.degree x % 2 = 0))

theorem red_nodes_spec (G T : Graph) (N : ℕ) (hGn : G.nodes = List.range N)
    (hTn : T.nodes = List.range N) :
    (remove_even_degree_vertices G T).nodes = oddList N T := by
  unfold remove_even_degree_vertices oddList
  rw [red_nodes_fold T T.nodes G, hGn, hTn]
  refine List.filter_congr ?_
  intro x hx
  rw [List.mem_range] at hx
  have hmem : decide (x ∈ List.range N) = true := by
    simp [List.mem_range, hx]
  rw [hmem]
  simp

theorem red_edges_spec (G T : Graph) (N : ℕ) (hGW : G.WF) (hGn : G.nodes = List.range N)
    (hTn : T.nodes = List.range N) :
    (remove_even_degree_vertices G T).edges
      = G.edges.filter (fun e =>
          !decide (T.degree e.1 % 2 = 0) && !decide (T.degree e.2.1 % 2 = 0)) := by
  unfold remove_even_degree_vertices
  rw [red_edges_fold T T.nodes G, hTn]
  refine List.filter_congr ?_
  intro e he
  have hends := hGW.2.1 e he
  rw [hGn] at hends
  have h1 : decide (e.1 ∈ List.range N) = true := by simp [hends.1]
  have h2 : decide (e.2.1 ∈ List.range N) = true := by simp [hends.2.1]
  rw [h1, h2]
  simp

theorem parity_filter_sum (f : ℕ → ℕ) :
    ∀ L : List ℕ, (L.filter (fun x => !decide (f x % 2 = 0))).length % 2
      = (L.map f).sum % 2 := by
  intro L
  induction L with
  | nil => rfl
  | cons a L ih =>
      rw [List.filter_cons, List.map_cons, List.sum_cons]
      by_cases ha : f a % 2 = 0
      · rw [if_neg (by simp [ha])]
        omega
      · rw [if_pos (by simp [ha])]
        rw [List.length_cons]
        omega

theorem oddList_even (N : ℕ) (T : Graph) (hWF : T.WF) (hTn : T.nodes = List.range N) :
    (oddList N T).length % 2 = 0 := by
  unfold oddList
  rw [parity_filter_sum (fun x => T.degree x) (List.range N)]
  have hh := handshake_simple T hWF
  rw [hTn] at hh
  rw [hh]
  omega

/-! ## The `G.edges.data()` view of a well-formed graph -/

theorem wedgeMS_append (A B : List (ℕ × ℕ × Weight)) :
    wedgeMS (A ++ B) = wedgeMS A + wedgeMS B := by
  unfold wedgeMS
  rw [List.map_append]
  rfl

theorem filterMap_if_mem (seen : List ℕ) (f : ℕ → ℕ × ℕ × Weight) :
    ∀ l : List ℕ, l.filterMap (fun m => if m ∈ seen then none else some (f m))
      = (l.filter (fun m => decide (m ∉ seen))).map f := by
  intro l
  induction l with
  | nil => rfl
  | cons a l ih =>
      rw [List.filterMap_cons, List.filter_cons]
      by_cases ha : a ∈ seen
      · rw [if_pos ha, if_neg (by simp [ha])]
        exact ih
      · rw [if_neg ha, if_pos (by simp [ha]), List.map_cons, ih]

theorem filter_split_ms {α : Type} (p q : α → Bool) :
    ∀ l : List α, (↑(l.filter p) : Multiset α)
      = ↑(l.filter (fun e => p e && q e)) + ↑(l.filter (fun e => p e && !q e)) := by
  intro l
  induction l with
  | nil => rfl
  | cons a l ih =>
      rw [List.filter_cons, List.filter_cons, List.filter_cons]
      by_cases hp : p a = true
      · by_cases hq : q a = true
        · rw [if_pos hp, if_pos (by simp [hp, hq]), if_neg (by simp [hp, hq])]
          show (a ::ₘ ↑(l.filter p)) = (a ::ₘ ↑(l.filter _)) + ↑(l.filter _)
          rw [ih, Multiset.cons_add]
        · rw [if_pos hp, if_neg (by simp [hp, hq]), if_pos (by simp [hp, hq])]
          show (a ::ₘ ↑(l.filter p)) = ↑(l.filter _) + (a ::ₘ ↑(l.filter _))
          rw [ih, Multiset.add_cons]
      · rw [if_neg hp, if_neg (by simp [hp]), if_neg (by simp [hp])]
        exact ih

theorem nbrsTriples_filter_wedge (n : ℕ) (seen : List ℕ) (hn : n ∉ seen) :
    ∀ E : List (ℕ × ℕ × Weight),
      wedgeMS ((nbrsTriples E n).filter (fun t => decide (t.2.1 ∉ seen)))
        = wedgeMS (E.filter (fun e =>
            (decide (e.1 ∉ seen) && decide (e.2.1 ∉ seen)) && (e.1 == n || e.2.1 == n))) := by
  intro E
  induction E with
  | nil => rfl
  | cons e E ih =>
      rw [nbrsTriples_cons, List.filter_append, List.filter_cons]
      by_cases h1 : e.1 = n
      · rw [if_pos h1]
        by_cases h2 : e.2.1 ∈ seen
        · rw [if_neg (by simp [h1, hn, h2])]
          show wedgeMS (List.filter _ [(n, e.2.1, e.2.2)] ++ _) = _
          rw [show List.filter (fun t => decide (t.2.1 ∉ seen)) [(n, e.2.1, e.2.2)]
              = [] from by simp [h2]]
          rw [List.nil_append]
          exact ih
        · rw [if_pos (by simp [h1, hn, h2])]
          show wedgeMS (List.filter _ [(n, e.2.1, e.2.2)] ++ _) = _
          rw [show List.filter (fun t => decide (t.2.1 ∉ seen)) [(n, e.2.1, e.2.2)]
              = [(n, e.2.1, e.2.2)] from by simp [h2]]
          rw [List.singleton_append]
          show wedgeMS ((n, e.2.1, e.2.2) :: _) = wedgeMS (e :: _)
          unfold wedgeMS
          rw [List.map_cons, List.map_cons]
          show (nrm (n, e.2.1), e.2.2) ::ₘ wedgeMS _ = (nrm (e.1, e.2.1), e.2.2) ::ₘ wedgeMS _
          rw [h1, ih]
      · rw [if_neg h1]
        by_cases h2 : e.2.1 = n
        · rw [if_pos h2]
          by_cases h3 : e.1 ∈ seen
          · rw [if_neg (by simp [h2, hn, h3])]
            show wedgeMS (List.filter _ [(n, e.1, e.2.2)] ++ _) = _
            rw [show List.filter (fun t => decide (t.2.1 ∉ seen)) [(n, e.1, e.2.2)]
                = [] from by simp [h3]]
            rw [List.nil_append]
            exact ih
          · rw [if_pos (by simp [h2, hn, h3])]
            show wedgeMS (List.filter _ [(n, e.1, e.2.2)] ++ _) = _
            rw [show List.filter (fun t => decide (t.2.1 ∉ seen)) [(n, e.1, e.2.2)]
                = [(n, e.1, e.2.2)] from by simp [h3]]
            rw [List.singleton_append]
            show wedgeMS ((n, e.1, e.2.2) :: _) = wedgeMS (e :: _)
            unfold wedgeMS
            rw [List.map_cons, List.map_cons]
            show (nrm (n, e.1), e.2.2) ::ₘ wedgeMS _ = (nrm (e.1, e.2.1), e.2.2) ::ₘ wedgeMS _
            rw [h2, nrm_comm, ih]
        · rw [if_neg h2, if_neg (by simp [h1, h2])]
          show wedgeMS (List.filter _ [] ++ _) = _
          rw [List.filter_nil, List.nil_append]
          exact ih

theorem edgeViewAux_wedge (G : Graph) (hpw : List.Pairwise distinctPair G.edges) :
    ∀ (todo seen : List ℕ), (todo ++ seen).Nodup →
      (∀ e ∈ G.edges, (e.1 ∈ todo ∨ e.1 ∈ seen) ∧ (e.2.1 ∈ todo ∨ e.2.1 ∈ seen)) →
      wedgeMS (edgeViewAux G todo seen)
        = wedgeMS (G.edges.filter (fun e =>
            decide (e.1 ∉ seen) && decide (e.2.1 ∉ seen))) := by
  intro todo
  induction todo with
  | nil =>
      intro seen hnd hcov
      have hnil : G.edges.filter (fun e =>
          decide (e.1 ∉ seen) && decide (e.2.1 ∉ seen)) = [] := by
        rw [List.filter_eq_nil_iff]
        intro e he
        have hc := hcov e he
        have h1 : e.1 ∈ seen := by
          rcases hc.1 with h | h
          · exact absurd h (by simp)
          · exact h
        simp [h1]
      rw [hnil]
      rfl
  | cons n rest ih =>
      intro seen hnd hcov
      have hn : n ∉ seen := by
        rw [List.cons_append, List.nodup_cons] at hnd
        intro hc
        exact hnd.1 (List.mem_append.mpr (Or.inr hc))
      have hview : edgeViewAux G (n :: rest) seen
          = ((G.nbrs n).filterMap (fun m =>
              if m ∈ seen then none else some (n, m, G.wt n m)))
            ++ edgeViewAux G rest (n :: seen) := rfl
      rw [hview, wedgeMS_append]
      have hperm : (rest ++ n :: seen).Perm ((n :: rest) ++ seen) :=
        List.perm_middle
      have hnd2 : (rest ++ n :: seen).Nodup := hperm.nodup_iff.mpr hnd
      have hcov2 : ∀ e ∈ G.edges,
          (e.1 ∈ rest ∨ e.1 ∈ n :: seen) ∧ (e.2.1 ∈ rest ∨ e.2.1 ∈ n :: seen) := by
        intro e he
        have hc := hcov e he
        constructor
        · rcases hc.1 with h | h
          · rcases List.mem_cons.mp h with rfl | h2
            · exact Or.inr (List.mem_cons_self _ _)
            · exact Or.inl h2
          · exact Or.inr (List.mem_cons_of_mem _ h)
        · rcases hc.2 with h | h
          · rcases List.mem_cons.mp h with rfl | h2
            · exact Or.inr (List.mem_cons_self _ _)
            · exact Or.inl h2
          · exact Or.inr (List.mem_cons_of_mem _ h)
      rw [ih (n :: seen) hnd2 hcov2]
      have hhead : wedgeMS ((G.nbrs n).filterMap (fun m =>
          if m ∈ seen then none else some (n, m, G.wt n m)))
          = wedgeMS (G.edges.filter (fun e =>
              (decide (e.1 ∉ seen) && decide (e.2.1 ∉ seen))
              && (e.1 == n || e.2.1 == n))) := by
        rw [filterMap_if_mem seen (fun m => (n, m, G.wt n m)) (G.nbrs n)]
        have hcomm : ((G.nbrs n).filter (fun m => decide (m ∉ seen))).map
            (fun m => (n, m, G.wt n m))
            = ((G.nbrs n).map (fun m => (n, m, G.wt n m))).filter
                (fun t => decide (t.2.1 ∉ seen)) := by
          rw [List.filter_map]
          rfl
        rw [hcomm, nbrs_map_eq_nbrsTriples G hpw n]
        exact nbrsTriples_filter_wedge n seen hn G.edges
      rw [hhead]
      have hsplit : (↑(G.edges.filter (fun e =>
          decide (e.1 ∉ seen) && decide (e.2.1 ∉ seen))) : Multiset (ℕ × ℕ × Weight))
          = ↑(G.edges.filter (fun e =>
              (decide (e.1 ∉ seen) && decide (e.2.1 ∉ seen)) && (e.1 == n || e.2.1 == n)))
            + ↑(G.edges.filter (fun e =>
              (decide (e.1 ∉ seen) && decide (e.2.1 ∉ seen))
                && !(e.1 == n || e.2.1 == n))) :=
        filter_split_ms _ _ G.edges
      have hwsplit : wedgeMS (G.edges.filter (fun e =>
          decide (e.1 ∉ seen) && decide (e.2.1 ∉ seen)))
          = wedgeMS (G.edges.filter (fun e =>
              (decide (e.1 ∉ seen) && decide (e.2.1 ∉ seen)) && (e.1 == n || e.2.1 == n)))
            + wedgeMS (G.edges.filter (fun e =>
              (decide (e.1 ∉ seen) && decide (e.2.1 ∉ seen))
                && !(e.1 == n || e.2.1 == n))) := by
        rw [wedgeMS_coe_map, wedgeMS_coe_map, wedgeMS_coe_map, hsplit, Multiset.map_add]
      rw [hwsplit]
      have hcongr : G.edges.filter (fun e =>
          decide (e.1 ∉ n :: seen) && decide (e.2.1 ∉ n :: seen))
          = G.edges.filter (fun e =>
              (decide (e.1 ∉ seen) && decide (e.2.1 ∉ seen))
                && !(e.1 == n || e.2.1 == n)) := by
        refine List.filter_congr ?_
        intro e _
        by_cases h1 : e.1 = n <;> by_cases h2 : e.2.1 = n <;>
          by_cases h3 : e.1 ∈ seen <;> by_cases h4 : e.2.1 ∈ seen <;>
          simp [h1, h2, h3, h4, List.mem_cons]
      rw [hcongr]

/-! ## The matching model: membership and the argmax fold -/

theorem matchingsOf_iff :
    ∀ (E m : List (ℕ × ℕ × Weight)),
      m ∈ matchingsOf E ↔
        m.Sublist E ∧ List.Pairwise (fun e f => disjointEdge e f = true) m := by
  intro E
  induction E with
  | nil =>
      intro m
      show m ∈ [[]] ↔ _
      constructor
      · intro h
        rw [List.mem_singleton] at h
        subst h
        exact ⟨List.Sublist.refl [], List.Pairwise.nil⟩
      · intro ⟨hs, _⟩
        rw [List.mem_singleton]
        exact List.sublist_nil.mp hs
  | cons e E ih =>
      intro m
      show m ∈ matchingsOf E ++ _ ↔ _
      rw [List.mem_append, List.mem_map]
      constructor
      · rintro (h | ⟨m2, hm2, rfl⟩)
        · obtain ⟨hs, hp⟩ := (ih m).mp h
          exact ⟨hs.cons e, hp⟩
        · rw [List.mem_filter] at hm2
          obtain ⟨hs, hp⟩ := (ih m2).mp hm2.1
          refine ⟨hs.cons₂ e, ?_⟩
          rw [List.pairwise_cons]
          refine ⟨?_, hp⟩
          intro f hf
          have hall := hm2.2
          rw [List.all_eq_true] at hall
          exact hall f hf
      · rintro ⟨hs, hp⟩
        cases hs with
        | cons _ hs2 =>
            left
            exact (ih m).mpr ⟨hs2, hp⟩
        | cons₂ _ hs2 =>
            right
            rename_i m2
            refine ⟨m2, ?_, rfl⟩
            rw [List.mem_filter]
            rw [List.pairwise_cons] at hp
            refine ⟨(ih m2).mpr ⟨hs2, hp.2⟩, ?_⟩
            rw [List.all_eq_true]
            exact hp.1

theorem betterMatching_cases (x y : List (ℕ × ℕ × Weight)) :
    betterMatching x y = x ∨ betterMatching x y = y := by
  unfold betterMatching
  split
  · exact Or.inr rfl
  · exact Or.inl rfl

/-- `x` is at least as good as `y` in the (cardinality, weight) order. -/
def geM (x y : List (ℕ × ℕ × Weight)) : Prop :=
  y.length < x.length ∨ (y.length = x.length ∧ matchWeight y ≤ matchWeight x)

theorem geM_refl (x : List (ℕ × ℕ × Weight)) : geM x x :=
  Or.inr ⟨rfl, le_refl _⟩

theorem geM_trans (x y z : List (ℕ × ℕ × Weight)) (h1 : geM x y) (h2 : geM y z) :
    geM x z := by
  unfold geM at h1 h2 ⊢
  rcases h1 with h1 | ⟨h1a, h1b⟩
  · rcases h2 with h2 | ⟨h2a, h2b⟩
    · left
      omega
    · left
      omega
  · rcases h2 with h2 | ⟨h2a, h2b⟩
    · left
      omega
    · right
      exact ⟨by omega, le_trans h2b h1b⟩

theorem betterMatching_ge_left (x y : List (ℕ × ℕ × Weight)) :
    geM (betterMatching x y) x := by
  unfold betterMatching
  split
  · rename_i h
    rcases h with h | ⟨ha, hb⟩
    · exact Or.inl h
    · exact Or.inr ⟨ha, le_of_lt hb⟩
  · exact geM_refl x

theorem betterMatching_ge_right (x y : List (ℕ × ℕ × Weight)) :
    geM (betterMatching x y) y := by
  unfold betterMatching
  split
  · exact geM_refl y
  · rename_i h
    push_neg at h
    rcases Nat.lt_or_ge y.length x.length with hl | hl
    · exact Or.inl hl
    · have hle : x.length = y.length := by
        have := h.1
        omega
      exact Or.inr ⟨hle.symm, h.2 hle⟩

theorem foldl_better_ge :
    ∀ (L : List (List (ℕ × ℕ × Weight))) (acc : List (ℕ × ℕ × Weight)),
      geM (L.foldl betterMatching acc) acc ∧
      ∀ m ∈ L, geM (L.foldl betterMatching acc) m := by
  intro L
  induction L with
  | nil =>
      intro acc
      exact ⟨geM_refl acc, fun m hm => absurd hm (by simp)⟩
  | cons y L ih =>
      intro acc
      rw [List.foldl_cons]
      obtain ⟨h1, h2⟩ := ih (betterMatching acc y)
      refine ⟨geM_trans _ _ _ h1 (betterMatching_ge_left acc y), ?_⟩
      intro m hm
      rcases List.mem_cons.mp hm with rfl | hm2
      · exact geM_trans _ _ _ h1 (betterMatching_ge_right acc m)
      · exact h2 m hm2

theorem foldl_better_mem :
    ∀ (L : List (List (ℕ × ℕ × Weight))) (acc : List (ℕ × ℕ × Weight)),
      L.foldl betterMatching acc = acc ∨ L.foldl betterMatching acc ∈ L := by
  intro L
  induction L with
  | nil => intro acc; exact Or.inl rfl
  | cons y L ih =>
      intro acc
      rw [List.foldl_cons]
      rcases ih (betterMatching acc y) with h | h
      · rw [h]
        rcases betterMatching_cases acc y with h2 | h2
        · exact Or.inl h2
        · refine Or.inr ?_
          rw [h2]
          exact List.mem_cons_self _ _
      · exact Or.inr (List.mem_cons_of_mem _ h)

theorem distinctPair_iff_nrm (e f : ℕ × ℕ × Weight) :
    distinctPair e f ↔ nrm (e.1, e.2.1) ≠ nrm (f.1, f.2.1) := by
  unfold distinctPair
  constructor
  · intro h hc
    rcases nrm_inj_ne _ _ _ _ hc with ⟨h1, h2⟩ | ⟨h1, h2⟩
    · exact h (Or.inl ⟨h1, h2⟩)
    · exact h (Or.inr ⟨h1, h2⟩)
  · intro h hc
    apply h
    rcases hc with ⟨h1, h2⟩ | ⟨h1, h2⟩
    · rw [h1, h2]
    · rw [h1, h2, nrm_comm]

/-- Pairwise vertex-disjointness of unordered pairs. -/
def pdisj (p q : ℕ × ℕ) : Prop :=
  p.1 ≠ q.1 ∧ p.1 ≠ q.2 ∧ p.2 ≠ q.1 ∧ p.2 ≠ q.2

theorem pdisj_symm : ∀ (p q : ℕ × ℕ), pdisj p q → pdisj q p := by
  intro p q h
  exact ⟨fun hc => h.1 hc.symm, fun hc => h.2.2.1 hc.symm,
    fun hc => h.2.1 hc.symm, fun hc => h.2.2.2 hc.symm⟩

theorem pdisj_nrm_ne (p q : ℕ × ℕ) (h : pdisj p q) : nrm p ≠ nrm q := by
  intro hc
  rcases nrm_inj_ne p.1 p.2 q.1 q.2 (by rw [← hc]) with ⟨h1, h2⟩ | ⟨h1, h2⟩
  · exact h.1 h1
  · exact h.2.1 h1

/-- Selecting the edges of `E` whose unordered pair belongs to a
vertex-disjoint family yields a matching whose pairs are exactly the
family's pairs. -/
theorem matching_of_family (E : List (ℕ × ℕ × Weight))
    (hpw : List.Pairwise distinctPair E) (P : List (ℕ × ℕ))
    (hPd : List.Pairwise pdisj P)
    (hcompl : ∀ p ∈ P, ∃ t ∈ E, nrm (t.1, t.2.1) = nrm p) :
    ∃ m ∈ matchingsOf E,
      ((m.map (fun t => nrm (t.1, t.2.1))).Perm (P.map nrm) ∧
      ∀ t ∈ m, ∃ p ∈ P, nrm (t.1, t.2.1) = nrm p) := by
  refine ⟨E.filter (fun t => decide (nrm (t.1, t.2.1) ∈ P.map nrm)), ?_, ?_, ?_⟩
  · rw [matchingsOf_iff]
    refine ⟨List.filter_sublist E, ?_⟩
    rw [List.pairwise_filter]
    refine hpw.imp_of_mem ?_
    intro t t2 _ _ hd hc1 hc2
    obtain ⟨p, hpP, hp⟩ := List.mem_map.mp hc1
    obtain ⟨q, hqP, hq⟩ := List.mem_map.mp hc2
    have hnrmne : nrm (t.1, t.2.1) ≠ nrm (t2.1, t2.2.1) :=
      (distinctPair_iff_nrm t t2).mp hd
    have hpq : p ≠ q := by
      intro hc
      rw [hc] at hp
      exact hnrmne (hp.symm.trans hq)
    have hdisj : pdisj p q := List.Pairwise.forall pdisj_symm hPd hpP hqP hpq
    obtain ⟨d1, d2, d3, d4⟩ := hdisj
    rcases nrm_inj_ne t.1 t.2.1 p.1 p.2 hp.symm with ⟨h1, h2⟩ | ⟨h1, h2⟩ <;>
      rcases nrm_inj_ne t2.1 t2.2.1 q.1 q.2 hq.symm with ⟨h3, h4⟩ | ⟨h3, h4⟩ <;>
      · unfold disjointEdge
        rw [h1, h2, h3, h4]
        simp [d1, d2, d3, d4]
  · have hmnd : ((E.filter (fun t => decide (nrm (t.1, t.2.1) ∈ P.map nrm))).map
        (fun t => nrm (t.1, t.2.1))).Nodup := by
      show List.Pairwise _ _
      rw [List.pairwise_map]
      refine ((hpw.sublist (List.filter_sublist E)).imp ?_)
      intro t t2 hd
      exact (distinctPair_iff_nrm t t2).mp hd
    have hPnd : (P.map nrm).Nodup := by
      show List.Pairwise _ _
      rw [List.pairwise_map]
      exact hPd.imp (fun h => pdisj_nrm_ne _ _ h)
    refine List.perm_of_nodup_nodup_toFinset_eq hmnd hPnd ?_
    refine Finset.ext ?_
    intro x
    rw [List.mem_toFinset, List.mem_toFinset, List.mem_map, List.mem_map]
    constructor
    · rintro ⟨t, ht, rfl⟩
      rw [List.mem_filter, decide_eq_true_eq] at ht
      exact List.mem_map.mp ht.2
    · rintro ⟨p, hpP, rfl⟩
      obtain ⟨t, htE, hteq⟩ := hcompl p hpP
      refine ⟨t, ?_, hteq⟩
      rw [List.mem_filter, decide_eq_true_eq]
      refine ⟨htE, ?_⟩
      rw [hteq]
      exact List.mem_map.mpr ⟨p, hpP, rfl⟩
  · intro t ht
    rw [List.mem_filter, decide_eq_true_eq] at ht
    obtain ⟨p, hpP, hp⟩ := List.mem_map.mp ht.2
    exact ⟨p, hpP, hp.symm⟩

/-- Pair up a list of vertices two at a time. -/
def pairUp : List ℕ → List (ℕ × ℕ)
  | a :: b :: rest => (a, b) :: pairUp rest
  | _ => []

theorem pairUp_spec : ∀ (k : ℕ) (V : List ℕ), V.length ≤ k → V.Nodup →
    V.length % 2 = 0 →
    (∀ p ∈ pairUp V, p.1 ∈ V ∧ p.2 ∈ V ∧ p.1 ≠ p.2) ∧
    (∀ v ∈ V, ∃ p ∈ pairUp V, v = p.1 ∨ v = p.2) ∧
    List.Pairwise pdisj (pairUp V) ∧
    2 * (pairUp V).length = V.length := by
  intro k
  induction k with
  | zero =>
      intro V hlen _ _
      have hV : V = [] := List.length_eq_zero.mp (by omega)
      subst hV
      exact ⟨fun p hp => absurd hp (by simp [pairUp]),
        fun v hv => absurd hv (by simp), by simp [pairUp], by simp [pairUp]⟩
  | succ k ihk =>
      intro V hlen hnd hev
      cases V with
      | nil =>
          exact ⟨fun p hp => absurd hp (by simp [pairUp]),
            fun v hv => absurd hv (by simp), by simp [pairUp], by simp [pairUp]⟩
      | cons a V2 =>
          cases V2 with
          | nil => simp at hev
          | cons b rest =>
              have hnd2 := hnd
              rw [List.nodup_cons] at hnd2
              have hndb := hnd2.2
              rw [List.nodup_cons] at hndb
              have hab : a ≠ b := fun hc => hnd2.1 (hc ▸ List.mem_cons_self b rest)
              have hanr : a ∉ rest := fun hc => hnd2.1 (List.mem_cons_of_mem b hc)
              have hbnr : b ∉ rest := hndb.1
              have hlen2 : rest.length ≤ k := by
                simp only [List.length_cons] at hlen
                omega
              have hev2 : rest.length % 2 = 0 := by
                simp only [List.length_cons] at hev
                omega
              obtain ⟨hmem, hcov, hpd, hcnt⟩ := ihk rest hlen2 hndb.2 hev2
              have hstep : pairUp (a :: b :: rest) = (a, b) :: pairUp rest := rfl
              refine ⟨?_, ?_, ?_, ?_⟩
              · intro p hp
                rw [hstep] at hp
                rcases List.mem_cons.mp hp with rfl | hp2
                · exact ⟨List.mem_cons_self _ _,
                    List.mem_cons_of_mem _ (List.mem_cons_self _ _), hab⟩
                · have hm := hmem p hp2
                  exact ⟨List.mem_cons_of_mem _ (List.mem_cons_of_mem _ hm.1),
                    List.mem_cons_of_mem _ (List.mem_cons_of_mem _ hm.2.1), hm.2.2⟩
              · intro v hv
                rw [hstep]
                rcases List.mem_cons.mp hv with rfl | hv2
                · exact ⟨(v, b), List.mem_cons_self _ _, Or.inl rfl⟩
                · rcases List.mem_cons.mp hv2 with rfl | hv3
                  · exact ⟨(a, v), List.mem_cons_self _ _, Or.inr rfl⟩
                  · obtain ⟨p, hp, hvp⟩ := hcov v hv3
                    exact ⟨p, List.mem_cons_of_mem _ hp, hvp⟩
              · rw [hstep, List.pairwise_cons]
                refine ⟨?_, hpd⟩
                intro q hq
                have hm := hmem q hq
                refine ⟨?_, ?_, ?_, ?_⟩
                · exact fun hc => hanr (by rw [show (a, b).1 = a from rfl] at hc; rw [hc]; exact hm.1)
                · exact fun hc => hanr (by rw [show (a, b).1 = a from rfl] at hc; rw [hc]; exact hm.2.1)
                · exact fun hc => hbnr (by rw [show (a, b).2 = b from rfl] at hc; rw [hc]; exact hm.1)
                · exact fun hc => hbnr (by rw [show (a, b).2 = b from rfl] at hc; rw [hc]; exact hm.2.1)
              · rw [hstep, List.length_cons]
                simp only [List.length_cons]
                omega

/-! ## The edge view of a well-formed graph lists each stored edge once -/

theorem edgeView_wedge (G : Graph) (hWF : G.WF) :
    wedgeMS G.edgeView = wedgeMS G.edges := by
  unfold Graph.edgeView
  rw [edgeViewAux_wedge G hWF.2.2 G.nodes [] (by simpa using hWF.1) ?cov]
  · congr 1
    refine List.filter_eq_self.mpr ?_
    intro e _
    simp
  case cov =>
    intro e he
    have h := hWF.2.1 e he
    exact ⟨Or.inl h.1, Or.inl h.2.1⟩

theorem wedgeMS_mem (E : List (ℕ × ℕ × Weight)) (x : (ℕ × ℕ) × Weight) :
    x ∈ wedgeMS E ↔ ∃ e ∈ E, nrm (e.1, e.2.1) = x.1 ∧ e.2.2 = x.2 := by
  unfold wedgeMS
  rw [Multiset.mem_coe, List.mem_map]
  constructor
  · rintro ⟨e, he, rfl⟩
    exact ⟨e, he, rfl, rfl⟩
  · rintro ⟨e, he, h1, h2⟩
    exact ⟨e, he, Prod.ext h1 h2⟩

theorem edgeView_mem (G : Graph) (hWF : G.WF) (t : ℕ × ℕ × Weight)
    (ht : t ∈ G.edgeView) :
    ∃ e ∈ G.edges, nrm (e.1, e.2.1) = nrm (t.1, t.2.1) ∧ e.2.2 = t.2.2 := by
  have hx : (nrm (t.1, t.2.1), t.2.2) ∈ wedgeMS G.edgeView := by
    rw [wedgeMS_mem]
    exact ⟨t, ht, rfl, rfl⟩
  rw [edgeView_wedge G hWF, wedgeMS_mem] at hx
  exact hx

theorem edgeView_covers (G : Graph) (hWF : G.WF) (e : ℕ × ℕ × Weight)
    (he : e ∈ G.edges) :
    ∃ t ∈ G.edgeView, nrm (t.1, t.2.1) = nrm (e.1, e.2.1) ∧ t.2.2 = e.2.2 := by
  have hx : (nrm (e.1, e.2.1), e.2.2) ∈ wedgeMS G.edges :=
    (wedgeMS_mem _ _).mpr ⟨e, he, rfl, rfl⟩
  rw [← edgeView_wedge G hWF, wedgeMS_mem] at hx
  exact hx

theorem edgeView_ne (G : Graph) (hWF : G.WF) (t : ℕ × ℕ × Weight)
    (ht : t ∈ G.edgeView) : t.1 ≠ t.2.1 := by
  obtain ⟨e, he, h1, _⟩ := edgeView_mem G hWF t ht
  have hne := (hWF.2.1 e he).2.2
  rcases nrm_inj_ne e.1 e.2.1 t.1 t.2.1 h1 with ⟨ha, hb⟩ | ⟨ha, hb⟩
  · exact fun hc => hne (by rw [ha, hb, hc])
  · exact fun hc => hne (by rw [ha, hb]; exact hc.symm)

theorem edgeView_wt (G : Graph) (hWF : G.WF) (t : ℕ × ℕ × Weight)
    (ht : t ∈ G.edgeView) : t.2.2 = G.wt t.1 t.2.1 := by
  obtain ⟨e, he, h1, h2⟩ := edgeView_mem G hWF t ht
  have hw := wt_of_mem G hWF.2.2 e he
  rcases nrm_inj_ne e.1 e.2.1 t.1 t.2.1 h1 with ⟨ha, hb⟩ | ⟨ha, hb⟩
  · rw [← h2, ← ha, ← hb]
    exact hw.1.symm
  · rw [← h2, ← ha, ← hb]
    exact hw.2.symm

theorem wedgeMS_fst (E : List (ℕ × ℕ × Weight)) :
    Multiset.map Prod.fst (wedgeMS E)
      = ((E.map (fun e => nrm (e.1, e.2.1))) : Multiset (ℕ × ℕ)) := by
  unfold wedgeMS
  rw [Multiset.map_coe, List.map_map]
  rfl

theorem edgeView_pw (G : Graph) (hWF : G.WF) :
    List.Pairwise distinctPair G.edgeView := by
  have h1 : ((G.edgeView.map (fun e => nrm (e.1, e.2.1))) : Multiset (ℕ × ℕ))
      = ((G.edges.map (fun e => nrm (e.1, e.2.1))) : Multiset (ℕ × ℕ)) := by
    rw [← wedgeMS_fst, ← wedgeMS_fst, edgeView_wedge G hWF]
  have h2 : (G.edges.map (fun e => nrm (e.1, e.2.1))).Nodup := by
    show List.Pairwise _ _
    rw [List.pairwise_map]
    exact hWF.2.2.imp (fun h => (distinctPair_iff_nrm _ _).mp h)
  have h3 : (G.edgeView.map (fun e => nrm (e.1, e.2.1))).Nodup := by
    have hc := Multiset.coe_nodup.mpr h2
    rw [← h1] at hc
    exact Multiset.coe_nodup.mp hc
  have h4 := List.pairwise_map.mp h3
  exact h4.imp (fun h => (distinctPair_iff_nrm _ _).mpr h)

/-! ## Graphs built by folding addEdge over fresh pairs -/

theorem pairFold_nodes_nodup (W : ℕ × ℕ → Weight) :
    ∀ (P : List (ℕ × ℕ)) (G : Graph), G.nodes.Nodup →
      (P.foldl (fun G2 p => G2.addEdge p.1 p.2 (W p)) G).nodes.Nodup := by
  intro P
  induction P with
  | nil => intro G h; exact h
  | cons p P ih =>
      intro G h
      simp only [List.foldl_cons]
      exact ih _ (Graph.addEdge_nodes_nodup G p.1 p.2 (W p) h)

theorem pairFold_nodes_mem (W : ℕ × ℕ → Weight) :
    ∀ (P : List (ℕ × ℕ)) (G : Graph) (x : ℕ),
      x ∈ (P.foldl (fun G2 p => G2.addEdge p.1 p.2 (W p)) G).nodes
        ↔ x ∈ G.nodes ∨ ∃ p ∈ P, x = p.1 ∨ x = p.2 := by
  intro P
  induction P with
  | nil => intro G x; simp
  | cons p P ih =>
      intro G x
      simp only [List.foldl_cons]
      rw [ih, Graph.addEdge_nodes_mem, List.exists_mem_cons_iff]
      exact or_assoc

/-! ## The negated-weight copy built inside the matcher -/

/-- The `tmpGraph` of `_match_minimal_weight` (src/tsr.py:242-244). -/
def tmpGraphOf (G : Graph) : Graph :=
  G.edgeView.foldl (fun H e => H.addEdge e.1 e.2.1 (-(e.2.2))) Graph.empty

theorem match_minimal_weight_eq (G : Graph) :
    match_minimal_weight G
      = (max_weight_matching (tmpGraphOf G)).foldl
          (fun H p => H.addEdge p.1 p.2 (G.wt p.1 p.2)) Graph.empty := rfl

theorem Graph.wt_comm (G : Graph) (a b : ℕ) : G.wt a b = G.wt b a := by
  unfold Graph.wt Graph.edgeWeight
  have h : (fun e => sameEdge a b e) = (fun e => sameEdge b a e) :=
    funext (fun e => sameEdge_comm a b e)
  rw [h]

theorem nrm_idem (p : ℕ × ℕ) : nrm (nrm p) = nrm p := by
  unfold nrm
  rw [Prod.mk.injEq]
  constructor <;> dsimp only <;> omega

theorem wt_nrm_congr (R : Graph) (a b c d : ℕ) (h : nrm (a, b) = nrm (c, d)) :
    R.wt a b = R.wt c d := by
  rcases nrm_inj_ne a b c d h with ⟨h1, h2⟩ | ⟨h1, h2⟩
  · rw [h1, h2]
  · rw [h1, h2]
    exact Graph.wt_comm R d c

theorem tmpGraphOf_eq (G : Graph) (hWF : G.WF) :
    tmpGraphOf G = (G.edgeView.map (fun e => (e.1, e.2.1))).foldl
      (fun H p => H.addEdge p.1 p.2 (-(G.wt p.1 p.2))) Graph.empty := by
  unfold tmpGraphOf
  rw [List.foldl_map]
  refine List.foldl_ext _ _ Graph.empty ?_
  intro H e he
  dsimp only
  rw [edgeView_wt G hWF e he]

theorem viewPairs_pw_offPair (G : Graph) (hWF : G.WF) :
    List.Pairwise offPair (G.edgeView.map (fun e => (e.1, e.2.1))) := by
  rw [List.pairwise_map]
  exact (edgeView_pw G hWF).imp (fun h => h)

theorem tmpGraphOf_edges (G : Graph) (hWF : G.WF) :
    (tmpGraphOf G).edges = G.edgeView.map (fun e => (e.1, e.2.1, -(e.2.2))) := by
  rw [tmpGraphOf_eq G hWF,
    pairFold_edges (fun p => -(G.wt p.1 p.2)) _ Graph.empty (viewPairs_pw_offPair G hWF)
      (fun p _ e he => absurd he (by simp [Graph.empty]))]
  show [] ++ _ = _
  rw [List.nil_append, List.map_map]
  refine List.map_congr_left ?_
  intro e he
  show (e.1, e.2.1, -(G.wt e.1 e.2.1)) = (e.1, e.2.1, -(e.2.2))
  rw [← edgeView_wt G hWF e he]

theorem tmpGraphOf_WF (G : Graph) (hWF : G.WF) : (tmpGraphOf G).WF := by
  refine ⟨?_, ?_, ?_⟩
  · rw [tmpGraphOf_eq G hWF]
    exact pairFold_nodes_nodup _ _ Graph.empty (by simp [Graph.empty])
  · intro e he
    rw [tmpGraphOf_edges G hWF, List.mem_map] at he
    obtain ⟨t, ht, rfl⟩ := he
    refine ⟨?_, ?_, edgeView_ne G hWF t ht⟩
    · rw [tmpGraphOf_eq G hWF, pairFold_nodes_mem]
      exact Or.inr ⟨(t.1, t.2.1), List.mem_map.mpr ⟨t, ht, rfl⟩, Or.inl rfl⟩
    · rw [tmpGraphOf_eq G hWF, pairFold_nodes_mem]
      exact Or.inr ⟨(t.1, t.2.1), List.mem_map.mpr ⟨t, ht, rfl⟩, Or.inr rfl⟩
  · rw [tmpGraphOf_edges G hWF, List.pairwise_map]
    exact (edgeView_pw G hWF).imp (fun h => h)

/-- Every triple of the tmp graph's edge view carries the negated original
weight of a stored edge of `G` on the same unordered pair. -/
theorem tmp_view_wt (G : Graph) (hWF : G.WF) (t : ℕ × ℕ × Weight)
    (ht : t ∈ (tmpGraphOf G).edgeView) :
    t.2.2 = -(G.wt t.1 t.2.1) ∧ ∃ e ∈ G.edges, nrm (e.1, e.2.1) = nrm (t.1, t.2.1) := by
  obtain ⟨u, hu, h1, h2⟩ := edgeView_mem (tmpGraphOf G) (tmpGraphOf_WF G hWF) t ht
  rw [tmpGraphOf_edges G hWF, List.mem_map] at hu
  obtain ⟨s, hs, rfl⟩ := hu
  obtain ⟨e, he, h3, h4⟩ := edgeView_mem G hWF s hs
  refine ⟨?_, e, he, h3.trans h1⟩
  rw [← h2]
  show -(s.2.2) = _
  rw [edgeView_wt G hWF s hs]
  rw [wt_nrm_congr G s.1 s.2.1 t.1 t.2.1 h1]

/-- Conversely every stored edge of `G` appears (negated) in the tmp
graph's edge view. -/
theorem tmp_view_covers (G : Graph) (hWF : G.WF) (e : ℕ × ℕ × Weight)
    (he : e ∈ G.edges) :
    ∃ t ∈ (tmpGraphOf G).edgeView, nrm (t.1, t.2.1) = nrm (e.1, e.2.1) := by
  obtain ⟨s, hs, h1, h2⟩ := edgeView_covers G hWF e he
  have hu : (s.1, s.2.1, -(s.2.2)) ∈ (tmpGraphOf G).edges := by
    rw [tmpGraphOf_edges G hWF, List.mem_map]
    exact ⟨s, hs, rfl⟩
  obtain ⟨t, ht, h3, _⟩ := edgeView_covers (tmpGraphOf G) (tmpGraphOf_WF G hWF) _ hu
  exact ⟨t, ht, h3.trans h1⟩

/-! ## Counting endpoints of a matching -/

theorem matching_endpoints_nodup :
    ∀ (m : List (ℕ × ℕ × Weight)),
      List.Pairwise (fun e f => disjointEdge e f = true) m →
      (∀ t ∈ m, t.1 ≠ t.2.1) →
      (m.flatMap (fun t => [t.1, t.2.1])).Nodup := by
  intro m
  induction m with
  | nil => intro _ _; simp
  | cons t m ih =>
      intro hpw hne
      rw [List.flatMap_cons, List.nodup_append]
      obtain ⟨hd, hpw2⟩ := List.pairwise_cons.mp hpw
      refine ⟨?_, ih hpw2 (fun s hs => hne s (List.mem_cons_of_mem t hs)), ?_⟩
      · have h := hne t (List.mem_cons_self t m)
        simp [h]
      · intro x hx hx2
        rw [List.mem_flatMap] at hx2
        obtain ⟨s, hs, hxs⟩ := hx2
        have hdis := hd s hs
        unfold disjointEdge at hdis
        rw [Bool.and_eq_true, Bool.and_eq_true, Bool.and_eq_true] at hdis
        obtain ⟨⟨⟨d1, d2⟩, d3⟩, d4⟩ := hdis
        rw [Bool.not_eq_eq_eq_not, Bool.not_true, beq_eq_false_iff_ne] at d1 d2 d3 d4
        rw [List.mem_cons, List.mem_singleton] at hx hxs
        rcases hx with rfl | rfl
        · rcases hxs with h | h
          · exact d1 h
          · exact d2 h
        · rcases hxs with h | h
          · exact d3 h
          · exact d4 h

theorem endpoints_len (f : ℕ × ℕ × Weight → ℕ) (g : ℕ × ℕ × Weight → ℕ) :
    ∀ (m : List (ℕ × ℕ × Weight)),
      (m.flatMap (fun t => [f t, g t])).length = 2 * m.length := by
  intro m
  induction m with
  | nil => rfl
  | cons t m ih =>
      rw [List.flatMap_cons, List.length_append, ih]
      simp only [List.length_cons, List.length_nil]
      omega

theorem nodup_sub_len_perm (L1 L2 : List ℕ) (h1 : L1.Nodup) (h2 : L2.Nodup)
    (hsub : ∀ x ∈ L1, x ∈ L2) (hlen : L2.length ≤ L1.length) : L1.Perm L2 := by
  refine List.perm_of_nodup_nodup_toFinset_eq h1 h2 ?_
  refine Finset.eq_of_subset_of_card_le ?_ ?_
  · intro x hx
    rw [List.mem_toFinset] at hx ⊢
    exact hsub x hx
  · rw [List.toFinset_card_of_nodup h1, List.toFinset_card_of_nodup h2]
    exact hlen

theorem sum_map_neg2 (f : ℕ × ℕ × Weight → Weight) :
    ∀ (m : List (ℕ × ℕ × Weight)),
      (m.map (fun t => -(f t))).sum = -((m.map f).sum) := by
  intro m
  induction m with
  | nil => simp
  | cons t m ih =>
      rw [List.map_cons, List.map_cons, List.sum_cons, List.sum_cons, ih]
      ring

theorem pdisj_endpoints_nodup :
    ∀ P : List (ℕ × ℕ), List.Pairwise pdisj P → (∀ p ∈ P, p.1 ≠ p.2) →
      (P.flatMap (fun p => [p.1, p.2])).Nodup := by
  intro P
  induction P with
  | nil => intro _ _; simp
  | cons p P ih =>
      intro hpw hne
      rw [List.flatMap_cons, List.nodup_append]
      obtain ⟨hd, hpw2⟩ := List.pairwise_cons.mp hpw
      refine ⟨?_, ih hpw2 (fun q hq => hne q (List.mem_cons_of_mem p hq)), ?_⟩
      · have h := hne p (List.mem_cons_self p P)
        simp [h]
      · intro x hx hx2
        rw [List.mem_flatMap] at hx2
        obtain ⟨q, hq, hxq⟩ := hx2
        have hdq := hd q hq
        rw [List.mem_cons, List.mem_singleton] at hx hxq
        rcases hx with rfl | rfl
        · rcases hxq with h | h
          · exact hdq.1 h
          · exact hdq.2.1 h
        · rcases hxq with h | h
          · exact hdq.2.2.1 h
          · exact hdq.2.2.2 h

theorem pair_endpoints_len :
    ∀ P : List (ℕ × ℕ), (P.flatMap (fun p => [p.1, p.2])).length = 2 * P.length := by
  intro P
  induction P with
  | nil => rfl
  | cons p P ih =>
      rw [List.flatMap_cons, List.length_append, ih]
      simp only [List.length_cons, List.length_nil]
      omega

/-! ## The matcher computes a minimum-weight perfect matching -/

theorem mmw_spec (R : Graph) (V : List ℕ) (hWF : R.WF)
    (hVnd : V.Nodup) (hVev : V.length % 2 = 0)
    (hRe : ∀ e ∈ R.edges, e.1 ∈ V ∧ e.2.1 ∈ V)
    (hcomp : ∀ u ∈ V, ∀ v ∈ V, u ≠ v → ∃ e ∈ R.edges, nrm (e.1, e.2.1) = nrm (u, v)) :
    ∃ m, (match_minimal_weight R).edges
        = m.map (fun t => (t.1, t.2.1, R.wt t.1 t.2.1)) ∧
      (match_minimal_weight R).WF ∧
      List.Pairwise (fun e f => disjointEdge e f = true) m ∧
      (∀ t ∈ m, t.1 ≠ t.2.1 ∧ ∃ e ∈ R.edges, nrm (e.1, e.2.1) = nrm (t.1, t.2.1)) ∧
      (m.flatMap (fun t => [t.1, t.2.1])).Perm V ∧
      (∀ P : List (ℕ × ℕ), List.Pairwise pdisj P →
        (∀ p ∈ P, p.1 ∈ V ∧ p.2 ∈ V ∧ p.1 ≠ p.2) →
        (∀ v ∈ V, ∃ p ∈ P, v = p.1 ∨ v = p.2) →
        (m.map (fun t => R.wt t.1 t.2.1)).sum ≤ (P.map (fun p => R.wt p.1 p.2)).sum) := by
  have hTWF := tmpGraphOf_WF R hWF
  have hmemE : ∀ t ∈ (tmpGraphOf R).edgeView,
      (t.1 ∈ V ∧ t.2.1 ∈ V ∧ t.1 ≠ t.2.1) ∧
        ∃ e ∈ R.edges, nrm (e.1, e.2.1) = nrm (t.1, t.2.1) := by
    intro t ht
    obtain ⟨hw, e, he, hnr⟩ := tmp_view_wt R hWF t ht
    have hre := hRe e he
    have hne := edgeView_ne _ hTWF t ht
    rcases nrm_inj_ne e.1 e.2.1 t.1 t.2.1 hnr with ⟨h1, h2⟩ | ⟨h1, h2⟩
    · exact ⟨⟨h1 ▸ hre.1, h2 ▸ hre.2, hne⟩, e, he, hnr⟩
    · exact ⟨⟨h2 ▸ hre.2, h1 ▸ hre.1, hne⟩, e, he, hnr⟩
  have hsubV : ∀ m2 : List (ℕ × ℕ × Weight), m2.Sublist (tmpGraphOf R).edgeView →
      ∀ x ∈ m2.flatMap (fun t => [t.1, t.2.1]), x ∈ V := by
    intro m2 hsub x hx
    rw [List.mem_flatMap] at hx
    obtain ⟨t, ht, hxt⟩ := hx
    have h := (hmemE t (hsub.subset ht)).1
    rw [List.mem_cons, List.mem_singleton] at hxt
    rcases hxt with rfl | rfl
    · exact h.1
    · exact h.2.1
  have hbound : ∀ m2 ∈ matchingsOf (tmpGraphOf R).edgeView, 2 * m2.length ≤ V.length := by
    intro m2 hm2
    obtain ⟨hsub, hdisj⟩ := (matchingsOf_iff _ m2).mp hm2
    have hnd := matching_endpoints_nodup m2 hdisj
      (fun t ht => ((hmemE t (hsub.subset ht)).1).2.2)
    have hlen := nodup_len_le _ V hnd hVnd (hsubV m2 hsub)
    have hl2 : (m2.flatMap (fun t : ℕ × ℕ × Weight => [t.1, t.2.1])).length
        = 2 * m2.length := endpoints_len (fun t => t.1) (fun t => t.2.1) m2
    exact le_of_eq_of_le hl2.symm hlen
  -- a perfect matching exists, built from a pairing of V
  obtain ⟨hPmem, hPcov, hPdisjU, hPcnt⟩ :=
    pairUp_spec V.length V (le_refl _) hVnd hVev
  have hcompl : ∀ p ∈ pairUp V,
      ∃ t ∈ (tmpGraphOf R).edgeView, nrm (t.1, t.2.1) = nrm p := by
    intro p hp
    obtain ⟨hp1, hp2, hpne⟩ := hPmem p hp
    obtain ⟨e, he, hnr⟩ := hcomp p.1 hp1 p.2 hp2 hpne
    obtain ⟨t, ht, hnr2⟩ := tmp_view_covers R hWF e he
    exact ⟨t, ht, hnr2.trans hnr⟩
  obtain ⟨ms, hms, hmsP, _⟩ := matching_of_family (tmpGraphOf R).edgeView
    (edgeView_pw _ hTWF) (pairUp V) hPdisjU hcompl
  have hlms : ms.length = (pairUp V).length := by
    have h := hmsP.length_eq
    rw [List.length_map, List.length_map] at h
    exact h
  have hbs : 2 * ms.length = V.length := by
    rw [hlms]
    exact hPcnt
  -- the argmax matching
  obtain ⟨m0, hm0def⟩ :
      ∃ m0, m0 = (matchingsOf (tmpGraphOf R).edgeView).foldl betterMatching [] := ⟨_, rfl⟩
  have hm0mem : m0 ∈ matchingsOf (tmpGraphOf R).edgeView := by
    rw [hm0def]
    rcases foldl_better_mem (matchingsOf (tmpGraphOf R).edgeView) [] with h | h
    · rw [h, matchingsOf_iff]
      exact ⟨List.nil_sublist _, List.Pairwise.nil⟩
    · exact h
  have hge : ∀ m2 ∈ matchingsOf (tmpGraphOf R).edgeView, geM m0 m2 := by
    intro m2 hm2
    rw [hm0def]
    exact (foldl_better_ge (matchingsOf (tmpGraphOf R).edgeView) []).2 m2 hm2
  have hlenm0 : 2 * m0.length = V.length := by
    have hb := hbound m0 hm0mem
    have hgeMs := hge ms hms
    unfold geM at hgeMs
    rcases hgeMs with h | h
    · omega
    · omega
  obtain ⟨hm0sub, hm0disj⟩ := (matchingsOf_iff _ m0).mp hm0mem
  have hm0ne : ∀ t ∈ m0, t.1 ≠ t.2.1 :=
    fun t ht => ((hmemE t (hm0sub.subset ht)).1).2.2
  have hm0nd := matching_endpoints_nodup m0 hm0disj hm0ne
  have hm0perm : (m0.flatMap (fun t => [t.1, t.2.1])).Perm V := by
    refine nodup_sub_len_perm _ V hm0nd hVnd (hsubV m0 hm0sub) ?_
    have hl := endpoints_len (fun t => t.1) (fun t => t.2.1) m0
    exact le_of_eq (hl.trans hlenm0).symm
  -- the rebuilt matching graph stores the argmax pairs with original weights
  have hmatch : max_weight_matching (tmpGraphOf R) = m0.map (fun e => (e.1, e.2.1)) := by
    unfold max_weight_matching
    rw [← hm0def]
  have hKedges : (match_minimal_weight R).edges
      = m0.map (fun t => (t.1, t.2.1, R.wt t.1 t.2.1)) := by
    rw [match_minimal_weight_eq, hmatch,
      pairFold_edges (fun p => R.wt p.1 p.2) _ Graph.empty ?pw
        (fun p _ e he => absurd he (by simp [Graph.empty]))]
    · show [] ++ _ = _
      rw [List.nil_append, List.map_map]
      rfl
    case pw =>
      rw [List.pairwise_map]
      refine hm0disj.imp ?_
      intro e f h
      show offPair (e.1, e.2.1) (f.1, f.2.1)
      unfold disjointEdge at h
      rw [Bool.and_eq_true, Bool.and_eq_true, Bool.and_eq_true] at h
      obtain ⟨⟨⟨d1, d2⟩, d3⟩, d4⟩ := h
      rw [Bool.not_eq_eq_eq_not, Bool.not_true, beq_eq_false_iff_ne] at d1 d2 d3 d4
      rintro (⟨h1, h2⟩ | ⟨h1, h2⟩)
      · exact d1 h1
      · exact d2 h1
  refine ⟨m0, hKedges, ?_, hm0disj, ?_, hm0perm, ?_⟩
  · refine ⟨?_, ?_, ?_⟩
    · rw [match_minimal_weight_eq]
      exact pairFold_nodes_nodup _ _ Graph.empty (by simp [Graph.empty])
    · intro e he
      have hmemN : ∀ x, x ∈ (match_minimal_weight R).nodes ↔
          x ∈ (Graph.empty : Graph).nodes ∨
          ∃ p ∈ max_weight_matching (tmpGraphOf R), x = p.1 ∨ x = p.2 := by
        intro x
        rw [match_minimal_weight_eq]
        exact pairFold_nodes_mem _ _ Graph.empty x
      rw [hKedges, List.mem_map] at he
      obtain ⟨t, ht, rfl⟩ := he
      have hpm : (t.1, t.2.1) ∈ max_weight_matching (tmpGraphOf R) := by
        rw [hmatch, List.mem_map]
        exact ⟨t, ht, rfl⟩
      refine ⟨?_, ?_, hm0ne t ht⟩
      · rw [hmemN]
        exact Or.inr ⟨(t.1, t.2.1), hpm, Or.inl rfl⟩
      · rw [hmemN]
        exact Or.inr ⟨(t.1, t.2.1), hpm, Or.inr rfl⟩
    · rw [hKedges, List.pairwise_map]
      refine hm0disj.imp ?_
      intro e f h
      unfold disjointEdge at h
      rw [Bool.and_eq_true, Bool.and_eq_true, Bool.and_eq_true] at h
      obtain ⟨⟨⟨d1, d2⟩, d3⟩, d4⟩ := h
      rw [Bool.not_eq_eq_eq_not, Bool.not_true, beq_eq_false_iff_ne] at d1 d2 d3 d4
      rintro (⟨h1, h2⟩ | ⟨h1, h2⟩)
      · exact d1 h1
      · exact d2 h1
  · intro t ht
    have h := hmemE t (hm0sub.subset ht)
    exact ⟨h.1.2.2, h.2⟩
  · intro P hPd hPin hPcov2
    -- the family P pairs up all of V
    have hPne : ∀ p ∈ P, p.1 ≠ p.2 := fun p hp => (hPin p hp).2.2
    have hPnd := pdisj_endpoints_nodup P hPd hPne
    have hPsubV : ∀ x ∈ P.flatMap (fun p => [p.1, p.2]), x ∈ V := by
      intro x hx
      rw [List.mem_flatMap] at hx
      obtain ⟨p, hp, hxp⟩ := hx
      rw [List.mem_cons, List.mem_singleton] at hxp
      rcases hxp with rfl | rfl
      · exact (hPin p hp).1
      · exact (hPin p hp).2.1
    have hPle : 2 * P.length ≤ V.length := by
      have h := nodup_len_le _ V hPnd hVnd hPsubV
      exact le_of_eq_of_le (pair_endpoints_len P).symm h
    have hPge : V.length ≤ 2 * P.length := by
      have h := nodup_len_le V _ hVnd hPnd (by
        intro v hv
        obtain ⟨p, hp, hvp⟩ := hPcov2 v hv
        rw [List.mem_flatMap]
        refine ⟨p, hp, ?_⟩
        rw [List.mem_cons, List.mem_singleton]
        exact hvp)
      exact le_of_le_of_eq h (pair_endpoints_len P)
    -- realise P as a matching of the tmp graph
    have hcompl2 : ∀ p ∈ P,
        ∃ t ∈ (tmpGraphOf R).edgeView, nrm (t.1, t.2.1) = nrm p := by
      intro p hp
      obtain ⟨e, he, hnr⟩ := hcomp p.1 (hPin p hp).1 p.2 (hPin p hp).2.1 (hPne p hp)
      obtain ⟨t, ht, hnr2⟩ := tmp_view_covers R hWF e he
      exact ⟨t, ht, hnr2.trans hnr⟩
    obtain ⟨ms2, hms2, hms2P, _⟩ := matching_of_family (tmpGraphOf R).edgeView
      (edgeView_pw _ hTWF) P hPd hcompl2
    have hlms2 : ms2.length = P.length := by
      have h := hms2P.length_eq
      rw [List.length_map, List.length_map] at h
      exact h
    have hbs2 : 2 * ms2.length = V.length := by omega
    have hge2 := hge ms2 hms2
    unfold geM at hge2
    have hwle : matchWeight ms2 ≤ matchWeight m0 := by
      rcases hge2 with h | h
      · omega
      · exact h.2
    obtain ⟨hms2sub, _⟩ := (matchingsOf_iff _ ms2).mp hms2
    have hwm0 : matchWeight m0 = -((m0.map (fun t => R.wt t.1 t.2.1)).sum) := by
      unfold matchWeight
      rw [List.map_congr_left
        (fun t ht => (tmp_view_wt R hWF t (hm0sub.subset ht)).1)]
      exact sum_map_neg2 (fun t => R.wt t.1 t.2.1) m0
    have hwms2 : matchWeight ms2 = -((ms2.map (fun t => R.wt t.1 t.2.1)).sum) := by
      unfold matchWeight
      rw [List.map_congr_left
        (fun t ht => (tmp_view_wt R hWF t (hms2sub.subset ht)).1)]
      exact sum_map_neg2 (fun t => R.wt t.1 t.2.1) ms2
    have hsums : (m0.map (fun t => R.wt t.1 t.2.1)).sum
        ≤ (ms2.map (fun t => R.wt t.1 t.2.1)).sum := by
      rw [hwm0, hwms2] at hwle
      linarith
    have hsum2 : (ms2.map (fun t => R.wt t.1 t.2.1)).sum
        = (P.map (fun p => R.wt p.1 p.2)).sum := by
      have h1 : ms2.map (fun t => R.wt t.1 t.2.1)
          = (ms2.map (fun t => nrm (t.1, t.2.1))).map (fun q => R.wt q.1 q.2) := by
        rw [List.map_map]
        refine List.map_congr_left ?_
        intro t _
        exact wt_nrm_congr R _ _ _ _ (nrm_idem (t.1, t.2.1)).symm
      have h2 : P.map (fun p => R.wt p.1 p.2)
          = (P.map nrm).map (fun q => R.wt q.1 q.2) := by
        rw [List.map_map]
        refine List.map_congr_left ?_
        intro p _
        exact wt_nrm_congr R _ _ _ _ (nrm_idem p).symm
      rw [h1, h2]
      exact List.Perm.sum_eq (hms2P.map (fun q => R.wt q.1 q.2))
    rw [← hsum2]
    exact hsums

theorem mem_oddList (N : ℕ) (T : Graph) (x : ℕ) :
    x ∈ oddList N T ↔ x < N ∧ ¬ (T.degree x % 2 = 0) := by
  unfold oddList
  rw [List.mem_filter, List.mem_range]
  simp

theorem wtM_nrm_congr (M : Mat) (N : ℕ) (hsq : SquareSym M N) (a b c d : ℕ)
    (ha : a < N) (hb : b < N) (h : nrm (a, b) = nrm (c, d)) :
    wt M a b = wt M c d := by
  rcases nrm_inj_ne a b c d h with ⟨h1, h2⟩ | ⟨h1, h2⟩
  · rw [h1, h2]
  · rw [← h2, ← h1]
    exact hsq.2.2.2.2 a ha b hb

/-- The matcher stage of `christofides_algorithm`, dissected: the reduced
graph, its odd-vertex set, and the matching list behind the matching
graph, with the matching's disjointness, coverage and minimality. -/
theorem christo_match_spec (M : Mat) (N : ℕ) (hsq : SquareSym M N) (hN : 2 ≤ N)
    (T R K : Graph) (V : List ℕ)
    (hT : T = minimum_spanning_tree (create_weighted_graph M))
    (hR : R = remove_even_degree_vertices (create_weighted_graph M) T)
    (hK : K = match_minimal_weight R)
    (hV : V = oddList N T) :
    ∃ m : List (ℕ × ℕ × Weight),
      K.edges = m.map (fun t => (t.1, t.2.1, R.wt t.1 t.2.1)) ∧
      List.Pairwise (fun e f => disjointEdge e f = true) m ∧
      (∀ t ∈ m, t.1 ∈ V ∧ t.2.1 ∈ V ∧ t.1 ≠ t.2.1 ∧
        R.wt t.1 t.2.1 = wt M t.1 t.2.1) ∧
      (m.flatMap (fun t => [t.1, t.2.1])).Perm V ∧
      (∀ v, v ∈ V ↔ v < N ∧ ¬ (T.degree v % 2 = 0)) ∧
      V.Nodup ∧
      V.length % 2 = 0 ∧
      R.nodes = V ∧
      (∀ e ∈ R.edges, e.1 ∈ V ∧ e.2.1 ∈ V ∧ e.1 ≠ e.2.1 ∧
        e.2.2 = wt M e.1 e.2.1) ∧
      (∀ u ∈ V, ∀ v ∈ V, u ≠ v → ∃ e ∈ R.edges, nrm (e.1, e.2.1) = nrm (u, v)) ∧
      R.WF ∧
      K.WF ∧
      (∀ P : List (ℕ × ℕ), List.Pairwise pdisj P →
        (∀ p ∈ P, p.1 ∈ V ∧ p.2 ∈ V ∧ p.1 ≠ p.2) →
        (∀ v ∈ V, ∃ p ∈ P, v = p.1 ∨ v = p.2) →
        (m.map (fun t => R.wt t.1 t.2.1)).sum
          ≤ (P.map (fun p => wt M p.1 p.2)).sum) := by
  obtain ⟨hTn0, hTWF0, hTlen, hTconn, hTbridge, hTedge⟩ := mst_props M N hsq hN
  have hTn : T.nodes = List.range N := by rw [hT]; exact hTn0
  have hTWF : T.WF := by rw [hT]; exact hTWF0
  have hGn := cwg_nodes M N hsq hN
  have hGW := cwg_WF M N hsq hN
  have hVmem : ∀ v, v ∈ V ↔ v < N ∧ ¬ (T.degree v % 2 = 0) := by
    intro v
    rw [hV]
    exact mem_oddList N T v
  have hVnd : V.Nodup := by
    rw [hV]
    exact (List.nodup_range N).filter _
  have hVev : V.length % 2 = 0 := by
    rw [hV]
    exact oddList_even N T hTWF hTn
  have hRn : R.nodes = V := by
    rw [hR, hV]
    exact red_nodes_spec _ T N hGn hTn
  have hRedges : R.edges = (create_weighted_graph M).edges.filter
      (fun e => !decide (T.degree e.1 % 2 = 0) && !decide (T.degree e.2.1 % 2 = 0)) := by
    rw [hR]
    exact red_edges_spec _ T N hGW hGn hTn
  have hRedge_mem : ∀ e ∈ R.edges,
      e.1 ∈ V ∧ e.2.1 ∈ V ∧ e.1 ≠ e.2.1 ∧ e.2.2 = wt M e.1 e.2.1 := by
    intro e he
    rw [hRedges, List.mem_filter] at he
    obtain ⟨heG, hodd⟩ := he
    rw [Bool.and_eq_true] at hodd
    have h1 : ¬ (T.degree e.1 % 2 = 0) := by simpa using hodd.1
    have h2 : ¬ (T.degree e.2.1 % 2 = 0) := by simpa using hodd.2
    have hc := (cwg_mem_edges M N hsq e.1 e.2.1 e.2.2).mp heG
    refine ⟨?_, ?_, by omega, hc.2.2⟩
    · exact (hVmem e.1).mpr ⟨by omega, h1⟩
    · exact (hVmem e.2.1).mpr ⟨hc.2.1, h2⟩
  have hcomp : ∀ u ∈ V, ∀ v ∈ V, u ≠ v →
      ∃ e ∈ R.edges, nrm (e.1, e.2.1) = nrm (u, v) := by
    intro u hu v hv huv
    have hu2 := (hVmem u).mp hu
    have hv2 := (hVmem v).mp hv
    rcases Nat.lt_or_ge u v with hlt | hge
    · refine ⟨(u, v, wt M u v), ?_, rfl⟩
      rw [hRedges, List.mem_filter]
      refine ⟨(cwg_mem_edges M N hsq u v _).mpr ⟨hlt, hv2.1, rfl⟩, ?_⟩
      show (!decide (T.degree u % 2 = 0) && !decide (T.degree v % 2 = 0)) = true
      simp [hu2.2, hv2.2]
    · have hlt : v < u := by omega
      refine ⟨(v, u, wt M v u), ?_, nrm_comm v u⟩
      rw [hRedges, List.mem_filter]
      refine ⟨(cwg_mem_edges M N hsq v u _).mpr ⟨hlt, hu2.1, rfl⟩, ?_⟩
      show (!decide (T.degree v % 2 = 0) && !decide (T.degree u % 2 = 0)) = true
      simp [hu2.2, hv2.2]
  have hRWF : R.WF := by
    refine ⟨?_, ?_, ?_⟩
    · rw [hRn]
      exact hVnd
    · intro e he
      have h := hRedge_mem e he
      rw [hRn]
      exact ⟨h.1, h.2.1, h.2.2.1⟩
    · rw [hRedges]
      exact hGW.2.2.sublist (List.filter_sublist _)
  obtain ⟨m, hmE, hKWF0, hmdisj, hmmem, hmperm, hmmin⟩ :=
    mmw_spec R V hRWF hVnd hVev
      (fun e he => ⟨(hRedge_mem e he).1, (hRedge_mem e he).2.1⟩) hcomp
  have hKE : K.edges = m.map (fun t => (t.1, t.2.1, R.wt t.1 t.2.1)) := by
    rw [hK]
    exact hmE
  have ht_endpoints : ∀ t ∈ m,
      t.1 ∈ V ∧ t.2.1 ∈ V ∧ t.1 ≠ t.2.1 ∧ R.wt t.1 t.2.1 = wt M t.1 t.2.1 := by
    intro t ht
    obtain ⟨htne, e0, he0, hnr⟩ := hmmem t ht
    have he0m := hRedge_mem e0 he0
    have hb1 : e0.1 < N := ((hVmem e0.1).mp he0m.1).1
    have hb2 : e0.2.1 < N := ((hVmem e0.2.1).mp he0m.2.1).1
    have hRwt : R.wt t.1 t.2.1 = e0.2.2 := by
      rw [wt_nrm_congr R t.1 t.2.1 e0.1 e0.2.1 hnr.symm]
      exact (wt_of_mem R hRWF.2.2 e0 he0).1
    have hMwt : wt M e0.1 e0.2.1 = wt M t.1 t.2.1 :=
      wtM_nrm_congr M N hsq e0.1 e0.2.1 t.1 t.2.1 hb1 hb2 hnr
    rcases nrm_inj_ne e0.1 e0.2.1 t.1 t.2.1 hnr with ⟨h1, h2⟩ | ⟨h1, h2⟩
    · exact ⟨h1 ▸ he0m.1, h2 ▸ he0m.2.1, htne, by rw [hRwt, he0m.2.2.2, hMwt]⟩
    · exact ⟨h2 ▸ he0m.2.1, h1 ▸ he0m.1, htne, by rw [hRwt, he0m.2.2.2, hMwt]⟩
  have hKWF : K.WF := by
    rw [hK]
    exact hKWF0
  refine ⟨m, hKE, hmdisj, ht_endpoints, hmperm, hVmem, hVnd, hVev, hRn,
    hRedge_mem, hcomp, hRWF, hKWF, ?_⟩
  intro P hPd hPin hPcov
  have h := hmmin P hPd hPin hPcov
  have hRHS : P.map (fun p => R.wt p.1 p.2) = P.map (fun p => wt M p.1 p.2) := by
    refine List.map_congr_left ?_
    intro p hp
    have hpin := hPin p hp
    obtain ⟨e0, he0, hnr⟩ := hcomp p.1 hpin.1 p.2 hpin.2.1 hpin.2.2
    have he0m := hRedge_mem e0 he0
    have hb1 : e0.1 < N := ((hVmem e0.1).mp he0m.1).1
    have hb2 : e0.2.1 < N := ((hVmem e0.2.1).mp he0m.2.1).1
    show R.wt p.1 p.2 = wt M p.1 p.2
    rw [wt_nrm_congr R p.1 p.2 e0.1 e0.2.1 hnr.symm,
      (wt_of_mem R hRWF.2.2 e0 he0).1, he0m.2.2.2]
    exact wtM_nrm_congr M N hsq e0.1 e0.2.1 p.1 p.2 hb1 hb2 hnr
  rw [← hRHS]
  exact h

/-- Claim C3: in `christofides_algorithm` the graph handed to the matcher
(`removedGraph`) is the complete subgraph induced on exactly the
odd-tree-degree vertices, whose number is even, carrying the original
matrix weights; and the matching graph built from it — negating all
weights, running maximum-weight matching with the maximum-cardinality
constraint, then restoring the original weights on the chosen edges — is
a perfect matching of those vertices of minimum total original weight. -/
theorem claim_C3 (M : Mat) (N : ℕ) (hsq : SquareSym M N) (hN : 2 ≤ N)
    (T R K : Graph) (V : List ℕ)
    (hT : T = minimum_spanning_tree (create_weighted_graph M))
    (hR : R = remove_even_degree_vertices (create_weighted_graph M) T)
    (hK : K = match_minimal_weight R)
    (hV : V = oddList N T) :
    R.nodes = V ∧
    V.length % 2 = 0 ∧
    (∀ v ∈ V, v < N ∧ T.degree v % 2 = 1) ∧
    (∀ v, v < N → T.degree v % 2 = 1 → v ∈ V) ∧
    (∀ e ∈ R.edges, e.1 ∈ V ∧ e.2.1 ∈ V ∧ e.1 ≠ e.2.1 ∧ e.2.2 = wt M e.1 e.2.1) ∧
    (∀ u ∈ V, ∀ v ∈ V, u ≠ v → ∃ e ∈ R.edges, nrm (e.1, e.2.1) = nrm (u, v)) ∧
    (∀ e ∈ K.edges, e.1 ∈ V ∧ e.2.1 ∈ V ∧ e.1 ≠ e.2.1 ∧ e.2.2 = wt M e.1 e.2.1) ∧
    List.Pairwise (fun e f => disjointEdge e f = true) K.edges ∧
    (K.edges.flatMap (fun e => [e.1, e.2.1])).Perm V ∧
    (∀ P : List (ℕ × ℕ), List.Pairwise pdisj P →
      (∀ p ∈ P, p.1 ∈ V ∧ p.2 ∈ V ∧ p.1 ≠ p.2) →
      (∀ v ∈ V, ∃ p ∈ P, v = p.1 ∨ v = p.2) →
      (K.edges.map (fun e => e.2.2)).sum ≤ (P.map (fun p => wt M p.1 p.2)).sum) := by
  obtain ⟨m, hKE, hmdisj, hmem, hperm, hVmem, hVnd, hVev, hRn, hRedge_mem,
    hcomp, hRWF, hKWF, hmin⟩ := christo_match_spec M N hsq hN T R K V hT hR hK hV
  refine ⟨hRn, hVev, ?_, ?_, hRedge_mem, hcomp, ?_, ?_, ?_, ?_⟩
  · intro v hv
    have h := (hVmem v).mp hv
    exact ⟨h.1, by omega⟩
  · intro v hv hdeg
    exact (hVmem v).mpr ⟨hv, by omega⟩
  · intro e he
    rw [hKE, List.mem_map] at he
    obtain ⟨t, ht, rfl⟩ := he
    have h := hmem t ht
    exact ⟨h.1, h.2.1, h.2.2.1, h.2.2.2⟩
  · rw [hKE, List.pairwise_map]
    exact hmdisj.imp (fun h => h)
  · rw [hKE, List.flatMap_map]
    exact hperm
  · intro P hPd hPin hPcov
    have h := hmin P hPd hPin hPcov
    have hL : K.edges.map (fun e => e.2.2) = m.map (fun t => R.wt t.1 t.2.1) := by
      rw [hKE, List.map_map]
      rfl
    rw [hL]
    exact h

/-- Witness for C3 on the concrete 3-vertex fixture `M3`: the matcher's
output is a perfect matching of the odd-degree tree vertices. -/
theorem claim_C3_witness :
    ((match_minimal_weight (remove_even_degree_vertices (create_weighted_graph M3)
        (minimum_spanning_tree (create_weighted_graph M3)))).edges.flatMap
      (fun e => [e.1, e.2.1])).Perm
      (oddList 3 (minimum_spanning_tree (create_weighted_graph M3))) :=
  (claim_C3 M3 3 (by decide) (by decide)
    (minimum_spanning_tree (create_weighted_graph M3))
    (remove_even_degree_vertices (create_weighted_graph M3)
      (minimum_spanning_tree (create_weighted_graph M3)))
    (match_minimal_weight (remove_even_degree_vertices (create_weighted_graph M3)
      (minimum_spanning_tree (create_weighted_graph M3))))
    (oddList 3 (minimum_spanning_tree (create_weighted_graph M3)))
    rfl rfl rfl rfl).2.2.2.2.2.2.2.2.1

/-! ## The merged multigraph of the Christofides pipeline -/

theorem edgeMS_eq_fst_wedge (E : List (ℕ × ℕ × Weight)) :
    edgeMS E = Multiset.map Prod.fst (wedgeMS E) := (wedgeMS_fst E).symm

theorem edgeView_edgeMS (G : Graph) (hWF : G.WF) :
    edgeMS G.edgeView = edgeMS G.edges := by
  rw [edgeMS_eq_fst_wedge, edgeMS_eq_fst_wedge, edgeView_wedge G hWF]

theorem pairDeg_count (a b v : ℕ) : pairDeg (a, b) v = ([a, b] : List ℕ).count v := by
  unfold pairDeg
  rw [List.count_cons, List.count_cons, List.count_nil]
  by_cases ha : a = v <;> by_cases hb : b = v <;> simp [ha, hb]

theorem msDeg_eq_count (v : ℕ) :
    ∀ E : List (ℕ × ℕ × Weight),
      msDeg (edgeMS E) v = (E.flatMap (fun e => [e.1, e.2.1])).count v := by
  intro E
  induction E with
  | nil => rfl
  | cons e E ih =>
      have h1 : edgeMS (e :: E) = nrm (e.1, e.2.1) ::ₘ edgeMS E := rfl
      rw [h1, msDeg_cons, pairDeg_nrm, pairDeg_count, ih, List.flatMap_cons,
        List.count_append]

theorem mfold_nodes_fixed :
    ∀ (L : List (ℕ × ℕ × Weight)) (D : MGraph),
      (∀ t ∈ L, t.1 ∈ D.nodes ∧ t.2.1 ∈ D.nodes) →
      (L.foldl mStep D).nodes = D.nodes := by
  intro L
  induction L with
  | nil => intro D _; rfl
  | cons t L ih =>
      intro D h
      have ht := h t (List.mem_cons_self t L)
      have hstep : (mStep D t).nodes = D.nodes := by
        show ((D.addNode t.1).addNode t.2.1).nodes = D.nodes
        have h1 : D.addNode t.1 = D := by
          unfold MGraph.addNode
          rw [if_pos ht.1]
        rw [h1]
        have h2 : D.addNode t.2.1 = D := by
          unfold MGraph.addNode
          rw [if_pos ht.2]
        rw [h2]
      show (L.foldl mStep (mStep D t)).nodes = D.nodes
      rw [ih (mStep D t) (fun s hs => by
        rw [hstep]
        exact h s (List.mem_cons_of_mem t hs))]
      exact hstep

theorem edgeView_endpoints (G : Graph) (hWF : G.WF) (t : ℕ × ℕ × Weight)
    (ht : t ∈ G.edgeView) : t.1 ∈ G.nodes ∧ t.2.1 ∈ G.nodes := by
  obtain ⟨e, he, hnr, _⟩ := edgeView_mem G hWF t ht
  have h := hWF.2.1 e he
  rcases nrm_inj_ne e.1 e.2.1 t.1 t.2.1 hnr with ⟨h1, h2⟩ | ⟨h1, h2⟩
  · exact ⟨h1 ▸ h.1, h2 ▸ h.2.1⟩
  · exact ⟨h2 ▸ h.2.1, h1 ▸ h.1⟩

theorem edgeView_length (G : Graph) (hWF : G.WF) :
    G.edgeView.length = G.edges.length := by
  have h := congrArg Multiset.card (edgeView_wedge G hWF)
  unfold wedgeMS at h
  rw [Multiset.coe_card, Multiset.coe_card, List.length_map, List.length_map] at h
  exact h

/-- All structural facts about the merged multigraph of the Christofides
pipeline. -/
theorem merged_props (M : Mat) (N : ℕ) (hsq : SquareSym M N) (hN : 2 ≤ N)
    (T R K : Graph) (D : MGraph)
    (hT : T = minimum_spanning_tree (create_weighted_graph M))
    (hR : R = remove_even_degree_vertices (create_weighted_graph M) T)
    (hK : K = match_minimal_weight R)
    (hD : D = merge_two_graphs T K) :
    D.nodes = List.range N ∧
    D.WF ∧
    D.ConnectedAbs ∧
    D.EvenAbs ∧
    1 ≤ D.edges.length ∧
    (∀ q ∈ edgeMS D.edges, q.1 < N ∧ q.2 < N) ∧
    (∀ z, z < N → 0 < msDeg (edgeMS D.edges) z) ∧
    (∀ v, v < N → T.degree v % 2 = 0 → D.degree v = T.degree v) ∧
    (∀ v, v < N → T.degree v % 2 = 1 → D.degree v = T.degree v + 1) := by
  obtain ⟨m, hKE, hmdisj, hmem, hperm, hVmem, hVnd, hVev, hRn, hRedge_mem,
    hcomp, hRWF, hKWF, hmin⟩ :=
    christo_match_spec M N hsq hN T R K (oddList N T) hT hR hK rfl
  obtain ⟨hTn0, hTWF0, hTlen, hTconn0, hTb0, hTe0⟩ := mst_props M N hsq hN
  have hTn : T.nodes = List.range N := by rw [hT]; exact hTn0
  have hTWF : T.WF := by rw [hT]; exact hTWF0
  have hTconn : T.ConnG := by rw [hT]; exact hTconn0
  have hKview_mem : ∀ s ∈ K.edgeView, s.1 ∈ oddList N T ∧ s.2.1 ∈ oddList N T := by
    intro s hs
    obtain ⟨e, he, hnr, _⟩ := edgeView_mem K hKWF s hs
    rw [hKE, List.mem_map] at he
    obtain ⟨t, ht, rfl⟩ := he
    have h := hmem t ht
    rcases nrm_inj_ne t.1 t.2.1 s.1 s.2.1 hnr with ⟨h1, h2⟩ | ⟨h1, h2⟩
    · exact ⟨h1 ▸ h.1, h2 ▸ h.2.1⟩
    · exact ⟨h2 ▸ h.2.1, h1 ▸ h.1⟩
  have hDfold : D = K.edgeView.foldl mStep (MGraph.mk T.nodes T.edgeView) := by
    rw [hD]
    rfl
  have hcov : ∀ s ∈ K.edgeView, s.1 ∈ (MGraph.mk T.nodes T.edgeView).nodes ∧
      s.2.1 ∈ (MGraph.mk T.nodes T.edgeView).nodes := by
    intro s hs
    have h := hKview_mem s hs
    show s.1 ∈ T.nodes ∧ s.2.1 ∈ T.nodes
    rw [hTn]
    exact ⟨List.mem_range.mpr ((mem_oddList N T s.1).mp h.1).1,
      List.mem_range.mpr ((mem_oddList N T s.2.1).mp h.2).1⟩
  have hDnodes : D.nodes = List.range N := by
    rw [hDfold, mfold_nodes_fixed K.edgeView (MGraph.mk T.nodes T.edgeView) hcov]
    exact hTn
  have hDedges : D.edges = T.edgeView ++ K.edgeView := by
    rw [hDfold, mfold_edges]
  have hdeg : ∀ v, D.degree v = T.degree v + msDeg (edgeMS K.edges) v := by
    intro v
    rw [degree_eq_msDeg, hDedges, edgeMS_append, msDeg_add,
      edgeView_edgeMS T hTWF, edgeView_edgeMS K hKWF,
      ← degree_eq_msDeg_simple T (fun e he => (hTWF.2.1 e he).2.2) v]
  have hKdeg : ∀ v, msDeg (edgeMS K.edges) v = if v ∈ oddList N T then 1 else 0 := by
    intro v
    rw [msDeg_eq_count v K.edges]
    have hKflat : K.edges.flatMap (fun e => [e.1, e.2.1])
        = m.flatMap (fun t => [t.1, t.2.1]) := by
      rw [hKE, List.flatMap_map]
    rw [hKflat, hperm.count_eq v]
    by_cases hv : v ∈ oddList N T
    · rw [if_pos hv]
      exact List.count_eq_one_of_mem hVnd hv
    · rw [if_neg hv]
      exact List.count_eq_zero_of_not_mem hv
  have hTlen2 : T.edges.length = N - 1 := by rw [hT]; exact hTlen
  have hTne : T.edges ≠ [] := by
    intro hc
    rw [hc] at hTlen2
    simp at hTlen2
    omega
  refine ⟨hDnodes, ?_, ⟨?_, ?_⟩, ?_, ?_, ?_, ?_, ?_, ?_⟩
  · refine ⟨by rw [hDnodes]; exact List.nodup_range N, ?_⟩
    intro e he
    rw [hDedges, List.mem_append] at he
    rcases he with he | he
    · have h := edgeView_endpoints T hTWF e he
      rw [hTn] at h
      rw [hDnodes]
      exact h
    · have h := hKview_mem e he
      rw [hDnodes]
      exact ⟨List.mem_range.mpr ((mem_oddList N T e.1).mp h.1).1,
        List.mem_range.mpr ((mem_oddList N T e.2.1).mp h.2).1⟩
  · rw [hDnodes]
    intro hc
    rw [List.range_eq_nil] at hc
    omega
  · intro u hu v hv
    rw [hDnodes] at hu hv
    have hre := hTconn.2 u (by rw [hTn]; exact hu) v (by rw [hTn]; exact hv)
    refine reach_mem_mono (edgeMS T.edges) (edgeMS D.edges) ?_ u v hre
    intro p hp
    rw [hDedges, edgeMS_append, edgeView_edgeMS T hTWF]
    exact Multiset.mem_add.mpr (Or.inl hp)
  · intro v hv
    rw [hdeg v, hKdeg v]
    by_cases ho : v ∈ oddList N T
    · rw [if_pos ho]
      have h2 := ((mem_oddList N T v).mp ho).2
      omega
    · rw [if_neg ho]
      have hv2 : v < N := by
        rw [hDnodes, List.mem_range] at hv
        exact hv
      by_cases h2 : T.degree v % 2 = 0
      · omega
      · exact absurd ((mem_oddList N T v).mpr ⟨hv2, h2⟩) ho
  · rw [hDedges, List.length_append, edgeView_length T hTWF]
    omega
  · rw [hDedges]
    refine edgeMS_bound _ N ?_
    intro e he
    rw [List.mem_append] at he
    rcases he with he | he
    · have h := edgeView_endpoints T hTWF e he
      rw [hTn] at h
      exact ⟨List.mem_range.mp h.1, List.mem_range.mp h.2⟩
    · have h := hKview_mem e he
      exact ⟨((mem_oddList N T e.1).mp h.1).1, ((mem_oddList N T e.2.1).mp h.2).1⟩
  · intro z hz
    have hzn : z ∈ T.nodes := by
      rw [hTn]
      exact List.mem_range.mpr hz
    have h1 := conn_pos_degree T hTWF hTconn hTne z hzn
    have h2 := hdeg z
    have h3 := degree_eq_msDeg D z
    omega
  · intro v hv hev
    have ho : v ∉ oddList N T := by
      intro hc
      exact ((mem_oddList N T v).mp hc).2 hev
    rw [hdeg v, hKdeg v, if_neg ho]
    omega
  · intro v hv hodd
    have ho : v ∈ oddList N T := (mem_oddList N T v).mpr ⟨hv, by omega⟩
    rw [hdeg v, hKdeg v, if_pos ho]

/-- Claim C4: the multigraph uniting the spanning tree with the matching
(no further doubling) spans all vertices, is connected, and has all
degrees even: even-tree-degree vertices keep their tree degree, and each
odd-tree-degree vertex gains exactly one incident matching edge. -/
theorem claim_C4 (M : Mat) (N : ℕ) (hsq : SquareSym M N) (hN : 2 ≤ N)
    (T R K : Graph) (D : MGraph)
    (hT : T = minimum_spanning_tree (create_weighted_graph M))
    (hR : R = remove_even_degree_vertices (create_weighted_graph M) T)
    (hK : K = match_minimal_weight R)
    (hD : D = merge_two_graphs T K) :
    D.nodes = List.range N ∧
    D.ConnectedAbs ∧
    D.EvenAbs ∧
    (∀ v, v < N → T.degree v % 2 = 0 → D.degree v = T.degree v) ∧
    (∀ v, v < N → T.degree v % 2 = 1 → D.degree v = T.degree v + 1) := by
  obtain ⟨h1, h2, h3, h4, h5, h6, h7, h8, h9⟩ :=
    merged_props M N hsq hN T R K D hT hR hK hD
  exact ⟨h1, h3, h4, h8, h9⟩

/-- Witness for C4 on the 3-vertex fixture: the merged multigraph has all
degrees even. -/
theorem claim_C4_witness :
    (merge_two_graphs (minimum_spanning_tree (create_weighted_graph M3))
      (match_minimal_weight (remove_even_degree_vertices (create_weighted_graph M3)
        (minimum_spanning_tree (create_weighted_graph M3))))).EvenAbs :=
  (claim_C4 M3 3 (by decide) (by decide) _ _ _ _ rfl rfl rfl rfl).2.2.1

/-- The Christofides pipeline produces a closed route of the right shape. -/
theorem christo_shape (M : Mat) (N start : ℕ) (hsq : SquareSym M N) (hN : 2 ≤ N)
    (hstart : start < N) :
    ∃ r, christofides_algorithm M start = some r ∧ r.length = N + 1 ∧
      r.head? = some start ∧ r.getLast? = some start ∧
      r.dropLast.Perm (List.range N) := by
  obtain ⟨hDn, hDWF, hDconn, hDeven, hDE, hDbound, hDcover, _, _⟩ :=
    merged_props M N hsq hN
      (minimum_spanning_tree (create_weighted_graph M))
      (remove_even_degree_vertices (create_weighted_graph M)
        (minimum_spanning_tree (create_weighted_graph M)))
      (match_minimal_weight (remove_even_degree_vertices (create_weighted_graph M)
        (minimum_spanning_tree (create_weighted_graph M))))
      (merge_two_graphs (minimum_spanning_tree (create_weighted_graph M))
        (match_minimal_weight (remove_even_degree_vertices (create_weighted_graph M)
          (minimum_spanning_tree (create_weighted_graph M)))))
      rfl rfl rfl rfl
  obtain ⟨P, hsome, hl, hh, hlst, hperm⟩ := pipeline_shape _ start N hDWF hDconn
    hDeven hDE (by rw [hDn, List.mem_range]; exact hstart) hDbound hDcover
  refine ⟨create_hamiltonian_path P, ?_, hl, hh, hlst, hperm⟩
  show (create_eulerian_path (merge_two_graphs
      (minimum_spanning_tree (create_weighted_graph M))
      (match_minimal_weight (remove_even_degree_vertices (create_weighted_graph M)
        (minimum_spanning_tree (create_weighted_graph M))))) start).map
      create_hamiltonian_path = some (create_hamiltonian_path P)
  rw [hsome]
  rfl

/-- Claim C1: on every symmetric cost matrix with at least two vertices and
every start vertex below N, both orchestrators return a list of N+1
vertices, closed at the start vertex, whose first N entries are a
permutation of all N vertices.  (For N = 1 both pipelines abort instead:
see the counterexample.) -/
theorem claim_C1 (M : Mat) (N start : ℕ) (hsq : SquareSym M N) (hN : 2 ≤ N)
    (hstart : start < N) :
    (∃ r, double_tree_algorithm M start = some r ∧ r.length = N + 1 ∧
      r.head? = some start ∧ r.getLast? = some start ∧
      r.dropLast.Perm (List.range N)) ∧
    (∃ r, christofides_algorithm M start = some r ∧ r.length = N + 1 ∧
      r.head? = some start ∧ r.getLast? = some start ∧
      r.dropLast.Perm (List.range N)) :=
  ⟨dta_shape M N start hsq hN hstart, christo_shape M N start hsq hN hstart⟩

/-- Witness for C1 on the 3-vertex fixture with start vertex 0. -/
theorem claim_C1_witness :
    (∃ r, double_tree_algorithm M3 0 = some r ∧ r.length = 3 + 1 ∧
      r.head? = some 0 ∧ r.getLast? = some 0 ∧
      r.dropLast.Perm (List.range 3)) ∧
    (∃ r, christofides_algorithm M3 0 = some r ∧ r.length = 3 + 1 ∧
      r.head? = some 0 ∧ r.getLast? = some 0 ∧
      r.dropLast.Perm (List.range 3)) :=
  claim_C1 M3 3 0 (by decide) (by decide) (by decide)

/-- Counterexample to the claim as stated: on the valid one-vertex matrix
`[[none]]` with start vertex 0, both orchestrators abort (the doubled tree
and the merged multigraph are empty, and networkx raises) instead of
returning the length-2 route `[0, 0]`. -/
theorem claim_C1_counterexample :
    SquareSym [[none]] 1 ∧ 0 < 1 ∧
    double_tree_algorithm [[none]] 0 = none ∧
    christofides_algorithm [[none]] 0 = none := by
  refine ⟨by decide, by decide, by decide, by decide⟩

/-! ## Route costs -/

/-- Sum of the weights of the consecutive pairs of a route. -/
def pairCost (M : Mat) (L : List ℕ) : Weight :=
  ((L.zip L.tail).map (fun p => wt M p.1 p.2)).sum

/-- Total weight of a multiset of vertex pairs. -/
def msWt (M : Mat) (S : Multiset (ℕ × ℕ)) : Weight :=
  (S.map (fun q => wt M q.1 q.2)).sum

/-- A metric instance: symmetric, nonnegative, triangle inequality. -/
def MetricM (M : Mat) (N : ℕ) : Prop :=
  SquareSym M N ∧
  (∀ i, i < N → ∀ j, j < N → i ≠ j → 0 ≤ wt M i j) ∧
  (∀ i, i < N → ∀ j, j < N → ∀ k, k < N → (i ≠ j ∧ j ≠ k ∧ i ≠ k) →
    wt M i k ≤ wt M i j + wt M j k)

theorem pairCost_nil (M : Mat) : pairCost M [] = 0 := rfl

theorem pairCost_single (M : Mat) (a : ℕ) : pairCost M [a] = 0 := rfl

theorem pairCost_cons2 (M : Mat) (a b : ℕ) (L : List ℕ) :
    pairCost M (a :: b :: L) = wt M a b + pairCost M (b :: L) := by
  unfold pairCost
  rw [List.tail_cons, List.zip_cons_cons, List.map_cons, List.sum_cons]
  rfl

theorem foldl_add_sum (f : ℕ → Weight) :
    ∀ (l : List ℕ) (acc : Weight),
      l.foldl (fun t i => t + f i) acc = acc + (l.map f).sum := by
  intro l
  induction l with
  | nil => intro acc; simp
  | cons a l ih =>
      intro acc
      rw [List.foldl_cons, ih, List.map_cons, List.sum_cons]
      ring

theorem range_pair_sum (M : Mat) :
    ∀ L : List ℕ,
      ((List.range (L.length - 1)).map
        (fun i => wt M (L.getD i 0) (L.getD (i + 1) 0))).sum = pairCost M L := by
  intro L
  induction L with
  | nil => rfl
  | cons a L ihL =>
      cases L with
      | nil => rfl
      | cons b r =>
          have hlen : (a :: b :: r : List ℕ).length - 1
              = ((b :: r : List ℕ).length - 1) + 1 := by
            simp
          rw [hlen, List.range_succ_eq_map, List.map_cons, List.sum_cons,
            List.map_map]
          have hmap : (List.range ((b :: r : List ℕ).length - 1)).map
              ((fun i => wt M ((a :: b :: r : List ℕ).getD i 0)
                ((a :: b :: r : List ℕ).getD (i + 1) 0)) ∘ Nat.succ)
              = (List.range ((b :: r : List ℕ).length - 1)).map
                (fun i => wt M ((b :: r : List ℕ).getD i 0)
                  ((b :: r : List ℕ).getD (i + 1) 0)) := by
            refine List.map_congr_left ?_
            intro i _
            rfl
          rw [hmap, ihL, pairCost_cons2]
          rfl

theorem ctc_eq (M : Mat) (route : List ℕ) :
    calc_total_cost route M = pairCost M route := by
  unfold calc_total_cost
  rw [foldl_add_sum (fun i => wt M (route.getD i 0) (route.getD (i + 1) 0))
    (List.range (route.length - 1)) 0, zero_add]
  exact range_pair_sum M route

theorem wt_diag (M : Mat) (N : ℕ) (hsq : SquareSym M N) (i : ℕ) (hi : i < N) :
    wt M i i = 0 := by
  unfold wt
  rw [hsq.2.2.2.1 i hi]
  rfl

theorem nonneg_all (M : Mat) (N : ℕ) (hm : MetricM M N) :
    ∀ i, i < N → ∀ j, j < N → 0 ≤ wt M i j := by
  intro i hi j hj
  by_cases hij : i = j
  · subst hij
    rw [wt_diag M N hm.1 i hi]
  · exact hm.2.1 i hi j hj hij

theorem tri_all (M : Mat) (N : ℕ) (hm : MetricM M N) :
    ∀ a b c, a < N → b < N → c < N → wt M a c ≤ wt M a b + wt M b c := by
  intro a b c ha hb hc
  by_cases hab : a = b
  · subst hab
    rw [wt_diag M N hm.1 a ha, zero_add]
  · by_cases hbc : b = c
    · subst hbc
      rw [wt_diag M N hm.1 b hb, add_zero]
    · by_cases hac : a = c
      · subst hac
        rw [wt_diag M N hm.1 a ha]
        have h1 := hm.2.1 a ha b hb hab
        have h2 : wt M b a = wt M a b := hm.1.2.2.2.2 b hb a ha
        rw [h2]
        linarith
      · exact hm.2.2 a ha b hb c hc ⟨hab, hbc, hac⟩

theorem pairCost_nonneg (M : Mat) (N : ℕ) (hm : MetricM M N) :
    ∀ L : List ℕ, (∀ v ∈ L, v < N) → 0 ≤ pairCost M L := by
  intro L
  induction L with
  | nil => intro _; rw [pairCost_nil]
  | cons a L ih =>
      intro hall
      cases L with
      | nil => rw [pairCost_single]
      | cons b r =>
          rw [pairCost_cons2]
          have h1 := nonneg_all M N hm a (hall a (List.mem_cons_self _ _)) b
            (hall b (List.mem_cons_of_mem _ (List.mem_cons_self _ _)))
          have h2 := ih (fun v hv => hall v (List.mem_cons_of_mem _ hv))
          linarith

/-- Shortcutting a chain can only lower its cost on a metric instance. -/
theorem chainCost (M : Mat) (N : ℕ) (hm : MetricM M N) :
    ∀ (L2 : List ℕ) (a : ℕ) (L1 : List ℕ), L1.Sublist L2 →
      L1.getLast? = L2.getLast? → a < N → (∀ v ∈ L2, v < N) →
      pairCost M (a :: L1) ≤ pairCost M (a :: L2) := by
  intro L2
  induction L2 with
  | nil =>
      intro a L1 hsub _ _ _
      rw [List.sublist_nil.mp hsub]
  | cons b L2 ih =>
      intro a L1 hsub hlast ha hall
      have hb : b < N := hall b (List.mem_cons_self _ _)
      have hall2 : ∀ v ∈ L2, v < N := fun v hv => hall v (List.mem_cons_of_mem _ hv)
      cases hsub with
      | cons x0 hsub2 =>
          cases L2 with
          | nil =>
              rw [List.sublist_nil.mp hsub2] at hlast
              simp at hlast
          | cons c L3 =>
              have hlast2 : L1.getLast? = (c :: L3).getLast? := by
                rw [hlast, List.getLast?_cons_cons]
              have h1 := ih a L1 hsub2 hlast2 ha hall2
              have hc : c < N := hall2 c (List.mem_cons_self _ _)
              have h2 : pairCost M (a :: c :: L3) ≤ pairCost M (a :: b :: c :: L3) := by
                rw [pairCost_cons2 M a c L3, pairCost_cons2 M a b (c :: L3),
                  pairCost_cons2 M b c L3]
                have h3 := tri_all M N hm a b c ha hb hc
                linarith
              linarith
      | cons₂ x0 hsub2 =>
          rename_i L1t
          rw [pairCost_cons2, pairCost_cons2 M a b L2]
          have hkey : pairCost M (b :: L1t) ≤ pairCost M (b :: L2) := by
            cases L1t with
            | nil =>
                rw [pairCost_single]
                exact pairCost_nonneg M N hm (b :: L2) hall
            | cons x L1s =>
                have hne2 : L2 ≠ [] := by
                  intro hc
                  subst hc
                  have := List.sublist_nil.mp hsub2
                  simp at this
                obtain ⟨c, L3, rfl⟩ : ∃ c L3, L2 = c :: L3 := by
                  cases L2 with
                  | nil => exact absurd rfl hne2
                  | cons c L3 => exact ⟨c, L3, rfl⟩
                have hlast2 : (x :: L1s).getLast? = (c :: L3).getLast? := by
                  have h1 : (b :: x :: L1s).getLast? = (x :: L1s).getLast? :=
                    List.getLast?_cons_cons
                  have h2 : (b :: c :: L3).getLast? = (c :: L3).getLast? :=
                    List.getLast?_cons_cons
                  rw [← h1, ← h2]
                  exact hlast
                exact ih b (x :: L1s) hsub2 hlast2 hb hall2
          linarith

theorem msWt_add (M : Mat) (A B : Multiset (ℕ × ℕ)) :
    msWt M (A + B) = msWt M A + msWt M B := by
  unfold msWt
  rw [Multiset.map_add, Multiset.sum_add]

theorem msWt_cons (M : Mat) (q : ℕ × ℕ) (S : Multiset (ℕ × ℕ)) :
    msWt M (q ::ₘ S) = wt M q.1 q.2 + msWt M S := by
  unfold msWt
  rw [Multiset.map_cons, Multiset.sum_cons]

theorem msWt_singleton (M : Mat) (q : ℕ × ℕ) : msWt M {q} = wt M q.1 q.2 := by
  unfold msWt
  simp

theorem wt_nrm_self (M : Mat) (N : ℕ) (hsq : SquareSym M N) (a b : ℕ)
    (ha : a < N) (hb : b < N) :
    wt M a b = wt M (nrm (a, b)).1 (nrm (a, b)).2 :=
  wtM_nrm_congr M N hsq a b (nrm (a, b)).1 (nrm (a, b)).2 ha hb
    (nrm_idem (a, b)).symm

theorem pairCost_eq_msWt (M : Mat) (N : ℕ) (hsq : SquareSym M N) :
    ∀ L : List ℕ, (∀ v ∈ L, v < N) → pairCost M L = msWt M (walkMS L) := by
  intro L
  induction L with
  | nil => intro _; rfl
  | cons a L ih =>
      intro hall
      cases L with
      | nil => rfl
      | cons b r =>
          rw [pairCost_cons2, walkMS_cons_cons, msWt_cons,
            ih (fun v hv => hall v (List.mem_cons_of_mem _ hv))]
          rw [← wt_nrm_self M N hsq a b (hall a (List.mem_cons_self _ _))
            (hall b (List.mem_cons_of_mem _ (List.mem_cons_self _ _)))]

theorem pairCost_append_last (M : Mat) (N : ℕ) (hsq : SquareSym M N)
    (L : List ℕ) (z p : ℕ) (hp : L.getLast? = some p)
    (hall : ∀ v ∈ L, v < N) (hz : z < N) (hpN : p < N) :
    pairCost M (L ++ [z]) = pairCost M L + wt M p z := by
  have hall2 : ∀ v ∈ L ++ [z], v < N := by
    intro v hv
    rw [List.mem_append, List.mem_singleton] at hv
    rcases hv with hv | rfl
    · exact hall v hv
    · exact hz
  rw [pairCost_eq_msWt M N hsq (L ++ [z]) hall2, pairCost_eq_msWt M N hsq L hall,
    walkMS_append_single L p z hp, msWt_add, msWt_singleton,
    ← wt_nrm_self M N hsq p z hpN hz]

theorem consec_pairs_good :
    ∀ L : List ℕ, L.Nodup →
      ((L.zip L.tail).map nrm).Nodup ∧ ∀ p ∈ L.zip L.tail, p.1 ≠ p.2 := by
  intro L
  induction L with
  | nil => intro _; exact ⟨List.nodup_nil, fun p hp => absurd hp (by simp)⟩
  | cons a L ih =>
      intro hnd
      rw [List.nodup_cons] at hnd
      cases L with
      | nil => exact ⟨by simp, fun p hp => absurd hp (by simp)⟩
      | cons b r =>
          obtain ⟨h1, h2⟩ := ih hnd.2
          have hzip : ((a :: b :: r).zip (a :: b :: r).tail)
              = (a, b) :: ((b :: r).zip r) := rfl
          rw [hzip]
          constructor
          · rw [List.map_cons]
            refine List.nodup_cons.mpr ⟨?_, h1⟩
            intro hc
            rw [List.mem_map] at hc
            obtain ⟨p, hp, hnr⟩ := hc
            have hcomp := List.of_mem_zip hp
            rcases nrm_inj_ne p.1 p.2 a b hnr with ⟨hx, hy⟩ | ⟨hx, hy⟩
            · exact hnd.1 (hx ▸ hcomp.1)
            · exact hnd.1 (List.mem_cons_of_mem b (hy ▸ hcomp.2))
          · intro p hp
            rcases List.mem_cons.mp hp with rfl | hp2
            · show a ≠ b
              intro hc
              exact hnd.1 (hc ▸ List.mem_cons_self b r)
            · exact h2 p hp2

theorem chain_reach :
    ∀ L : List ℕ, ∀ v ∈ L, ReachMS (walkMS L) (L.headD 0) v := by
  intro L
  induction L with
  | nil => intro v hv; exact absurd hv (by simp)
  | cons a L ih =>
      intro v hv
      rcases List.mem_cons.mp hv with rfl | hv2
      · exact Relation.ReflTransGen.refl
      · cases L with
        | nil => exact absurd hv2 (by simp)
        | cons b r =>
            have h1 := ih v hv2
            have hmono := reach_mem_mono (walkMS (b :: r)) (walkMS (a :: b :: r))
              (by
                intro p hp
                rw [walkMS_cons_cons]
                exact Multiset.mem_cons_of_mem hp) b v h1
            have hadj : adjRel (walkMS (a :: b :: r)) a b := by
              refine adj_nrm _ a b ?_
              rw [walkMS_cons_cons]
              exact Multiset.mem_cons_self _ _
            show ReachMS _ a v
            exact Relation.ReflTransGen.head hadj hmono

/-- The consecutive pairs of a Hamiltonian path form a spanning tree whose
weight is the path's cost. -/
theorem path_tree (M : Mat) (N : ℕ) (hsq : SquareSym M N) (hN : 2 ≤ N)
    (L : List ℕ) (hperm : L.Perm (List.range N)) :
    STree N ((L.zip L.tail).map nrm).toFinset ∧
    streeWt M ((L.zip L.tail).map nrm).toFinset = pairCost M L := by
  have hnd : L.Nodup := hperm.nodup_iff.mpr (List.nodup_range N)
  have hmem : ∀ x, x ∈ L ↔ x < N := by
    intro x
    rw [hperm.mem_iff, List.mem_range]
  have hlen : L.length = N := by
    rw [hperm.length_eq, List.length_range]
  obtain ⟨hplnd, hpne⟩ := consec_pairs_good L hnd
  have hfv : (((L.zip L.tail).map nrm).toFinset).val
      = ((L.zip L.tail).map nrm : Multiset (ℕ × ℕ)) := by
    have h2 : (((L.zip L.tail).map nrm).toFinset).val
        = ↑((L.zip L.tail).map nrm).dedup := rfl
    rw [h2, List.dedup_eq_self.mpr hplnd]
  have hbounds : ∀ p ∈ L.zip L.tail, p.1 < N ∧ p.2 < N := by
    intro p hp
    have hcomp := List.of_mem_zip hp
    exact ⟨(hmem p.1).mp hcomp.1, (hmem p.2).mp (List.mem_of_mem_tail hcomp.2)⟩
  refine ⟨⟨?_, ?_, ?_⟩, ?_⟩
  · intro p hp
    rw [List.mem_toFinset, List.mem_map] at hp
    obtain ⟨q, hq, rfl⟩ := hp
    have hb := hbounds q hq
    have hne := hpne q hq
    unfold nrm
    constructor <;> dsimp only <;> omega
  · show Multiset.card (((L.zip L.tail).map nrm).toFinset).val = N - 1
    rw [hfv, Multiset.coe_card, List.length_map, List.length_zip,
      List.length_tail, hlen]
    omega
  · intro u v hu hv
    rw [hfv]
    show ReachMS (walkMS L) u v
    have h1 := chain_reach L u ((hmem u).mpr hu)
    have h2 := chain_reach L v ((hmem v).mpr hv)
    exact ReachMS_trans _ _ _ _ (ReachMS_symm _ _ _ h1) h2
  · unfold streeWt
    rw [List.sum_toFinset _ hplnd, List.map_map]
    unfold pairCost
    refine congrArg List.sum ?_
    refine List.map_congr_left ?_
    intro q hq
    have hb := hbounds q hq
    show wt M (nrm q).1 (nrm q).2 = wt M q.1 q.2
    rw [← wt_nrm_self M N hsq q.1 q.2 hb.1 hb.2]

/-- Claim C2 (amended): on every metric instance the double-tree route
costs at most twice any closed tour visiting each vertex once. -/
theorem claim_C2 (M : Mat) (N start : ℕ) (hm : MetricM M N) (hN : 2 ≤ N)
    (hstart : start < N) (r tour : List ℕ)
    (hr : double_tree_algorithm M start = some r)
    (htour : tour.dropLast.Perm (List.range N))
    (hclosed : tour.getLast? = tour.head?) :
    calc_total_cost r M ≤ 2 * calc_total_cost tour M := by
  have hsq := hm.1
  obtain ⟨hTn, hTWF, hTlen, hTconn, hTbridge, hTe⟩ := mst_props M N hsq hN
  obtain ⟨T, hTdef⟩ : ∃ T, T = minimum_spanning_tree (create_weighted_graph M) :=
    ⟨_, rfl⟩
  rw [← hTdef] at hTn hTWF hTlen hTconn hTe
  obtain ⟨D, hDdef⟩ : ∃ D, D = duplicate_weighted_graph T := ⟨_, rfl⟩
  have hTne : T.edges ≠ [] := by
    intro hc
    rw [hc] at hTlen
    simp at hTlen
    omega
  have hdeg1 : ∀ v ∈ T.nodes, 1 ≤ T.degree v := conn_pos_degree T hTWF hTconn hTne
  have hWFD : D.WF := by rw [hDdef]; exact dup_WF T
  have hconnD : D.ConnectedAbs := by rw [hDdef]; exact dup_connected T hTWF hTconn hTne
  have hevenD : D.EvenAbs := by
    rw [hDdef]
    intro v _
    rw [dup_degree T hTWF v]
    omega
  have hDlen : D.edges.length = 2 * T.edges.length := by
    rw [hDdef]
    exact dup_edges_len T hTWF
  have hED : 1 ≤ D.edges.length := by
    rw [hDlen]
    omega
  have hstartD : start ∈ D.nodes := by
    rw [hDdef, dup_nodes_iff T hTWF]
    have hsn : start ∈ T.nodes := by
      rw [hTn, List.mem_range]
      exact hstart
    exact ⟨hsn, hdeg1 start hsn⟩
  have hdupMS : edgeMS D.edges = edgeMS T.edges + edgeMS T.edges := by
    rw [hDdef, edgeMS_eq_fst_wedge, dup_wedgeMS T hTWF, Multiset.map_add,
      ← edgeMS_eq_fst_wedge T.edges]
  have hboundT : ∀ q ∈ edgeMS T.edges, q.1 < N ∧ q.2 < N := by
    refine edgeMS_bound T.edges N ?_
    intro e he
    have h := hTe e he
    exact ⟨h.1, h.2.1⟩
  have hboundD : ∀ q ∈ edgeMS D.edges, q.1 < N ∧ q.2 < N := by
    intro q hq
    rw [hdupMS, Multiset.mem_add] at hq
    rcases hq with hq | hq <;> exact hboundT q hq
  obtain ⟨P, hsome, hPlen, hPhd, hPlast, hms⟩ :=
    create_eulerian_path_spec D start hWFD hconnD hevenD hED hstartD
  have hr2 : (create_eulerian_path D start).map create_hamiltonian_path = some r := by
    rw [hDdef, hTdef]
    exact hr
  rw [hsome] at hr2
  simp only [Option.map_some'] at hr2
  have hrP : r = create_hamiltonian_path P := (Option.some.inj hr2).symm
  have hP2 : 2 ≤ P.length := by
    rw [hPlen]
    omega
  have hPvert : ∀ v ∈ P, v < N := by
    intro v hv
    obtain ⟨q, hq, hvq⟩ := mem_walk_pair P v hv hP2
    rw [hms] at hq
    have h := hboundD q hq
    rcases hvq with rfl | rfl
    · exact h.1
    · exact h.2
  -- the walk's cost is twice the tree weight
  have hmstW : msWt M (edgeMS T.edges) = (T.edges.map (fun e => e.2.2)).sum := by
    show ((Multiset.map (fun q => wt M q.1 q.2)
      ((T.edges.map (fun e => nrm (e.1, e.2.1))) : Multiset (ℕ × ℕ)))).sum = _
    rw [Multiset.map_coe, Multiset.sum_coe, List.map_map]
    refine congrArg List.sum (List.map_congr_left ?_)
    intro e he
    have h := hTe e he
    show wt M (nrm (e.1, e.2.1)).1 (nrm (e.1, e.2.1)).2 = e.2.2
    rw [← wt_nrm_self M N hsq e.1 e.2.1 h.1 h.2.1]
    exact h.2.2.2.symm
  have hcostP : pairCost M P = 2 * (T.edges.map (fun e => e.2.2)).sum := by
    rw [pairCost_eq_msWt M N hsq P hPvert, hms, hdupMS, msWt_add, hmstW]
    ring
  -- shortcut: the route costs at most the walk
  obtain ⟨P2, rfl⟩ : ∃ P2, P = start :: P2 := by
    cases P with
    | nil => simp at hPhd
    | cons a P2 =>
        rw [List.head?_cons] at hPhd
        exact ⟨P2, by rw [Option.some.inj hPhd]⟩
  obtain ⟨F, hFeq, hFsub⟩ := fo_split (start :: P2) []
  rw [List.nil_append] at hFeq
  obtain ⟨F2, rfl⟩ : ∃ F2, F = start :: F2 := by
    have hh := fo_head (start :: P2) (by simp)
    rw [hFeq] at hh
    cases F with
    | nil => simp at hh
    | cons a F2 =>
        rw [List.head?_cons, List.head?_cons] at hh
        exact ⟨F2, by rw [Option.some.inj hh]⟩
  have hrform : r = start :: (F2 ++ [start]) := by
    rw [hrP]
    unfold create_hamiltonian_path
    rw [hFeq]
    rfl
  have hPvert2 : ∀ v ∈ P2 ++ [start], v < N := by
    intro v hv
    rw [List.mem_append, List.mem_singleton] at hv
    rcases hv with hv | rfl
    · exact hPvert v (List.mem_cons_of_mem _ hv)
    · exact hstart
  have hshort : pairCost M r ≤ pairCost M ((start :: P2) ++ [start]) := by
    rw [hrform]
    show pairCost M (start :: (F2 ++ [start]))
        ≤ pairCost M (start :: (P2 ++ [start]))
    refine chainCost M N hm (P2 ++ [start]) start (F2 ++ [start]) ?_ ?_ hstart hPvert2
    · exact List.Sublist.append (List.cons_sublist_cons.mp hFsub)
        (List.Sublist.refl [start])
    · rw [List.getLast?_concat, List.getLast?_concat]
  have hwalkclose : pairCost M ((start :: P2) ++ [start]) = pairCost M (start :: P2) := by
    rw [pairCost_append_last M N hsq (start :: P2) start start hPlast
      hPvert hstart hstart, wt_diag M N hsq start hstart, add_zero]
  -- the tour bounds the tree weight
  have hLdne : tour.dropLast ≠ [] := by
    intro hc
    rw [hc] at htour
    have := htour.length_eq
    rw [List.length_range] at this
    simp at this
    omega
  have htourne : tour ≠ [] := by
    intro hc
    rw [hc] at hLdne
    exact hLdne rfl
  have htoursplit : tour.dropLast ++ [tour.getLast htourne] = tour :=
    List.dropLast_append_getLast htourne
  have hLdvert : ∀ v ∈ tour.dropLast, v < N := by
    intro v hv
    rw [htour.mem_iff, List.mem_range] at hv
    exact hv
  have hzN : tour.getLast htourne < N := by
    have h1 : tour.getLast? = some (tour.getLast htourne) :=
      List.getLast?_eq_getLast tour htourne
    rw [hclosed] at h1
    obtain ⟨h0, Ld2, hLd⟩ : ∃ h0 Ld2, tour.dropLast = h0 :: Ld2 := by
      cases hLd0 : tour.dropLast with
      | nil => exact absurd hLd0 hLdne
      | cons h0 Ld2 => exact ⟨h0, Ld2, rfl⟩
    have hh : tour.head? = some h0 := by
      conv_lhs => rw [← htoursplit]
      rw [hLd]
      rfl
    rw [hh] at h1
    have := Option.some.inj h1
    rw [← this]
    exact hLdvert h0 (by rw [hLd]; exact List.mem_cons_self _ _)
  have hLdlastN : tour.dropLast.getLast hLdne < N :=
    hLdvert _ (List.getLast_mem hLdne)
  have hcosttour : pairCost M tour.dropLast ≤ pairCost M tour := by
    conv_rhs => rw [← htoursplit]
    rw [pairCost_append_last M N hsq tour.dropLast (tour.getLast htourne)
      (tour.dropLast.getLast hLdne) (List.getLast?_eq_getLast _ hLdne)
      hLdvert hzN hLdlastN]
    have := nonneg_all M N hm (tour.dropLast.getLast hLdne) hLdlastN
      (tour.getLast htourne) hzN
    linarith
  obtain ⟨hStree, hSwt⟩ := path_tree M N hsq hN tour.dropLast htour
  have hmin := mst_minimal M N hsq hN _ hStree
  rw [← hTdef] at hmin
  rw [hSwt] at hmin
  -- assemble
  rw [ctc_eq, ctc_eq]
  calc pairCost M r ≤ pairCost M ((start :: P2) ++ [start]) := hshort
    _ = pairCost M (start :: P2) := hwalkclose
    _ = 2 * (T.edges.map (fun e => e.2.2)).sum := hcostP
    _ ≤ 2 * pairCost M tour.dropLast := by linarith
    _ ≤ 2 * pairCost M tour := by linarith

instance (M : Mat) (N : ℕ) : Decidable (MetricM M N) := by
  unfold MetricM
  infer_instance

/-- A concrete metric 3-vertex instance (all distances 1). -/
def MU : Mat := [[none, some 1, some 1], [some 1, none, some 1], [some 1, some 1, none]]

theorem metricMU : MetricM MU 3 := by
  refine ⟨by decide, by decide, ?_⟩
  intro i hi j hj k hk hne
  obtain ⟨h1, h2, h3⟩ := hne
  interval_cases i <;> interval_cases j <;> interval_cases k <;>
    first
      | exact absurd rfl h1
      | exact absurd rfl h2
      | exact absurd rfl h3
      | norm_num [MU, wt, entry]

/-- Witness for C2: on the unit metric the double-tree route costs at most
twice the tour (0, 1, 2, 0). -/
theorem claim_C2_witness :
    calc_total_cost [0, 2, 1, 0] MU ≤ 2 * calc_total_cost [0, 1, 2, 0] MU :=
  claim_C2 MU 3 0 metricMU (by decide) (by decide) [0, 2, 1, 0] [0, 1, 2, 0]
    (by decide) (by decide) (by decide)

/-- Counterexample to the claim's example clause: on the spec's 3-vertex
instance (weights 1, 1, 3, which violates the triangle inequality) the
double-tree route from 0 costs 5, not at most 4. -/
theorem claim_C2_counterexample :
    double_tree_algorithm M3 0 = some [0, 1, 2, 0] ∧
    calc_total_cost [0, 1, 2, 0] M3 = 5 ∧
    ¬ ((5 : Weight) ≤ 4) := by
  refine ⟨by decide, ?_, by norm_num⟩
  rw [ctc_eq]
  show wt M3 0 1 + (wt M3 1 2 + (wt M3 2 0 + 0)) = 5
  norm_num [wt, entry, M3]
